import Mathlib

/-!
Password hashes of `pkg/security/password.go`

A shallow embedding of the credential-hash code: the hash representations, the
lexical recognisers (`bcryptHashRe`, `scramHashRe`, `isMD5Hash`), the loader
`LoadPasswordHash`, the verifiers, `HashPassword`, `CheckPasswordHashValidity`
and the hashing semaphore.

Conventions.
* A Go `[]byte` or `string` is a `List Byte`; a byte is a natural number below 256.
* A Go `error` is a `GoError`; a `nil` error is `none`.
* The libraries the file imports (`bcrypt`, `pbkdf2`, `hmac`, `stringprep`) are
  the fields of `Libs`; nothing is assumed about them unless a theorem says so.
* The package-level semaphore is threaded through the functions as `Globals`.
-/

namespace security

/-! ## Bytes -/

/-- One byte of a Go `[]byte` or `string`. -/
abbrev Byte := Nat

/-- The bytes of an ASCII string literal of the source. -/
def bytesOf (s : String) : List Byte := s.toList.map Char.toNat

/-! ## Errors -/

/-- The Go error values that can flow through this file. -/
inductive GoError where
  /-- `bcrypt.ErrMismatchedHashAndPassword`. -/
  | ErrMismatchedHashAndPassword
  /-- `bcrypt.ErrHashTooShort`. -/
  | ErrHashTooShort
  /-- `bcrypt.InvalidHashPrefixError`. -/
  | InvalidHashPrefixError (b : Byte)
  /-- `bcrypt.HashVersionTooNewError`. -/
  | HashVersionTooNewError (b : Byte)
  /-- `bcrypt.InvalidCostError`. -/
  | InvalidCostError (c : Int)
  /-- `strconv.ErrSyntax`. -/
  | ErrSyntax
  /-- `strconv.ErrRange`. -/
  | ErrRange
  /-- `*strconv.NumError`, wrapping `ErrSyntax` or `ErrRange`. -/
  | NumError (fn : String) (num : List Byte) (err : GoError)
  /-- `base64.CorruptInputError` (the byte offset it carries is not modelled). -/
  | CorruptInputError
  /-- `context.Canceled`. -/
  | Canceled
  /-- `context.DeadlineExceeded`. -/
  | DeadlineExceeded
  /-- The error of a closed quota pool. -/
  | ErrClosed (reason : String)
  /-- The result of `errors.Wrap(err, msg)`. -/
  | Wrap (err : GoError) (msg : String)
  /-- The result of `errors.New` or `errors.Newf`. -/
  | New (msg : String)
  deriving DecidableEq, Repr

/-- The function `errors.Is(err, target)`: `target` is `err` or one of the errors it wraps. -/
def errorsIs : GoError → GoError → Bool
  | .Wrap err msg, target => decide (GoError.Wrap err msg = target) || errorsIs err target
  | .NumError fn num err, target =>
      decide (GoError.NumError fn num err = target) || errorsIs err target
  | e, target => decide (e = target)

/-! ## SHA-256 (`crypto/sha256`), needed for the constant `sha256NewSum` -/

namespace sha256

/-- The round constants. -/
def K : List Nat := [
  0x428a2f98, 0x71374491, 0xb5c0fbcf, 0xe9b5dba5, 0x3956c25b, 0x59f111f1, 0x923f82a4, 0xab1c5ed5,
  0xd807aa98, 0x12835b01, 0x243185be, 0x550c7dc3, 0x72be5d74, 0x80deb1fe, 0x9bdc06a7, 0xc19bf174,
  0xe49b69c1, 0xefbe4786, 0x0fc19dc6, 0x240ca1cc, 0x2de92c6f, 0x4a7484aa, 0x5cb0a9dc, 0x76f988da,
  0x983e5152, 0xa831c66d, 0xb00327c8, 0xbf597fc7, 0xc6e00bf3, 0xd5a79147, 0x06ca6351, 0x14292967,
  0x27b70a85, 0x2e1b2138, 0x4d2c6dfc, 0x53380d13, 0x650a7354, 0x766a0abb, 0x81c2c92e, 0x92722c85,
  0xa2bfe8a1, 0xa81a664b, 0xc24b8b70, 0xc76c51a3, 0xd192e819, 0xd6990624, 0xf40e3585, 0x106aa070,
  0x19a4c116, 0x1e376c08, 0x2748774c, 0x34b0bcb5, 0x391c0cb3, 0x4ed8aa4a, 0x5b9cca4f, 0x682e6ff3,
  0x748f82ee, 0x78a5636f, 0x84c87814, 0x8cc70208, 0x90befffa, 0xa4506ceb, 0xbef9a3f7, 0xc67178f2]

/-- The initial hash value. -/
def init : List Nat :=
  [0x6a09e667, 0xbb67ae85, 0x3c6ef372, 0xa54ff53a, 0x510e527f, 0x9b05688c, 0x1f83d9ab, 0x5be0cd19]

/-- Truncation to a 32-bit word. -/
def w32 (x : Nat) : Nat := x % 2 ^ 32

/-- Rotation of a 32-bit word to the right. -/
def rotr (x n : Nat) : Nat := w32 ((x >>> n) ||| (x <<< (32 - n)))

/-- Big-endian encoding of `x` on `n` bytes. -/
def beBytes : Nat → Nat → List Byte
  | 0, _ => []
  | n + 1, x => (x / 256 ^ n) % 256 :: beBytes n x

/-- Big-endian value of a byte list. -/
def beVal (bs : List Byte) : Nat := bs.foldl (fun acc b => acc * 256 + b) 0

/-- Message padding: `0x80`, zero fill up to 56 modulo 64, then the bit length on 8 bytes. -/
def pad (msg : List Byte) : List Byte :=
  msg ++ [0x80] ++ List.replicate ((119 - msg.length % 64) % 64) 0 ++ beBytes 8 (8 * msg.length)

/-- The first `fuel` chunks of `n` elements of a list. -/
def chunks (n : Nat) : Nat → List Byte → List (List Byte)
  | 0, _ => []
  | fuel + 1, l => if l = [] then [] else l.take n :: chunks n fuel (l.drop n)

/-- Extension of the sixteen words of a block by `n` more words of the message schedule. -/
def schedule : Nat → List Nat → List Nat
  | 0, w => w
  | n + 1, w =>
    let i := w.length
    let w15 := w.getD (i - 15) 0
    let w2 := w.getD (i - 2) 0
    let s0 := rotr w15 7 ^^^ rotr w15 18 ^^^ (w15 >>> 3)
    let s1 := rotr w2 17 ^^^ rotr w2 19 ^^^ (w2 >>> 10)
    schedule n (w ++ [w32 (w.getD (i - 16) 0 + s0 + w.getD (i - 7) 0 + s1)])

/-- The eight working variables. -/
structure Regs where
  a : Nat
  b : Nat
  c : Nat
  d : Nat
  e : Nat
  f : Nat
  g : Nat
  h : Nat

/-- One round of the compression function, on a round constant and a schedule word. -/
def round (r : Regs) (kw : Nat × Nat) : Regs :=
  let s1 := rotr r.e 6 ^^^ rotr r.e 11 ^^^ rotr r.e 25
  let ch := (r.e &&& r.f) ^^^ ((r.e ^^^ 0xffffffff) &&& r.g)
  let t1 := w32 (r.h + s1 + ch + kw.1 + kw.2)
  let s0 := rotr r.a 2 ^^^ rotr r.a 13 ^^^ rotr r.a 22
  let maj := (r.a &&& r.b) ^^^ (r.a &&& r.c) ^^^ (r.b &&& r.c)
  let t2 := w32 (s0 + maj)
  { a := w32 (t1 + t2), b := r.a, c := r.b, d := r.c,
    e := w32 (r.d + t1), f := r.e, g := r.f, h := r.g }

/-- The compression of one 64-byte block into the running hash value. -/
def block (hs : List Nat) (blk : List Byte) : List Nat :=
  let w := schedule 48 ((chunks 4 16 blk).map beVal)
  let r0 : Regs :=
    { a := hs.getD 0 0, b := hs.getD 1 0, c := hs.getD 2 0, d := hs.getD 3 0,
      e := hs.getD 4 0, f := hs.getD 5 0, g := hs.getD 6 0, h := hs.getD 7 0 }
  let r := (K.zip w).foldl round r0
  List.zipWith (fun x y => w32 (x + y)) hs [r.a, r.b, r.c, r.d, r.e, r.f, r.g, r.h]

/-- The SHA-256 digest of a message: what `h.Sum(nil)` returns once `msg` was written to `h`. -/
def Sum256 (msg : List Byte) : List Byte :=
  let p := pad msg
  ((chunks 64 (p.length / 64) p).foldl block init).flatMap (beBytes 4)

/-- The constant `sha256.Size`. -/
def Size : Nat := 32

end sha256

/-! ## `strconv` and `encoding/base64` -/

/-- The digit loop of `strconv.ParseUint(s, 10, 64)`: `n` is the value read so far. -/
def parseUintLoop : List Byte → Nat → Except GoError Nat
  | [], n => .ok n
  | c :: cs, n =>
    if c < 48 ∨ 57 < c then .error .ErrSyntax
    else if (2 ^ 64 - 1) / 10 + 1 ≤ n then .error .ErrRange
    else if 2 ^ 64 - 1 < n * 10 + (c - 48) then .error .ErrRange
    else parseUintLoop cs (n * 10 + (c - 48))

/-- The function `strconv.ParseInt(s, 10, bitSize)` for `bitSize` 64 (also 0 on a 64-bit
platform), without the `NumError` wrapper: an optional sign, then decimal digits. -/
def parseInt10 (s : List Byte) : Except GoError Int :=
  match s with
  | [] => .error .ErrSyntax
  | c :: rest =>
    let neg := c = 45
    let digits := if c = 43 ∨ c = 45 then rest else s
    if digits = [] then .error .ErrSyntax
    else
      match parseUintLoop digits 0 with
      | .error e => .error e
      | .ok un =>
        if ¬ neg ∧ 2 ^ 63 ≤ un then .error .ErrRange
        else if neg ∧ 2 ^ 63 < un then .error .ErrRange
        else .ok (if neg then - (un : Int) else (un : Int))

/-- The function `strconv.ParseInt(s, 10, 64)`. -/
def ParseInt (s : List Byte) : Except GoError Int :=
  match parseInt10 s with
  | .ok n => .ok n
  | .error e => .error (.NumError "ParseInt" s e)

/-- The function `strconv.Atoi(s)` on a platform whose `int` has 64 bits. -/
def Atoi (s : List Byte) : Except GoError Int :=
  match parseInt10 s with
  | .ok n => .ok n
  | .error e => .error (.NumError "Atoi" s e)

namespace base64

/-- The value of a character of the standard alphabet
`ABCDEFGHIJKLMNOPQRSTUVWXYZabcdefghijklmnopqrstuvwxyz0123456789+/`. -/
def decodeMap (c : Byte) : Option Nat :=
  if 65 ≤ c ∧ c ≤ 90 then some (c - 65)
  else if 97 ≤ c ∧ c ≤ 122 then some (c - 97 + 26)
  else if 48 ≤ c ∧ c ≤ 57 then some (c - 48 + 52)
  else if c = 43 then some 62
  else if c = 47 then some 63
  else none

/-- The padding character `=`. -/
def padChar : Byte := 61

/-- The quanta of `StdEncoding.Decode` (padded, not strict), on an input without line breaks:
four characters give three bytes; `xx==` and `xxx=` are allowed as the last quantum only. -/
def decodeQuanta : Nat → List Byte → Except GoError (List Byte)
  | 0, _ => .error .CorruptInputError
  | _, [] => .ok []
  | fuel + 1, a :: b :: c :: d :: rest =>
    match decodeMap a, decodeMap b with
    | some va, some vb =>
      match decodeMap c, decodeMap d with
      | some vc, some vd =>
        let val := va * 2 ^ 18 + vb * 2 ^ 12 + vc * 2 ^ 6 + vd
        match decodeQuanta fuel rest with
        | .ok out => .ok (val / 2 ^ 16 % 256 :: val / 2 ^ 8 % 256 :: val % 256 :: out)
        | .error e => .error e
      | some vc, none =>
        if d = padChar ∧ rest = [] then
          let val := va * 2 ^ 18 + vb * 2 ^ 12 + vc * 2 ^ 6
          .ok [val / 2 ^ 16 % 256, val / 2 ^ 8 % 256]
        else .error .CorruptInputError
      | none, _ =>
        if c = padChar ∧ d = padChar ∧ rest = [] then
          let val := va * 2 ^ 18 + vb * 2 ^ 12
          .ok [val / 2 ^ 16 % 256]
        else .error .CorruptInputError
    | _, _ => .error .CorruptInputError
  | _, _ => .error .CorruptInputError

/-- The function `base64.StdEncoding.DecodeString`: carriage returns and line feeds are
skipped, the rest is decoded quantum by quantum. -/
def DecodeString (s : List Byte) : Except GoError (List Byte) :=
  let src := s.filter (fun c => c ≠ 10 ∧ c ≠ 13)
  decodeQuanta (src.length + 1) src

end base64

/-! ## Regular expressions (`regexp`), as `RegularExpression Byte` -/

namespace re

/-- The literal string `s`. -/
def lit (s : List Byte) : RegularExpression Byte :=
  s.foldr (fun c r => RegularExpression.comp (RegularExpression.char c) r)
    RegularExpression.epsilon

/-- A character class, given by its members. -/
def cls (l : List Byte) : RegularExpression Byte :=
  l.foldr (fun c r => RegularExpression.plus (RegularExpression.char c) r)
    RegularExpression.zero

/-- The operator `r?`. -/
def opt (r : RegularExpression Byte) : RegularExpression Byte :=
  RegularExpression.plus r RegularExpression.epsilon

/-- The operator `r+`. -/
def many1 (r : RegularExpression Byte) : RegularExpression Byte :=
  RegularExpression.comp r (RegularExpression.star r)

/-- The operator `r{n}`. -/
def rep : Nat → RegularExpression Byte → RegularExpression Byte
  | 0, _ => RegularExpression.epsilon
  | n + 1, r => RegularExpression.comp r (rep n r)

/-- The sequence of the regular expressions of a list. -/
def seq (l : List (RegularExpression Byte)) : RegularExpression Byte :=
  l.foldr RegularExpression.comp RegularExpression.epsilon

/-- The class `\d`, which is `[0-9]`. -/
def digit : List Byte := List.range' 48 10

/-- The class `[a-z]`. -/
def lower : List Byte := List.range' 97 26

/-- The class `[A-Z]`. -/
def upper : List Byte := List.range' 65 26

/-- An instruction of a compiled pattern, for the patterns that are a sequence of literals and
of repetitions of character classes: a literal string, a greedy repetition `[cls]{min,max}`
(`max` absent for `*` and `+`), or the mark of a group boundary, which saves the position in
the slot `k` (slot `2 * i` is the start of group `i`, slot `2 * i + 1` its end). -/
inductive Inst where
  | lit (s : List Byte)
  | rep (cls : List Byte) (min : Nat) (max : Option Nat)
  | cap (k : Nat)
  deriving DecidableEq, Repr

/-- The number of leading bytes of `rest` that are in the class, `max` at most. -/
def longest (cls : List Byte) (max : Option Nat) (rest : List Byte) : Nat :=
  let m := (rest.takeWhile (fun c => decide (c ∈ cls))).length
  match max with
  | none => m
  | some k => Nat.min m k

/-- The counts that a greedy repetition tries, from the longest one `n` down to `min`. -/
def counts (n min : Nat) : List Nat := (List.range (n + 1 - min)).map (fun j => n - j)

/-- The run of a pattern between `^` and `$` on what is left of the input, `pos` bytes into
it: the first way to match in the order of preference of `regexp` (a repetition takes as much
as it can and gives back byte by byte), with the slots that the marks filled. -/
def exec : List Inst → List Byte → Nat → List Nat → Option (List Nat)
  | [], rest, _, caps => if rest = [] then some caps else none
  | .lit s :: prog, rest, pos, caps =>
    if s.isPrefixOf rest then exec prog (rest.drop s.length) (pos + s.length) caps else none
  | .rep cls min max :: prog, rest, pos, caps =>
    (counts (longest cls max rest) min).findSome?
      (fun k => exec prog (rest.drop k) (pos + k) caps)
  | .cap k :: prog, rest, pos, caps => exec prog rest pos (caps.set k pos)

/-- The number of groups of a pattern (`NumSubexp`): each group has two marks. -/
def groups (prog : List Inst) : Nat :=
  (prog.filter (fun i => match i with
    | .cap _ => true
    | _ => false)).length / 2

/-- The method `FindSubmatch` of a pattern between `^` and `$`: `none` (`nil`) when the input
does not match, and otherwise the whole match followed by one entry for each group. -/
def FindSubmatch (prog : List Inst) (input : List Byte) : Option (List (List Byte)) :=
  match exec prog input 0 (0 :: input.length :: List.replicate (2 * groups prog) 0) with
  | none => none
  | some caps =>
    some ((List.range (1 + groups prog)).map (fun i =>
      (input.drop (caps.getD (2 * i) 0)).take (caps.getD (2 * i + 1) 0 - caps.getD (2 * i) 0)))

end re

/-! ## Hash representations -/

/-- The type `HashMethod`: which password hash method is in use. -/
inductive HashMethod where
  /-- Invalid hashes; this always fails authentication. -/
  | HashInvalidMethod
  /-- The virtual hash when there was no password; this too always fails authentication. -/
  | HashMissingPassword
  /-- The bcrypt-based method of CockroachDB. -/
  | HashBCrypt
  /-- The method SCRAM-SHA-256. -/
  | HashSCRAMSHA256
  deriving DecidableEq, Repr

/-- The type `scram.KeyFactors`. -/
structure KeyFactors where
  Salt : List Byte
  Iters : Int
  deriving DecidableEq, Repr

/-- The type `scram.StoredCredentials`. -/
structure StoredCredentials where
  KeyFactors : KeyFactors
  StoredKey : List Byte
  ServerKey : List Byte
  deriving DecidableEq, Repr

/-- The interface `PasswordHash` with its four implementations. -/
inductive PasswordHash where
  /-- The type `emptyPassword`: there was no password to start with. -/
  | emptyPassword
  /-- The type `invalidHash`: a byte slice in an unknown hash format, kept as it is. -/
  | invalidHash (n : List Byte)
  /-- The type `bcryptHash`: a bcrypt-based hashed password. -/
  | bcryptHash (b : List Byte)
  /-- The type `ScramHash`: a SCRAM-SHA-256 password hash. -/
  | ScramHash (bytes : List Byte) (decoded : StoredCredentials)
  deriving DecidableEq, Repr

/-- The method `Method` of the four implementations. -/
def PasswordHash.Method : PasswordHash → HashMethod
  | .emptyPassword => .HashMissingPassword
  | .invalidHash _ => .HashInvalidMethod
  | .bcryptHash _ => .HashBCrypt
  | .ScramHash _ _ => .HashSCRAMSHA256

/-- The method `String` of the four implementations. -/
def PasswordHash.String : PasswordHash → List Byte
  | .emptyPassword => bytesOf "<missing>"
  | .invalidHash n => n
  | .bcryptHash b => b
  | .ScramHash bytes _ => bytes

/-- The method `StoredCredentials` of `ScramHash`. -/
def PasswordHash.StoredCredentials : PasswordHash → Option StoredCredentials
  | .ScramHash _ decoded => some decoded
  | _ => none

/-! ## Recognisers -/

/-- The constant `crdbBcryptPrefix`. -/
def crdbBcryptPrefix : List Byte := bytesOf "CRDB-BCRYPT"

/-- The class `[0-9A-Za-z\./]` of `bcryptHashRe`. -/
def bcryptAlphabet : List Byte := re.digit ++ re.upper ++ re.lower ++ [46, 47]

/-- The pattern `bcryptHashRe`:
`^(CRDB-BCRYPT)?\$\d[a-z]?\$\d\d\$[0-9A-Za-z\./]{22}[0-9A-Za-z\./]+$`. -/
def bcryptHashRe : RegularExpression Byte :=
  re.seq [re.opt (re.lit crdbBcryptPrefix), RegularExpression.char 36, re.cls re.digit,
    re.opt (re.cls re.lower), RegularExpression.char 36, re.cls re.digit, re.cls re.digit,
    RegularExpression.char 36, re.rep 22 (re.cls bcryptAlphabet), re.many1 (re.cls bcryptAlphabet)]

/-- The function `bytes.HasPrefix`. -/
def HasPrefix (s p : List Byte) : Bool := p.isPrefixOf s

/-- The function `isBcryptHash`: whether the input is in the CockroachDB bcrypt format; with
`strict` the `CRDB-BCRYPT` prefix is required. -/
def isBcryptHash (inputPassword : List Byte) (strict : Bool) : Bool :=
  if ! bcryptHashRe.rmatch inputPassword then false
  else if strict && ! HasPrefix inputPassword (crdbBcryptPrefix ++ [36]) then false
  else true

/-- The class `[A-Za-z0-9+/]` of `scramHashRe`. -/
def scramAlphabet : List Byte := re.upper ++ re.lower ++ re.digit ++ [43, 47]

/-- The pattern `scramHashRe`:
`^SCRAM-SHA-256\$(\d+):([A-Za-z0-9+/]+=*)\$([A-Za-z0-9+/]{43}=):([A-Za-z0-9+/]{43}=)$`. -/
def scramHashRe : RegularExpression Byte :=
  re.seq [re.lit (bytesOf "SCRAM-SHA-256"), RegularExpression.char 36,
    re.many1 (re.cls re.digit), RegularExpression.char 58,
    re.many1 (re.cls scramAlphabet), RegularExpression.star (RegularExpression.char 61),
    RegularExpression.char 36,
    re.rep 43 (re.cls scramAlphabet), RegularExpression.char 61, RegularExpression.char 58,
    re.rep 43 (re.cls scramAlphabet), RegularExpression.char 61]

/-- The submatches `FindSubmatch` reports for an input that matches `scramHashRe`: the whole
input, then the four groups. The first group runs up to the first `:`, the second from there
up to the next `$`, the third is the next 44 bytes and the fourth follows the `:` after it. -/
def scramSubmatches (inputPassword : List Byte) : List (List Byte) :=
  let afterName := inputPassword.drop 14
  let iters := afterName.takeWhile (fun c => c ≠ 58)
  let afterIters := (afterName.dropWhile (fun c => c ≠ 58)).drop 1
  let salt := afterIters.takeWhile (fun c => c ≠ 36)
  let afterSalt := (afterIters.dropWhile (fun c => c ≠ 36)).drop 1
  [inputPassword, iters, salt, afterSalt.take 44, (afterSalt.drop 45).take 44]

/-- The function `isSCRAMHash`: whether the input matches `scramHashRe`, with the submatches
(`nil`, here the empty list, when it does not match). -/
def isSCRAMHash (inputPassword : List Byte) : Bool × List (List Byte) :=
  if scramHashRe.rmatch inputPassword then (true, scramSubmatches inputPassword)
  else (false, [])

/-- The pattern `scramHashRe` with its four groups, as a compiled pattern:
`^SCRAM-SHA-256\$(\d+):([A-Za-z0-9+/]+=*)\$([A-Za-z0-9+/]{43}=):([A-Za-z0-9+/]{43}=)$`. -/
def scramProg : List re.Inst :=
  [.lit (bytesOf "SCRAM-SHA-256$"),
    .cap 2, .rep re.digit 1 none, .cap 3, .lit [58],
    .cap 4, .rep scramAlphabet 1 none, .rep [61] 0 none, .cap 5, .lit [36],
    .cap 6, .rep scramAlphabet 43 (some 43), .lit [61], .cap 7, .lit [58],
    .cap 8, .rep scramAlphabet 43 (some 43), .lit [61], .cap 9]

/-- The function `bytes.Trim(s, cutset)`. -/
def Trim (s cutset : List Byte) : List Byte :=
  ((s.dropWhile (fun c => decide (c ∈ cutset))).reverse.dropWhile
    (fun c => decide (c ∈ cutset))).reverse

/-- The function `isMD5Hash`. -/
def isMD5Hash (hashedPassword : List Byte) : Bool :=
  HasPrefix hashedPassword (bytesOf "md5") &&
    decide (hashedPassword.length = 35) &&
    decide ((Trim (hashedPassword.drop 3) (bytesOf "0123456789abcdef")).length = 0)

/-! ## Loading a stored hash -/

/-- The function `makeSCRAMHash`; `none` stands for the run-time panic of an index out of range
in `parts`. -/
def makeSCRAMHash (storedHash : List Byte) (parts : List (List Byte))
    (invalidHash : PasswordHash) : Option PasswordHash :=
  match parts[1]?, parts[2]?, parts[3]?, parts[4]? with
  | some p1, some p2, some p3, some p4 =>
    match Atoi p1 with
    | .error _ => some invalidHash
    | .ok iters =>
      match base64.DecodeString p2 with
      | .error _ => some invalidHash
      | .ok salt =>
        match base64.DecodeString p3 with
        | .error _ => some invalidHash
        | .ok storedKey =>
          match base64.DecodeString p4 with
          | .error _ => some invalidHash
          | .ok serverKey =>
            some (.ScramHash storedHash
              { KeyFactors := { Salt := salt, Iters := iters },
                StoredKey := storedKey, ServerKey := serverKey })
  | _, _, _, _ => none

/-- The function `LoadPasswordHash`: decodes a password hash loaded as bytes from a credential
store; `none` stands for a run-time panic. -/
def LoadPasswordHash (storedHash : List Byte) : Option PasswordHash :=
  let res := PasswordHash.invalidHash storedHash
  if storedHash.length = 0 then some .emptyPassword
  else if isBcryptHash storedHash false then some (.bcryptHash storedHash)
  else if (isSCRAMHash storedHash).1 then makeSCRAMHash storedHash (isSCRAMHash storedHash).2 res
  else some res

/-! ## The imported libraries -/

/-- The functions of the imported packages that the file calls. -/
structure Libs where
  /-- The function `bcrypt.GenerateFromPassword(password, cost)`; `entropy` is what it reads from
  the random source for the salt. -/
  GenerateFromPassword : (entropy password : List Byte) → (cost : Int) →
    Except GoError (List Byte)
  /-- The function `bcrypt.CompareHashAndPassword(hashedPassword, password)`; `none` is `nil`. -/
  CompareHashAndPassword : (hashedPassword password : List Byte) → Option GoError
  /-- The function `bcrypt.Cost(hashedPassword)`. -/
  Cost : (hashedPassword : List Byte) → Except GoError Int
  /-- The function `stringprep.SASLprep.Prepare(s)`. -/
  SASLprepPrepare : (s : List Byte) → Except GoError (List Byte)
  /-- The function `pbkdf2.Key(password, salt, iter, keyLen, sha256.New)`. -/
  pbkdf2Key : (password salt : List Byte) → (iter : Int) → (keyLen : Nat) → List Byte
  /-- The calls `mac := hmac.New(sha256.New, key); mac.Write(data); mac.Sum(nil)`. -/
  hmacSum : (key data : List Byte) → List Byte

/-- The constant `bcrypt.MinCost`. -/
def bcryptMinCost : Int := 4

/-- The constant `bcrypt.MaxCost`. -/
def bcryptMaxCost : Int := 31

/-! ## Settings -/

/-- The cluster settings the file registers (`settings.Values`, restricted to them). -/
structure Values where
  /-- The setting `BcryptCost`, default 10. -/
  BcryptCost : Int
  /-- The setting `AutoDetectPasswordHashes`, default true. -/
  AutoDetectPasswordHashes : Bool
  /-- The setting `MinPasswordLength`, default 1. -/
  MinPasswordLength : Int

/-- The validation function of the setting `BcryptCost`; `none` is `nil`. -/
def BcryptCostValidate (i : Int) : Option GoError :=
  if i < bcryptMinCost ∨ i > bcryptMaxCost then some (.InvalidCostError i) else none

/-- The constant `scramMinCost`. -/
def scramMinCost : Int := 4096

/-- The constant `scramMaxCost`. -/
def scramMaxCost : Int := 240000000000

/-! ## The hashing semaphore -/

/-- Modelled from the spec: the type `quotapool.IntPool` of `pkg/util/quotapool`, which is not
among the sources. The spec describes a simple counting semaphore with scoped acquire and
release, whose capacity never changes. -/
structure IntPool where
  /-- The capacity the pool was created with. -/
  capacity : Nat
  /-- The number of permits that are free. -/
  available : Nat
  deriving DecidableEq, Repr

/-- Modelled from the spec: the function `quotapool.NewIntPool(name, capacity)`; all permits are
free. -/
def NewIntPool (capacity : Nat) : IntPool := { capacity := capacity, available := capacity }

/-- The argument `ctx`: what matters of a `context.Context` here is the error, if any, that
interrupts a caller waiting for a permit (cancellation of the context, or shutdown). -/
structure Context where
  err : Option GoError
  deriving DecidableEq, Repr

/-- Modelled from the spec: the method `Acquire(ctx, 1)`. A free permit is taken at once;
with none free the caller waits, and the wait ends with the error of `ctx` if there is one.
`none` stands for a caller that waits for ever (no permit is released in between and the wait is
not interrupted). -/
def IntPool.Acquire (sem : IntPool) (ctx : Context) : Option (Except GoError IntPool) :=
  if 1 ≤ sem.available then some (.ok { sem with available := sem.available - 1 })
  else
    match ctx.err with
    | some e => some (.error e)
    | none => none

/-- Modelled from the spec: the method `Release` of the allocation of one permit. -/
def IntPool.Release (sem : IntPool) : IntPool :=
  { sem with available := min sem.capacity (sem.available + 1) }

/-- The package-level state: the variable `envMaxHashComputeConcurrency`, the value of
`runtime.GOMAXPROCS(-1)`, and `expensiveHashComputeSemOnce` (`none` until `once.Do` has run). -/
structure Globals where
  envMaxHashComputeConcurrency : Int
  GOMAXPROCS : Int
  expensiveHashComputeSemOnce : Option IntPool
  deriving DecidableEq, Repr

/-- The capacity computed inside `once.Do` in `getExpensiveHashComputeSem`. -/
def hashComputeConcurrency (g : Globals) : Int :=
  let n :=
    if g.envMaxHashComputeConcurrency ≥ 1 then g.envMaxHashComputeConcurrency
    else Int.tdiv g.GOMAXPROCS 8
  if n < 1 then 1 else n

/-- The function `getExpensiveHashComputeSem`: the semaphore, created on first use. -/
def getExpensiveHashComputeSem (g : Globals) : Globals × IntPool :=
  match g.expensiveHashComputeSemOnce with
  | some sem => (g, sem)
  | none =>
    let sem := NewIntPool (hashComputeConcurrency g).toNat
    ({ g with expensiveHashComputeSemOnce := some sem }, sem)

/-- The semaphore after an update of its permits. -/
def Globals.setSem (g : Globals) (sem : IntPool) : Globals :=
  { g with expensiveHashComputeSemOnce := some sem }

/-- The number of permits that are free in the semaphore that `getExpensiveHashComputeSem`
returns. -/
def availablePermits (g : Globals) : Nat := (getExpensiveHashComputeSem g).2.available

/-! ## Comparing a hash with a cleartext password -/

/-- The variable `sha256NewSum`, which is `sha256.New().Sum(nil)`: the digest of a hash to which
nothing was written. -/
def sha256NewSum : List Byte := sha256.Sum256 []

/-- The function `appendEmptySha256`. -/
def appendEmptySha256 (password : List Byte) : List Byte := password ++ sha256NewSum

/-- The result `(ok bool, err error)` of a comparison. -/
abbrev CompareResult := Bool × Option GoError

/-- The method `compareWithCleartextPassword` of `emptyPassword`. -/
def emptyPassword.compareWithCleartextPassword (_ctx : Context) (_cleartext : List Byte) :
    CompareResult :=
  (false, none)

/-- The method `compareWithCleartextPassword` of `invalidHash`. -/
def invalidHash.compareWithCleartextPassword (_n : List Byte) (_ctx : Context)
    (_cleartext : List Byte) : CompareResult :=
  (false, none)

/-- The method `compareWithCleartextPassword` of `bcryptHash`, with the package state before
and after; `none` when the caller waits for a permit for ever. -/
def bcryptHash.compareWithCleartextPassword (lib : Libs) (g : Globals) (b : List Byte)
    (ctx : Context) (cleartext : List Byte) : Option (CompareResult × Globals) :=
  let (g1, sem) := getExpensiveHashComputeSem g
  match sem.Acquire ctx with
  | none => none
  | some (.error err) => some ((false, some err), g1)
  | some (.ok held) =>
    let res : CompareResult :=
      match lib.CompareHashAndPassword b (appendEmptySha256 cleartext) with
      | some err =>
        if errorsIs err .ErrMismatchedHashAndPassword then (false, none) else (false, some err)
      | none => (true, none)
    -- the deferred `alloc.Release()`
    some (res, g1.setSem held.Release)

/-- The function `computeHMAC`, with `scram.SHA256` as the hash generator. -/
def computeHMAC (lib : Libs) (key data : List Byte) : List Byte := lib.hmacSum key data

/-- The method `compareWithCleartextPassword` of `ScramHash`, with the package state before and
after; `none` when the caller waits for a permit for ever. -/
def ScramHash.compareWithCleartextPassword (lib : Libs) (g : Globals)
    (decoded : StoredCredentials) (ctx : Context) (cleartext : List Byte) :
    Option (CompareResult × Globals) :=
  let (g1, sem) := getExpensiveHashComputeSem g
  match sem.Acquire ctx with
  | none => none
  | some (.error err) => some ((false, some err), g1)
  | some (.ok held) =>
    let prepared :=
      match lib.SASLprepPrepare cleartext with
      | .ok prepared => prepared
      | .error _ => cleartext
    let saltedPassword :=
      lib.pbkdf2Key prepared decoded.KeyFactors.Salt decoded.KeyFactors.Iters sha256.Size
    let serverKey := computeHMAC lib saltedPassword (bytesOf "Server Key")
    -- the deferred `alloc.Release()`
    some ((decide (serverKey = decoded.ServerKey), none), g1.setSem held.Release)

/-- The method `compareWithCleartextPassword` of the interface `PasswordHash`. -/
def PasswordHash.compareWithCleartextPassword (lib : Libs) (g : Globals) :
    PasswordHash → Context → List Byte → Option (CompareResult × Globals)
  | .emptyPassword, ctx, cleartext =>
    some (emptyPassword.compareWithCleartextPassword ctx cleartext, g)
  | .invalidHash n, ctx, cleartext =>
    some (invalidHash.compareWithCleartextPassword n ctx cleartext, g)
  | .bcryptHash b, ctx, cleartext => bcryptHash.compareWithCleartextPassword lib g b ctx cleartext
  | .ScramHash _ decoded, ctx, cleartext =>
    ScramHash.compareWithCleartextPassword lib g decoded ctx cleartext

/-- The function `CompareHashAndCleartextPassword`. -/
def CompareHashAndCleartextPassword (lib : Libs) (g : Globals) (ctx : Context)
    (hashedPassword : PasswordHash) (password : List Byte) : Option (CompareResult × Globals) :=
  hashedPassword.compareWithCleartextPassword lib g ctx password

/-- The function `HashPassword`, with the package state before and after; `entropy` is what
the bcrypt package reads from the random source; `none` when the caller waits for a permit for
ever. -/
def HashPassword (lib : Libs) (g : Globals) (ctx : Context) (sv : Values)
    (entropy password : List Byte) : Option (Except GoError (List Byte) × Globals) :=
  let (g1, sem) := getExpensiveHashComputeSem g
  match sem.Acquire ctx with
  | none => none
  | some (.error err) => some (.error err, g1)
  | some (.ok held) =>
    let res := lib.GenerateFromPassword entropy (appendEmptySha256 password) sv.BcryptCost
    -- the deferred `alloc.Release()`
    some (res, g1.setSem held.Release)

/-! ## The permit during a hash computation -/

/-- What a call that computes a hash does to the package state: its result, the package state
while the hash is computed (`none` when the call returns without computing a hash), and the
package state that the call leaves. -/
structure Traced (α : Type) where
  result : α
  during : Option Globals
  after : Globals

/-- The method `compareWithCleartextPassword` of `bcryptHash`, statement by statement, with the
package state in which `bcrypt.CompareHashAndPassword` runs. -/
def bcryptHash.compareTraced (lib : Libs) (g : Globals) (b : List Byte) (ctx : Context)
    (cleartext : List Byte) : Option (Traced CompareResult) :=
  let (g1, sem) := getExpensiveHashComputeSem g
  match sem.Acquire ctx with
  | none => none
  | some (.error err) => some { result := (false, some err), during := none, after := g1 }
  | some (.ok held) =>
    let computing := g1.setSem held
    let res : CompareResult :=
      match lib.CompareHashAndPassword b (appendEmptySha256 cleartext) with
      | some err =>
        if errorsIs err .ErrMismatchedHashAndPassword then (false, none) else (false, some err)
      | none => (true, none)
    -- the deferred `alloc.Release()`
    some { result := res, during := some computing, after := g1.setSem held.Release }

/-- The method `compareWithCleartextPassword` of `ScramHash`, statement by statement, with the
package state in which `pbkdf2.Key` and the HMAC run. -/
def ScramHash.compareTraced (lib : Libs) (g : Globals) (decoded : StoredCredentials)
    (ctx : Context) (cleartext : List Byte) : Option (Traced CompareResult) :=
  let (g1, sem) := getExpensiveHashComputeSem g
  match sem.Acquire ctx with
  | none => none
  | some (.error err) => some { result := (false, some err), during := none, after := g1 }
  | some (.ok held) =>
    let computing := g1.setSem held
    let prepared :=
      match lib.SASLprepPrepare cleartext with
      | .ok prepared => prepared
      | .error _ => cleartext
    let saltedPassword :=
      lib.pbkdf2Key prepared decoded.KeyFactors.Salt decoded.KeyFactors.Iters sha256.Size
    let serverKey := computeHMAC lib saltedPassword (bytesOf "Server Key")
    -- the deferred `alloc.Release()`
    some { result := (decide (serverKey = decoded.ServerKey), none), during := some computing,
           after := g1.setSem held.Release }

/-- The function `HashPassword`, statement by statement, with the package state in which
`bcrypt.GenerateFromPassword` runs. -/
def HashPasswordTraced (lib : Libs) (g : Globals) (ctx : Context) (sv : Values)
    (entropy password : List Byte) : Option (Traced (Except GoError (List Byte))) :=
  let (g1, sem) := getExpensiveHashComputeSem g
  match sem.Acquire ctx with
  | none => none
  | some (.error err) => some { result := .error err, during := none, after := g1 }
  | some (.ok held) =>
    let computing := g1.setSem held
    let res := lib.GenerateFromPassword entropy (appendEmptySha256 password) sv.BcryptCost
    -- the deferred `alloc.Release()`
    some { result := res, during := some computing, after := g1.setSem held.Release }

/-! ## Calls that run at the same time -/

/-- Where a call of the bcrypt verifier, of the SCRAM verifier or of `HashPassword` stands: it
has the semaphore and has not acquired a permit yet, it computes its hash with a permit, or it
has returned. -/
inductive Phase where
  | waiting
  | computing
  | returned
  deriving DecidableEq, Repr

/-- The process: the package state and the calls made so far. -/
structure Server where
  g : Globals
  calls : List Phase
  deriving DecidableEq, Repr

/-- A step of one call, the steps of different calls being interleaved in any order: a new call
executes `sem := getExpensiveHashComputeSem(ctx)`; the call `i` executes
`sem.Acquire(ctx, 1)`; the call `i` ends its computation and executes the deferred
`alloc.Release()`. -/
inductive Event where
  | call
  | acquire (i : Nat) (ctx : Context)
  | release (i : Nat)
  deriving DecidableEq, Repr

/-- The effect of a step; `none` when the step cannot be taken: the call is not at that point,
or it waits for a permit. -/
def Server.step (s : Server) : Event → Option Server
  | .call =>
    some { g := (getExpensiveHashComputeSem s.g).1, calls := s.calls ++ [.waiting] }
  | .acquire i ctx =>
    if s.calls[i]? = some .waiting then
      match (getExpensiveHashComputeSem s.g).2.Acquire ctx with
      | none => none
      | some (.error _) =>
        some { g := (getExpensiveHashComputeSem s.g).1, calls := s.calls.set i .returned }
      | some (.ok held) =>
        some { g := (getExpensiveHashComputeSem s.g).1.setSem held,
               calls := s.calls.set i .computing }
    else none
  | .release i =>
    if s.calls[i]? = some .computing then
      some { g := s.g.setSem (getExpensiveHashComputeSem s.g).2.Release,
             calls := s.calls.set i .returned }
    else none

/-- The effect of a sequence of steps. -/
def Server.run (s : Server) : List Event → Option Server
  | [] => some s
  | e :: es =>
    match s.step e with
    | none => none
    | some s1 => s1.run es

/-- The number of calls that compute a hash. -/
def Server.computing (s : Server) : Nat := s.calls.count .computing

/-! ## Checking a password supplied by a client -/

/-- The function `checkBcryptHash`; `none` stands for the run-time panic of a slice out of
range. -/
def checkBcryptHash (lib : Libs) (inputPassword : List Byte) :
    Option (Bool × List Byte × Option GoError) :=
  if ! isBcryptHash inputPassword true then some (false, [], none)
  else if inputPassword.length < crdbBcryptPrefix.length then none
  else
    let hashedPassword := inputPassword.drop crdbBcryptPrefix.length
    match lib.Cost hashedPassword with
    | .ok _ => some (true, hashedPassword, none)
    | .error err => some (true, hashedPassword, some err)

/-- The function `checkSCRAMHash`; `none` stands for the run-time panic of an index out of
range. -/
def checkSCRAMHash (inputPassword : List Byte) : Option (Bool × List Byte × Option GoError) :=
  let (ok, parts) := isSCRAMHash inputPassword
  if ! ok then some (false, [], none)
  else
    match parts[1]? with
    | none => none
    | some p1 =>
      match ParseInt p1 with
      | .error err =>
        some (true, [], some (.Wrap err "invalid scram-sha-256 iteration count"))
      | .ok iters =>
        if iters < scramMinCost ∨ iters > scramMaxCost then
          some (true, [], some (.New
            "scram-sha-256 iteration count not in allowed range (4096,240000000000)"))
        else some (true, inputPassword, none)

/-- The results of `CheckPasswordHashValidity`. -/
structure Validity where
  isPreHashed : Bool
  supportedScheme : Bool
  issueNum : Int
  schemeName : String
  hashedPassword : List Byte
  err : Option GoError
  deriving DecidableEq, Repr

/-- The function `CheckPasswordHashValidity`; `none` stands for a run-time panic. -/
def CheckPasswordHashValidity (lib : Libs) (inputPassword : List Byte) : Option Validity :=
  match checkBcryptHash lib inputPassword with
  | none => none
  | some (true, hashedPassword, err) =>
    some { isPreHashed := true, supportedScheme := true, issueNum := 0,
           schemeName := "crdb-bcrypt", hashedPassword := hashedPassword, err := err }
  | some (false, _, _) =>
    match checkSCRAMHash inputPassword with
    | none => none
    | some (true, hashedPassword, err) =>
      some { isPreHashed := true, supportedScheme := true, issueNum := 0,
             schemeName := "scram-sha-256", hashedPassword := hashedPassword, err := err }
    | some (false, _, _) =>
      if isMD5Hash inputPassword then
        some { isPreHashed := true, supportedScheme := false, issueNum := 73337,
               schemeName := "md5", hashedPassword := inputPassword, err := none }
      else
        some { isPreHashed := false, supportedScheme := false, issueNum := 0,
               schemeName := "", hashedPassword := inputPassword, err := none }

/-! ## The server key of the SCRAM verifier, as the specification words it -/

/-- The specification of the SCRAM verifier: `saltedPassword` is PBKDF2-HMAC-SHA256 of the
normalised password, the salt and the iteration count with an output of 32 bytes, and the
server key is HMAC-SHA256 with `saltedPassword` as key and `"Server Key"` as data. -/
def specServerKey (lib : Libs) (normalizedPassword salt : List Byte) (iterations : Int) :
    List Byte :=
  lib.hmacSum (lib.pbkdf2Key normalizedPassword salt iterations 32) (bytesOf "Server Key")

/-! ## The grammars, as the specification words them -/

/-- A decimal digit, `0` to `9`. -/
def isDigit (c : Byte) : Prop := 48 ≤ c ∧ c ≤ 57

/-- A lowercase letter, `a` to `z`. -/
def isLower (c : Byte) : Prop := 97 ≤ c ∧ c ≤ 122

/-- An uppercase letter, `A` to `Z`. -/
def isUpper (c : Byte) : Prop := 65 ≤ c ∧ c ≤ 90

/-- A character of the alphabet `[0-9A-Za-z./]` of the bcrypt encoding. -/
def isBcryptChar (c : Byte) : Prop := isDigit c ∨ isUpper c ∨ isLower c ∨ c = 46 ∨ c = 47

/-- A character of the alphabet `[A-Za-z0-9+/]` of standard base64. -/
def isBase64Char (c : Byte) : Prop := isUpper c ∨ isLower c ∨ isDigit c ∨ c = 43 ∨ c = 47

/-- A lowercase hexadecimal character, `0` to `9` or `a` to `f`. -/
def isLowerHex (c : Byte) : Prop := isDigit c ∨ (97 ≤ c ∧ c ≤ 102)

/-- The bcrypt grammar of the specification: the whole string is an optional literal
`CRDB-BCRYPT`, then `$`, one decimal digit, an optional lowercase letter, `$`, two decimal
digits, `$`, and a run of at least `minRun` characters of `[0-9A-Za-z./]` up to the end. -/
def bcryptGrammar (minRun : Nat) (b : List Byte) : Prop :=
  ∃ (pre : List Byte) (v : Byte) (letter : List Byte) (d1 d2 : Byte) (run : List Byte),
    b = pre ++ [36, v] ++ letter ++ [36, d1, d2, 36] ++ run ∧
    (pre = [] ∨ pre = bytesOf "CRDB-BCRYPT") ∧ isDigit v ∧
    (letter = [] ∨ ∃ c, isLower c ∧ letter = [c]) ∧ isDigit d1 ∧ isDigit d2 ∧
    minRun ≤ run.length ∧ ∀ c ∈ run, isBcryptChar c

/-- The part of a string after its first `$`. -/
def afterDollar (b : List Byte) : List Byte := (b.dropWhile (fun c => c ≠ 36)).drop 1

/-- The trailing run of a bcrypt encoding: the part after the third `$`. -/
def bcryptTrailingRun (b : List Byte) : List Byte := afterDollar (afterDollar (afterDollar b))

/-- The SCRAM grammar of the specification, with the four fields: the whole string is
`SCRAM-SHA-256$`, one or more decimal digits, `:`, one or more characters of `[A-Za-z0-9+/]`
followed by zero or more `=`, `$`, 43 characters of `[A-Za-z0-9+/]` followed by `=`, `:`, and 43
characters of `[A-Za-z0-9+/]` followed by `=`. -/
def scramGrammar (b iters salt storedKey serverKey : List Byte) : Prop :=
  b = bytesOf "SCRAM-SHA-256$" ++ iters ++ [58] ++ salt ++ [36] ++ storedKey ++ [58] ++
    serverKey ∧
  iters ≠ [] ∧ (∀ c ∈ iters, isDigit c) ∧
  (∃ chars pad, salt = chars ++ pad ∧ chars ≠ [] ∧ (∀ c ∈ chars, isBase64Char c) ∧
    ∀ c ∈ pad, c = 61) ∧
  (∃ chars, storedKey = chars ++ [61] ∧ chars.length = 43 ∧ ∀ c ∈ chars, isBase64Char c) ∧
  (∃ chars, serverKey = chars ++ [61] ∧ chars.length = 43 ∧ ∀ c ∈ chars, isBase64Char c)

/-- The MD5 grammar of the specification: exactly 35 bytes, `md5` and then 32 lowercase
hexadecimal characters. -/
def md5Grammar (b : List Byte) : Prop :=
  b.length = 35 ∧ b.take 3 = bytesOf "md5" ∧ ∀ c ∈ b.drop 3, isLowerHex c

/-- The decimal value of a string of digits. -/
def decimalValue (digits : List Byte) : Nat := digits.foldl (fun n c => n * 10 + (c - 48)) 0

/-! ## The recognisers tried in another order -/

/-- The three checks of `CheckPasswordHashValidity`. -/
inductive Scheme where
  | bcrypt
  | scram
  | md5
  deriving DecidableEq, Repr

/-- One check of `CheckPasswordHashValidity`, with the result that the function returns when
the check accepts the input: `some none` when the check refuses the input, `none` for a
run-time panic. -/
def checkScheme (lib : Libs) (inputPassword : List Byte) : Scheme → Option (Option Validity)
  | .bcrypt =>
    match checkBcryptHash lib inputPassword with
    | none => none
    | some (true, hashedPassword, err) =>
      some (some { isPreHashed := true, supportedScheme := true, issueNum := 0,
                   schemeName := "crdb-bcrypt", hashedPassword := hashedPassword, err := err })
    | some (false, _, _) => some none
  | .scram =>
    match checkSCRAMHash inputPassword with
    | none => none
    | some (true, hashedPassword, err) =>
      some (some { isPreHashed := true, supportedScheme := true, issueNum := 0,
                   schemeName := "scram-sha-256", hashedPassword := hashedPassword, err := err })
    | some (false, _, _) => some none
  | .md5 =>
    if isMD5Hash inputPassword then
      some (some { isPreHashed := true, supportedScheme := false, issueNum := 73337,
                   schemeName := "md5", hashedPassword := inputPassword, err := none })
    else some none

/-- A variant of `CheckPasswordHashValidity` in which the checks are tried in the order
`order`: the first check that accepts the input decides the result, and an input that no check
accepts is not hashed. It serves to state that the order of the checks does not matter. -/
def CheckPasswordHashValidityIn (lib : Libs) (inputPassword : List Byte) :
    List Scheme → Option Validity
  | [] =>
    some { isPreHashed := false, supportedScheme := false, issueNum := 0,
           schemeName := "", hashedPassword := inputPassword, err := none }
  | s :: rest =>
    match checkScheme lib inputPassword s with
    | none => none
    | some (some v) => some v
    | some none => CheckPasswordHashValidityIn lib inputPassword rest

/-- A variant of `LoadPasswordHash` in which the two recognisers are tried in the other order,
SCRAM before bcrypt. It serves to state that the order of the recognisers does not matter. -/
def LoadPasswordHashScramFirst (storedHash : List Byte) : Option PasswordHash :=
  let res := PasswordHash.invalidHash storedHash
  if storedHash.length = 0 then some .emptyPassword
  else if (isSCRAMHash storedHash).1 then makeSCRAMHash storedHash (isSCRAMHash storedHash).2 res
  else if isBcryptHash storedHash false then some (.bcryptHash storedHash)
  else some res

/-! ## What is assumed of the bcrypt package -/

/-- The encoding `GenerateFromPassword` writes: `$2a$`, the cost on two digits, `$`, then the
salt and the hash in the alphabet of the package, 53 characters or more (the package writes
53). -/
def bcryptEncoded (h : List Byte) : Bool :=
  h.take 4 == bytesOf "$2a$" &&
    decide (((h.drop 4).take 2).length = 2) &&
    ((h.drop 4).take 2).all (fun c => decide (c ∈ re.digit)) &&
    (h.drop 6).take 1 == [36] &&
    decide (53 ≤ (h.drop 7).length) &&
    (h.drop 7).all (fun c => decide (c ∈ bcryptAlphabet))

/-- Assumption on the bcrypt package: a generated hash is in the encoding of the package. -/
def Libs.GeneratesEncoded (lib : Libs) : Prop :=
  ∀ entropy password cost h,
    lib.GenerateFromPassword entropy password cost = .ok h → bcryptEncoded h = true

/-- Assumption on the bcrypt package: a generated hash compares equal to its password. -/
def Libs.AcceptsOwn (lib : Libs) : Prop :=
  ∀ entropy password cost h,
    lib.GenerateFromPassword entropy password cost = .ok h →
      lib.CompareHashAndPassword h password = none

/-- The 72 bytes that the key schedule of the bcrypt package reads: the password followed by a
NUL byte, taken cyclically (the package appends the NUL byte, and `blowfish.ExpandKey` fills 18
words of four bytes from the key and starts again at its first byte when the key ends). -/
def bcryptKey (password : List Byte) : List Byte :=
  (List.range 72).map (fun i => (password ++ [0]).getD (i % (password.length + 1)) 0)

/-- Property of the bcrypt package: the comparison depends on the password only through the key
that the key schedule reads. -/
def Libs.ReadsKey (lib : Libs) : Prop :=
  ∀ h p q, bcryptKey p = bcryptKey q →
    lib.CompareHashAndPassword h p = lib.CompareHashAndPassword h q

/-- Assumption on the bcrypt package: a hash of 59 bytes or more that does not begin with `$`
is refused with `InvalidHashPrefixError` of its first byte, whatever the password. -/
def Libs.ChecksHashPrefix (lib : Libs) : Prop :=
  ∀ h password, 59 ≤ h.length → h.headD 0 ≠ 36 →
    lib.CompareHashAndPassword h password = some (.InvalidHashPrefixError (h.headD 0))

/-! ## A sample implementation of the libraries

It instantiates the assumptions above on concrete inputs. It keeps the header checks and the
encoding of the bcrypt package, and is not cryptographic: a password is written out in the
hash. -/

namespace sample

/-- One byte `b` of the password as `b` letters `A` and a letter `B`. -/
def encByte (b : Byte) : List Byte := List.replicate b 65 ++ [66]

/-- The password, byte by byte, filled with `.` up to 53 characters. -/
def encode (password : List Byte) : List Byte :=
  password.flatMap encByte ++ List.replicate (53 - (password.flatMap encByte).length) 46

/-- The inverse of `encode`; `acc` counts the letters `A` read since the last `B`. -/
def decode : List Byte → Nat → List Byte
  | [], _ => []
  | c :: cs, acc =>
    if c = 65 then decode cs (acc + 1)
    else if c = 66 then acc :: decode cs 0
    else []

/-- The cost on two decimal digits. -/
def twoDigits (cost : Int) : List Byte := [48 + cost.toNat / 10 % 10, 48 + cost.toNat % 10]

/-- The sample `GenerateFromPassword`: a cost below `MinCost` is replaced by the default
cost 10, a cost above `MaxCost` is an error. -/
def GenerateFromPassword (_entropy password : List Byte) (cost : Int) :
    Except GoError (List Byte) :=
  if cost > bcryptMaxCost then .error (.InvalidCostError cost)
  else
    .ok (bytesOf "$2a$" ++ twoDigits (if cost < bcryptMinCost then 10 else cost) ++ [36] ++
      encode password)

/-- The sample `CompareHashAndPassword`, with the header checks of the package. -/
def CompareHashAndPassword (hashedPassword password : List Byte) : Option GoError :=
  if hashedPassword.length < 59 then some .ErrHashTooShort
  else if hashedPassword.headD 0 ≠ 36 then
    some (.InvalidHashPrefixError (hashedPassword.headD 0))
  else if hashedPassword.drop 7 = encode password then none
  else some .ErrMismatchedHashAndPassword

/-- The sample `Cost`, with the checks of the package: the length, the leading `$`, the major
version (at most `2`), then the two digits of the cost, which must lie between `MinCost` and
`MaxCost`. -/
def Cost (hashedPassword : List Byte) : Except GoError Int :=
  if hashedPassword.length < 59 then .error .ErrHashTooShort
  else if hashedPassword.headD 0 ≠ 36 then
    .error (.InvalidHashPrefixError (hashedPassword.headD 0))
  else if hashedPassword.getD 1 0 > 50 then
    .error (.HashVersionTooNewError (hashedPassword.getD 1 0))
  else
    let n := if hashedPassword.getD 2 0 ≠ 36 then 4 else 3
    match Atoi ((hashedPassword.drop n).take 2) with
    | .error e => .error e
    | .ok cost =>
      if cost < bcryptMinCost ∨ cost > bcryptMaxCost then .error (.InvalidCostError cost)
      else .ok cost

/-- The sample `SASLprep.Prepare`: printable ASCII is left as it is, anything else is an
error. -/
def SASLprepPrepare (s : List Byte) : Except GoError (List Byte) :=
  if s.all (fun c => decide (32 ≤ c ∧ c < 127)) then .ok s
  else .error (.New "prohibited character")

/-- The sample `pbkdf2.Key`: password and salt, cut or filled to the key length. -/
def pbkdf2Key (password salt : List Byte) (_iter : Int) (keyLen : Nat) : List Byte :=
  ((password ++ salt).take keyLen) ++ List.replicate (keyLen - (password ++ salt).length) 0

/-- The sample HMAC: key and data, cut or filled to 32 bytes. -/
def hmacSum (key data : List Byte) : List Byte :=
  ((key ++ data).take 32) ++ List.replicate (32 - (key ++ data).length) 0

/-- The sample libraries. -/
def libs : Libs :=
  { GenerateFromPassword := GenerateFromPassword
    CompareHashAndPassword := CompareHashAndPassword
    Cost := Cost
    SASLprepPrepare := SASLprepPrepare
    pbkdf2Key := pbkdf2Key
    hmacSum := hmacSum }

/-- A sample `GenerateFromPassword` that hashes the key that the bcrypt package reads, not the
whole password. -/
def GenerateKeyed (entropy password : List Byte) (cost : Int) : Except GoError (List Byte) :=
  GenerateFromPassword entropy (bcryptKey password) cost

/-- A sample `CompareHashAndPassword` with the checks that the package makes on the hash (those
of `Cost`), which then compares the keys. -/
def CompareKeyed (hashedPassword password : List Byte) : Option GoError :=
  match Cost hashedPassword with
  | .error e => some e
  | .ok _ => CompareHashAndPassword hashedPassword (bcryptKey password)

/-- The sample libraries in which bcrypt reads its key as the package does. -/
def keyedLibs : Libs :=
  { GenerateFromPassword := GenerateKeyed
    CompareHashAndPassword := CompareKeyed
    Cost := Cost
    SASLprepPrepare := SASLprepPrepare
    pbkdf2Key := pbkdf2Key
    hmacSum := hmacSum }

/-- A process with eight processors that has not hashed yet. -/
def globals : Globals :=
  { envMaxHashComputeConcurrency := 0, GOMAXPROCS := 8, expensiveHashComputeSemOnce := none }

/-- A context that is never cancelled. -/
def background : Context := { err := none }

/-- Settings with the bcrypt cost 4. -/
def settings : Values := { BcryptCost := 4, AutoDetectPasswordHashes := true, MinPasswordLength := 1 }

/-- The password `hunter2`. -/
def hunter2 : List Byte := bytesOf "hunter2"

/-- The password `hunter2`, the empty digest, a NUL byte and `hunter2` once more: an extension
of `hunter2`. -/
def extended : List Byte := appendEmptySha256 hunter2 ++ [0] ++ hunter2

/-- The hash that the keyed sample package generates for `hunter2` at the cost 4. -/
def keyedHash : List Byte :=
  bytesOf "$2a$04$" ++ encode (bcryptKey (appendEmptySha256 hunter2))

/-- The hash that the sample package generates for `hunter2` when the configured cost is 3: it
has the default cost 10. -/
def cost3Hash : List Byte := bytesOf "$2a$10$" ++ encode (appendEmptySha256 hunter2)

/-- Settings with the bcrypt cost 3, which is below `bcrypt.MinCost`. -/
def settingsCost3 : Values :=
  { BcryptCost := 3, AutoDetectPasswordHashes := true, MinPasswordLength := 1 }

/-- The password `hunter`. -/
def hunter : List Byte := bytesOf "hunter"

/-- The hash the sample package generates for `hunter2` at cost 4. -/
def hunter2Hash : List Byte :=
  bytesOf "$2a$" ++ twoDigits 4 ++ [36] ++ encode (appendEmptySha256 hunter2)

/-- A hash in the encoding of the bcrypt package. -/
def storedHash : List Byte :=
  bytesOf "$2a$10$abcdefghijklmnopqrstuuABCDEFGHIJKLMNOPQRSTUVWXYZ01234"

/-- SCRAM credentials with the salt `01 02` and 4096 iterations. -/
def credentials : StoredCredentials :=
  { KeyFactors := { Salt := [1, 2], Iters := 4096 }, StoredKey := [], ServerKey := [] }

/-- Credentials with the salt, the iteration count and the server key of `credentials`, and
another stored key. -/
def credentialsOther : StoredCredentials :=
  { KeyFactors := { Salt := [1, 2], Iters := 4096 }, StoredKey := [7], ServerKey := [] }

/-- A SCRAM hash with these credentials. -/
def scramHash : PasswordHash := .ScramHash [] credentials

/-- A hash in the encoding of the bcrypt package, with the cost 99. -/
def cost99Hash : List Byte :=
  bytesOf "$2a$99$abcdefghijklmnopqrstuuABCDEFGHIJKLMNOPQRSTUVWXYZ01234"

/-- A string that matches the bcrypt pattern with a trailing run of 23 characters. -/
def run23Hash : List Byte := bytesOf "$2a$10$abcdefghijklmnopqrstuuA"

/-- The salt field of the sample SCRAM hashes. -/
def saltField : List Byte := bytesOf "pAlYy62NTdETKb291V/Wow=="

/-- The stored key field of the sample SCRAM hashes. -/
def storedKeyField : List Byte := bytesOf "OXMAj9oD53QucEYVMBcdhRnjg2/S/iZY/88ShZnputA="

/-- The server key field of the sample SCRAM hashes. -/
def serverKeyField : List Byte := bytesOf "r1l4c84R7JlPdwWWLB4oLkdeW9aOWkbp7WWZxRIPw8Y="

/-- A SCRAM hash as PostgreSQL writes it, with the given iteration digits and salt field. -/
def scramWith (iters salt : List Byte) : List Byte :=
  bytesOf "SCRAM-SHA-256$" ++ iters ++ [58] ++ salt ++ [36] ++ storedKeyField ++ [58] ++
    serverKeyField

/-- The sample SCRAM hash with 4096 iterations. -/
def scram4096 : List Byte := scramWith (bytesOf "4096") saltField

/-- The bytes that `saltField` decodes to. -/
def salt : List Byte := [164, 9, 88, 203, 173, 141, 77, 209, 19, 41, 189, 189, 213, 95, 214, 163]

/-- The bytes that `storedKeyField` decodes to. -/
def storedKey : List Byte :=
  [57, 115, 0, 143, 218, 3, 231, 116, 46, 112, 70, 21, 48, 23, 29, 133, 25, 227, 131, 111, 210,
   254, 38, 88, 255, 207, 18, 133, 153, 233, 186, 208]

/-- The bytes that `serverKeyField` decodes to. -/
def serverKey : List Byte :=
  [175, 89, 120, 115, 206, 17, 236, 153, 79, 119, 5, 150, 44, 30, 40, 46, 71, 94, 91, 214, 142,
   90, 70, 233, 237, 101, 153, 197, 18, 15, 195, 198]

/-- The credentials that the hash `scramWith iters saltField` holds, for the iteration count
`n`. -/
def decoded (n : Int) : StoredCredentials :=
  { KeyFactors := { Salt := salt, Iters := n }, StoredKey := storedKey, ServerKey := serverKey }

/-- A salt field of the SCRAM grammar that is not padded base64: a single character. -/
def badSaltField : List Byte := bytesOf "A"

/-- A process whose semaphore has one permit, which is taken. -/
def exhausted : Globals :=
  { envMaxHashComputeConcurrency := 0, GOMAXPROCS := 8,
    expensiveHashComputeSemOnce := some (IntPool.mk 1 0) }

/-- A context that was cancelled. -/
def cancelled : Context := { err := some .Canceled }

/-- An MD5 hash as PostgreSQL writes it. -/
def md5Hash : List Byte := bytesOf "md50123456789abcdef0123456789abcdef"

end sample

/-! ## Regular expressions: what the operators match -/

namespace re

theorem rmatch_epsilon_iff (x : List Byte) :
    (RegularExpression.epsilon : RegularExpression Byte).rmatch x = true ↔ x = [] :=
  RegularExpression.one_rmatch_iff x

theorem rmatch_comp_iff (P Q : RegularExpression Byte) (x : List Byte) :
    (RegularExpression.comp P Q).rmatch x = true ↔
      ∃ t u, x = t ++ u ∧ P.rmatch t = true ∧ Q.rmatch u = true :=
  RegularExpression.mul_rmatch_iff P Q x

theorem rmatch_plus_iff (P Q : RegularExpression Byte) (x : List Byte) :
    (RegularExpression.plus P Q).rmatch x = true ↔ P.rmatch x = true ∨ Q.rmatch x = true :=
  RegularExpression.add_rmatch_iff P Q x

theorem rmatch_char_iff (a : Byte) (x : List Byte) :
    (RegularExpression.char a).rmatch x = true ↔ x = [a] :=
  RegularExpression.char_rmatch_iff a x

theorem rmatch_cls_iff (l : List Byte) (x : List Byte) :
    (cls l).rmatch x = true ↔ ∃ c, c ∈ l ∧ x = [c] := by
  induction l with
  | nil =>
    simp only [cls, List.foldr_nil, List.not_mem_nil, false_and, exists_false, iff_false]
    have := RegularExpression.zero_rmatch x
    rw [← RegularExpression.zero_def] at this
    simp [this]
  | cons a l ih =>
    have h : cls (a :: l) = RegularExpression.plus (RegularExpression.char a) (cls l) := rfl
    rw [h, rmatch_plus_iff, ih, rmatch_char_iff]
    constructor
    · rintro (h | ⟨c, hc, hx⟩)
      · exact ⟨a, List.mem_cons_self _ _, h⟩
      · exact ⟨c, List.mem_cons_of_mem _ hc, hx⟩
    · rintro ⟨c, hc, hx⟩
      rcases List.mem_cons.1 hc with h | h
      · left; rw [hx, h]
      · right; exact ⟨c, h, hx⟩

theorem rmatch_lit_iff (s x : List Byte) : (lit s).rmatch x = true ↔ x = s := by
  induction s generalizing x with
  | nil => exact rmatch_epsilon_iff x
  | cons a s ih =>
    have h : lit (a :: s) = RegularExpression.comp (RegularExpression.char a) (lit s) := rfl
    rw [h, rmatch_comp_iff]
    constructor
    · rintro ⟨t, u, hx, ht, hu⟩
      rw [rmatch_char_iff] at ht
      rw [ih] at hu
      rw [hx, ht, hu]; rfl
    · intro hx
      exact ⟨[a], s, by rw [hx]; rfl, (rmatch_char_iff a [a]).2 rfl, (ih s).2 rfl⟩

theorem rmatch_opt_iff (r : RegularExpression Byte) (x : List Byte) :
    (opt r).rmatch x = true ↔ r.rmatch x = true ∨ x = [] := by
  rw [opt, rmatch_plus_iff, rmatch_epsilon_iff]

theorem rmatch_rep_cls_iff (l : List Byte) (n : Nat) (x : List Byte) :
    (rep n (cls l)).rmatch x = true ↔ x.length = n ∧ ∀ c ∈ x, c ∈ l := by
  induction n generalizing x with
  | zero =>
    rw [rep, rmatch_epsilon_iff]
    constructor
    · intro h; subst h; simp
    · intro h; exact List.length_eq_zero.1 h.1
  | succ n ih =>
    rw [rep, rmatch_comp_iff]
    constructor
    · rintro ⟨t, u, hx, ht, hu⟩
      rw [rmatch_cls_iff] at ht
      obtain ⟨c, hc, ht⟩ := ht
      rw [ih] at hu
      subst hx ht
      refine ⟨by simp [hu.1], ?_⟩
      intro d hd
      rcases List.mem_append.1 hd with h | h
      · rw [List.mem_singleton.1 h]; exact hc
      · exact hu.2 d h
    · rintro ⟨hlen, hall⟩
      cases x with
      | nil => simp at hlen
      | cons a x =>
        refine ⟨[a], x, rfl, (rmatch_cls_iff l [a]).2 ⟨a, hall a (List.mem_cons_self _ _), rfl⟩,
          (ih x).2 ⟨by simpa using hlen, fun c hc => hall c (List.mem_cons_of_mem _ hc)⟩⟩

theorem flatten_singletons (x : List Byte) : (x.map (fun c => [c])).flatten = x := by
  induction x with
  | nil => rfl
  | cons a x ih => simp [ih]

theorem rmatch_star_cls_iff (l : List Byte) (x : List Byte) :
    (RegularExpression.star (cls l)).rmatch x = true ↔ ∀ c ∈ x, c ∈ l := by
  rw [RegularExpression.star_rmatch_iff]
  constructor
  · rintro ⟨S, hx, hS⟩ c hc
    rw [hx, List.mem_flatten] at hc
    obtain ⟨t, ht, hct⟩ := hc
    obtain ⟨d, hd, htd⟩ := (rmatch_cls_iff l t).1 (hS t ht).2
    rw [htd, List.mem_singleton] at hct
    rw [hct]; exact hd
  · intro hall
    refine ⟨x.map (fun c => [c]), (flatten_singletons x).symm, ?_⟩
    intro t ht
    obtain ⟨c, hc, rfl⟩ := List.mem_map.1 ht
    exact ⟨by simp, (rmatch_cls_iff l [c]).2 ⟨c, hall c hc, rfl⟩⟩

theorem rmatch_many1_cls_iff (l : List Byte) (x : List Byte) :
    (many1 (cls l)).rmatch x = true ↔ x ≠ [] ∧ ∀ c ∈ x, c ∈ l := by
  rw [many1, rmatch_comp_iff]
  constructor
  · rintro ⟨t, u, hx, ht, hu⟩
    obtain ⟨c, hc, ht⟩ := (rmatch_cls_iff l t).1 ht
    rw [rmatch_star_cls_iff] at hu
    subst hx ht
    refine ⟨by simp, ?_⟩
    intro d hd
    rcases List.mem_append.1 hd with h | h
    · rw [List.mem_singleton.1 h]; exact hc
    · exact hu d h
  · rintro ⟨hne, hall⟩
    cases x with
    | nil => exact absurd rfl hne
    | cons a x =>
      exact ⟨[a], x, rfl, (rmatch_cls_iff l [a]).2 ⟨a, hall a (List.mem_cons_self _ _), rfl⟩,
        (rmatch_star_cls_iff l x).2 (fun c hc => hall c (List.mem_cons_of_mem _ hc))⟩

theorem rmatch_star_char_iff (a : Byte) (x : List Byte) :
    (RegularExpression.star (RegularExpression.char a)).rmatch x = true ↔ ∀ c ∈ x, c = a := by
  rw [RegularExpression.star_rmatch_iff]
  constructor
  · rintro ⟨S, hx, hS⟩ c hc
    rw [hx, List.mem_flatten] at hc
    obtain ⟨t, ht, hct⟩ := hc
    have htd := (rmatch_char_iff a t).1 (hS t ht).2
    rw [htd, List.mem_singleton] at hct
    exact hct
  · intro hall
    refine ⟨x.map (fun c => [c]), (flatten_singletons x).symm, ?_⟩
    intro t ht
    obtain ⟨c, hc, rfl⟩ := List.mem_map.1 ht
    exact ⟨by simp, (rmatch_char_iff a [c]).2 (by rw [hall c hc])⟩

theorem rmatch_seq_nil_iff (x : List Byte) : (seq []).rmatch x = true ↔ x = [] :=
  rmatch_epsilon_iff x

theorem rmatch_seq_cons_iff (r : RegularExpression Byte) (rs : List (RegularExpression Byte))
    (x : List Byte) :
    (seq (r :: rs)).rmatch x = true ↔
      ∃ t u, x = t ++ u ∧ r.rmatch t = true ∧ (seq rs).rmatch u = true :=
  rmatch_comp_iff r (seq rs) x

end re

/-! ## The bcrypt pattern on an encoded hash -/

/-- A string made of the parts of `bcryptHashRe` matches it. -/
theorem bcryptHashRe_rmatch_of_parts (pre letter body : List Byte) (v d1 d2 : Byte)
    (hpre : pre = crdbBcryptPrefix ∨ pre = [])
    (hv : v ∈ re.digit) (hletter : (∃ c, c ∈ re.lower ∧ letter = [c]) ∨ letter = [])
    (hd1 : d1 ∈ re.digit) (hd2 : d2 ∈ re.digit)
    (hlen : 23 ≤ body.length) (hbody : ∀ c ∈ body, c ∈ bcryptAlphabet) :
    bcryptHashRe.rmatch (pre ++ ([36] ++ ([v] ++ (letter ++ ([36] ++ ([d1] ++ ([d2] ++
      ([36] ++ (body.take 22 ++ (body.drop 22 ++ [])))))))))) = true := by
  unfold bcryptHashRe
  refine (re.rmatch_seq_cons_iff _ _ _).2 ⟨_, _, rfl, ?_, ?_⟩
  · rw [re.rmatch_opt_iff, re.rmatch_lit_iff]; exact hpre
  refine (re.rmatch_seq_cons_iff _ _ _).2 ⟨_, _, rfl, (re.rmatch_char_iff _ _).2 rfl, ?_⟩
  refine (re.rmatch_seq_cons_iff _ _ _).2
    ⟨_, _, rfl, (re.rmatch_cls_iff _ _).2 ⟨v, hv, rfl⟩, ?_⟩
  refine (re.rmatch_seq_cons_iff _ _ _).2 ⟨_, _, rfl, ?_, ?_⟩
  · rw [re.rmatch_opt_iff, re.rmatch_cls_iff]; exact hletter
  refine (re.rmatch_seq_cons_iff _ _ _).2 ⟨_, _, rfl, (re.rmatch_char_iff _ _).2 rfl, ?_⟩
  refine (re.rmatch_seq_cons_iff _ _ _).2
    ⟨_, _, rfl, (re.rmatch_cls_iff _ _).2 ⟨d1, hd1, rfl⟩, ?_⟩
  refine (re.rmatch_seq_cons_iff _ _ _).2
    ⟨_, _, rfl, (re.rmatch_cls_iff _ _).2 ⟨d2, hd2, rfl⟩, ?_⟩
  refine (re.rmatch_seq_cons_iff _ _ _).2 ⟨_, _, rfl, (re.rmatch_char_iff _ _).2 rfl, ?_⟩
  refine (re.rmatch_seq_cons_iff _ _ _).2 ⟨_, _, rfl, ?_, ?_⟩
  · rw [re.rmatch_rep_cls_iff]
    exact ⟨by rw [List.length_take]; omega, fun c hc => hbody c (List.mem_of_mem_take hc)⟩
  refine (re.rmatch_seq_cons_iff _ _ _).2 ⟨_, _, rfl, ?_, (re.rmatch_seq_nil_iff _).2 rfl⟩
  rw [re.rmatch_many1_cls_iff]
  refine ⟨?_, fun c hc => hbody c (List.mem_of_mem_drop hc)⟩
  intro h
  have := congrArg List.length h
  rw [List.length_drop] at this
  simp at this
  omega

/-- The parts of a hash in the encoding of the bcrypt package. -/
theorem bcryptEncoded_parts (h : List Byte) (he : bcryptEncoded h = true) :
    ∃ d1 d2 body, h = [36, 50, 97, 36, d1, d2, 36] ++ body ∧ d1 ∈ re.digit ∧ d2 ∈ re.digit ∧
      53 ≤ body.length ∧ ∀ c ∈ body, c ∈ bcryptAlphabet := by
  unfold bcryptEncoded at he
  simp only [Bool.and_eq_true, beq_iff_eq, decide_eq_true_eq, List.all_eq_true] at he
  obtain ⟨⟨⟨⟨⟨h4, h2len⟩, h2dig⟩, h1⟩, hlen⟩, hall⟩ := he
  have e1 : h = h.take 4 ++ ((h.drop 4).take 2 ++ ((h.drop 6).take 1 ++ h.drop 7)) := by
    have a := (List.take_append_drop 4 h).symm
    have b := (List.take_append_drop 2 (h.drop 4)).symm
    have c := (List.take_append_drop 1 (h.drop 6)).symm
    rw [List.drop_drop] at b c
    simp only [Nat.reduceAdd] at b c
    conv_lhs => rw [a, b, c]
  match hd : (h.drop 4).take 2, h2len with
  | [d1, d2], _ =>
    rw [hd] at h2dig e1
    refine ⟨d1, d2, h.drop 7, ?_, h2dig d1 (by simp), h2dig d2 (by simp), hlen, hall⟩
    rw [h4, h1] at e1
    exact e1

/-- A hash in the encoding of the bcrypt package matches `bcryptHashRe`, with or without the
prefix `CRDB-BCRYPT` in front. -/
theorem bcryptHashRe_rmatch_of_encoded (pre h : List Byte)
    (hpre : pre = crdbBcryptPrefix ∨ pre = []) (he : bcryptEncoded h = true) :
    bcryptHashRe.rmatch (pre ++ h) = true := by
  obtain ⟨d1, d2, body, rfl, hd1, hd2, hlen, hbody⟩ := bcryptEncoded_parts h he
  have := bcryptHashRe_rmatch_of_parts pre [97] body 50 d1 d2 hpre (by decide)
    (Or.inl ⟨97, by decide, rfl⟩) hd1 hd2 (by omega) hbody
  simpa using this

/-- A hash in the encoding of the bcrypt package is a bcrypt hash for `isBcryptHash`, strict or
not, once the prefix `CRDB-BCRYPT` is put in front. -/
theorem isBcryptHash_prefixed_of_encoded (h : List Byte) (strict : Bool)
    (he : bcryptEncoded h = true) : isBcryptHash (crdbBcryptPrefix ++ h) strict = true := by
  obtain ⟨d1, d2, body, rfl, _, _, _, _⟩ := bcryptEncoded_parts h he
  unfold isBcryptHash
  rw [bcryptHashRe_rmatch_of_encoded _ _ (Or.inl rfl) he]
  have : HasPrefix (crdbBcryptPrefix ++ ([36, 50, 97, 36, d1, d2, 36] ++ body))
      (crdbBcryptPrefix ++ [36]) = true := by
    simp [HasPrefix, crdbBcryptPrefix, bytesOf]
  rw [this]
  simp

/-- A hash in the encoding of the bcrypt package is a bcrypt hash for `isBcryptHash` when the
prefix is not required. -/
theorem isBcryptHash_of_encoded (h : List Byte) (he : bcryptEncoded h = true) :
    isBcryptHash h false = true := by
  unfold isBcryptHash
  have := bcryptHashRe_rmatch_of_encoded [] h (Or.inr rfl) he
  rw [List.nil_append] at this
  simp [this]

/-- The empty string does not match `bcryptHashRe`. -/
theorem bcryptHashRe_rmatch_nil : bcryptHashRe.rmatch [] = false := by
  rfl

/-- The submatches of `isSCRAMHash` are five. -/
theorem scramSubmatches_length (b : List Byte) : (scramSubmatches b).length = 5 := rfl

/-- The function `makeSCRAMHash` on the five submatches of a matching input gives the invalid
hash it was handed or a SCRAM hash. -/
theorem makeSCRAMHash_scramSubmatches (b : List Byte) (inv : PasswordHash) :
    makeSCRAMHash b (scramSubmatches b) inv = some inv ∨
      ∃ decoded, makeSCRAMHash b (scramSubmatches b) inv = some (.ScramHash b decoded) := by
  unfold makeSCRAMHash scramSubmatches
  simp only [List.getElem?_cons_succ, List.getElem?_cons_zero]
  split
  · left; rfl
  · split
    · left; rfl
    · split
      · left; rfl
      · split
        · left; rfl
        · right; exact ⟨_, rfl⟩

/-- The loader returns a hash on every input, and the hash of the empty input only is the
missing one. -/
theorem LoadPasswordHash_cases (b : List Byte) :
    (b = [] ∧ LoadPasswordHash b = some .emptyPassword) ∨
    (b ≠ [] ∧ (LoadPasswordHash b = some (.invalidHash b) ∨
      LoadPasswordHash b = some (.bcryptHash b) ∨
      ∃ decoded, LoadPasswordHash b = some (.ScramHash b decoded))) := by
  by_cases hb : b = []
  · left; subst hb; exact ⟨rfl, rfl⟩
  · right
    refine ⟨hb, ?_⟩
    have hlen : ¬ b.length = 0 := fun h => hb (List.length_eq_zero.1 h)
    unfold LoadPasswordHash
    simp only [hlen, if_false]
    by_cases h1 : isBcryptHash b false = true
    · simp [h1]
    · simp only [h1]
      by_cases h2 : (isSCRAMHash b).1 = true
      · have h3 : (isSCRAMHash b).2 = scramSubmatches b := by
          unfold isSCRAMHash at h2 ⊢
          split at h2
          · rename_i h; simp [h]
          · simp at h2
        simp only [h2, h3, if_true, Bool.false_eq_true, if_false]
        rcases makeSCRAMHash_scramSubmatches b (.invalidHash b) with h | ⟨d, h⟩
        · left; exact h
        · right; right; exact ⟨d, h⟩
      · simp [h2]

/-- C1: for every byte string `b`, `LoadPasswordHash(b)` returns a hash, which is the missing
hash (`Method() = HashMissingPassword`) if and only if `b` is empty; every non-empty input
yields an invalid, bcrypt or SCRAM hash, never the missing one. -/
theorem LoadPasswordHash_missing_iff_empty (b : List Byte) :
    ∃ h, LoadPasswordHash b = some h ∧
      (h.Method = .HashMissingPassword ↔ b = []) ∧
      (h = .emptyPassword ↔ b = []) ∧
      (b ≠ [] → h.Method = .HashInvalidMethod ∨ h.Method = .HashBCrypt ∨
        h.Method = .HashSCRAMSHA256) := by
  rcases LoadPasswordHash_cases b with ⟨hb, h⟩ | ⟨hb, h | h | ⟨d, h⟩⟩
  · exact ⟨_, h, by simp [PasswordHash.Method, hb], by simp [hb], fun hne => absurd hb hne⟩
  · exact ⟨_, h, by simp [PasswordHash.Method, hb], by simp [hb],
      fun _ => Or.inl rfl⟩
  · exact ⟨_, h, by simp [PasswordHash.Method, hb], by simp [hb],
      fun _ => Or.inr (Or.inl rfl)⟩
  · exact ⟨_, h, by simp [PasswordHash.Method, hb], by simp [hb],
      fun _ => Or.inr (Or.inr rfl)⟩

/-- C2: for every cleartext (the empty one too) and every hash that is the missing hash or an
invalid hash, with any bytes kept in it, `CompareHashAndCleartextPassword` returns
`(false, nil)`: it never authenticates and never returns an error; it takes no permit. -/
theorem compare_missing_or_invalid (lib : Libs) (g : Globals) (ctx : Context)
    (h : PasswordHash) (cleartext : List Byte)
    (hh : h.Method = .HashMissingPassword ∨ h.Method = .HashInvalidMethod) :
    CompareHashAndCleartextPassword lib g ctx h cleartext = some ((false, none), g) := by
  cases h with
  | emptyPassword => rfl
  | invalidHash n => rfl
  | bcryptHash b => simp [PasswordHash.Method] at hh
  | ScramHash bytes decoded => simp [PasswordHash.Method] at hh

/-- The comparison with an invalid hash that keeps the bytes `md5`, on the empty cleartext. -/
theorem compare_missing_or_invalid_witness :
    ((PasswordHash.invalidHash (bytesOf "md5")).Method = .HashMissingPassword ∨
      (PasswordHash.invalidHash (bytesOf "md5")).Method = .HashInvalidMethod) ∧
    CompareHashAndCleartextPassword sample.libs sample.globals sample.background
      (.invalidHash (bytesOf "md5")) [] = some ((false, none), sample.globals) :=
  ⟨Or.inr rfl, compare_missing_or_invalid sample.libs sample.globals sample.background
    (.invalidHash (bytesOf "md5")) [] (Or.inr rfl)⟩

/-! ## The sample libraries meet the assumptions -/

namespace sample

theorem mem_bcryptAlphabet_of_encode (password : List Byte) :
    ∀ c ∈ encode password, c ∈ bcryptAlphabet := by
  intro c hc
  have h : c = 65 ∨ c = 66 ∨ c = 46 := by
    unfold encode at hc
    rcases List.mem_append.1 hc with h | h
    · obtain ⟨b, _, hb⟩ := List.mem_flatMap.1 h
      unfold encByte at hb
      rcases List.mem_append.1 hb with h' | h'
      · exact Or.inl (List.eq_of_mem_replicate h')
      · exact Or.inr (Or.inl (List.mem_singleton.1 h'))
    · exact Or.inr (Or.inr (List.eq_of_mem_replicate h))
  rcases h with h | h | h <;> subst h <;> decide

theorem length_encode (password : List Byte) : 53 ≤ (encode password).length := by
  unfold encode
  rw [List.length_append, List.length_replicate]
  omega

theorem decode_encByte (b acc : Nat) (rest : List Byte) :
    decode (encByte b ++ rest) acc = (acc + b) :: decode rest 0 := by
  induction b generalizing acc with
  | zero => simp [encByte, decode]
  | succ b ih =>
    have h : encByte (b + 1) ++ rest = 65 :: (encByte b ++ rest) := by
      simp [encByte, List.replicate_succ]
    rw [h, decode, if_pos rfl, ih]
    congr 1
    omega

theorem decode_fill (k : Nat) : decode (List.replicate k 46) 0 = [] := by
  cases k with
  | zero => rfl
  | succ k => simp [List.replicate_succ, decode]

theorem decode_encode (password : List Byte) : decode (encode password) 0 = password := by
  unfold encode
  generalize 53 - (password.flatMap encByte).length = k
  induction password with
  | nil => simpa using decode_fill k
  | cons b password ih =>
    rw [List.flatMap_cons, List.append_assoc, decode_encByte, ih, Nat.zero_add]

theorem encode_injective (p q : List Byte) (h : encode p = encode q) : p = q := by
  have := congrArg (fun l => decode l 0) h
  simpa [decode_encode] using this

theorem GenerateFromPassword_ok (entropy password h : List Byte) (cost : Int)
    (hg : libs.GenerateFromPassword entropy password cost = .ok h) :
    ∃ c : Int, h = bytesOf "$2a$" ++ twoDigits c ++ [36] ++ encode password := by
  simp only [libs, GenerateFromPassword] at hg
  split at hg
  · cases hg
  · injection hg with hg
    exact ⟨_, hg.symm⟩

theorem libs_GeneratesEncoded : libs.GeneratesEncoded := by
  intro entropy password cost h hg
  obtain ⟨c, rfl⟩ := GenerateFromPassword_ok entropy password h cost hg
  have e : bytesOf "$2a$" ++ twoDigits c ++ [36] ++ encode password =
      36 :: 50 :: 97 :: 36 :: (48 + c.toNat / 10 % 10) :: (48 + c.toNat % 10) :: 36 ::
        encode password := rfl
  rw [e]
  unfold bcryptEncoded
  simp only [Bool.and_eq_true, beq_iff_eq, decide_eq_true_eq, List.all_eq_true]
  refine ⟨⟨⟨⟨⟨rfl, rfl⟩, ?_⟩, rfl⟩, length_encode password⟩, mem_bcryptAlphabet_of_encode password⟩
  intro d hd
  simp only [List.drop_succ_cons, List.drop_zero, List.take_succ_cons, List.take_zero,
    List.mem_cons, List.mem_singleton, List.not_mem_nil, or_false] at hd
  unfold re.digit
  rw [List.mem_range'_1]
  rcases hd with hd | hd <;> subst hd <;> omega

theorem libs_AcceptsOwn : libs.AcceptsOwn := by
  intro entropy password cost h hg
  obtain ⟨c, rfl⟩ := GenerateFromPassword_ok entropy password h cost hg
  have e : bytesOf "$2a$" ++ twoDigits c ++ [36] ++ encode password =
      36 :: 50 :: 97 :: 36 :: (48 + c.toNat / 10 % 10) :: (48 + c.toNat % 10) :: 36 ::
        encode password := rfl
  rw [e]
  have hl := length_encode password
  simp only [libs, CompareHashAndPassword, List.length_cons, List.headD_cons, List.drop_succ_cons,
    List.drop_zero]
  simp
  omega

theorem libs_ChecksHashPrefix : libs.ChecksHashPrefix := by
  intro h password hlen hhead
  simp only [libs, CompareHashAndPassword]
  rw [if_neg (by omega), if_pos hhead]

/-- A fresh process grants a permit. -/
theorem acquire_globals :
    (getExpensiveHashComputeSem globals).2.Acquire background =
      some (.ok { capacity := 1, available := 0 }) := by
  rfl

/-- The sample package generates `hunter2Hash` for `hunter2`. -/
theorem HashPassword_hunter2 :
    HashPassword libs globals background settings [] hunter2 =
      some (.ok hunter2Hash,
        (getExpensiveHashComputeSem globals).1.setSem
          (IntPool.Release { capacity := 1, available := 0 })) := by
  unfold HashPassword
  simp only [acquire_globals]
  rfl

end sample

/-! ## The verifiers once a permit is acquired -/

/-- The bcrypt verifier with a permit: the result is read off the result of the bcrypt package
on the hash and on the cleartext followed by the empty digest; the permit is given back. -/
theorem bcryptHash_compare_acquired (lib : Libs) (g : Globals) (b : List Byte) (ctx : Context)
    (cleartext : List Byte) (held : IntPool)
    (hacq : (getExpensiveHashComputeSem g).2.Acquire ctx = some (.ok held)) :
    bcryptHash.compareWithCleartextPassword lib g b ctx cleartext =
      some ((match lib.CompareHashAndPassword b (appendEmptySha256 cleartext) with
        | some err =>
          if errorsIs err .ErrMismatchedHashAndPassword then (false, none) else (false, some err)
        | none => (true, none)), (getExpensiveHashComputeSem g).1.setSem held.Release) := by
  unfold bcryptHash.compareWithCleartextPassword
  simp only [hacq]

/-- A successful `HashPassword` returns what the bcrypt package generated from the password
followed by the empty digest, at the configured cost. -/
theorem HashPassword_ok (lib : Libs) (g g1 : Globals) (ctx : Context) (sv : Values)
    (entropy password h : List Byte)
    (hh : HashPassword lib g ctx sv entropy password = some (.ok h, g1)) :
    lib.GenerateFromPassword entropy (appendEmptySha256 password) sv.BcryptCost = .ok h := by
  unfold HashPassword at hh
  simp only at hh
  split at hh
  · cases hh
  · simp at hh
  · simp only [Option.some.injEq, Prod.mk.injEq] at hh
    exact hh.1

/-- The empty digest appended to two passwords keeps them apart. -/
theorem appendEmptySha256_injective (p q : List Byte)
    (h : appendEmptySha256 p = appendEmptySha256 q) : p = q :=
  List.append_cancel_right h

/-- An input that `isBcryptHash` accepts without requiring the prefix is loaded as a bcrypt
hash that keeps all its bytes. -/
theorem LoadPasswordHash_of_isBcryptHash (b : List Byte) (hb : isBcryptHash b false = true) :
    LoadPasswordHash b = some (.bcryptHash b) := by
  have hne : ¬ b.length = 0 := by
    intro h
    rw [List.length_eq_zero.1 h] at hb
    simp [isBcryptHash, bcryptHashRe_rmatch_nil] at hb
  unfold LoadPasswordHash
  simp [hne, hb]

/-- A hash in the encoding of the bcrypt package has 60 bytes or more. -/
theorem length_of_bcryptEncoded (h : List Byte) (he : bcryptEncoded h = true) :
    60 ≤ h.length := by
  obtain ⟨d1, d2, body, rfl, _, _, hlen, _⟩ := bcryptEncoded_parts h he
  simp only [List.length_append, List.length_cons, List.length_nil]
  omega

/-- The bcrypt verifier on a hash that carries the prefix `CRDB-BCRYPT`, when the bcrypt
package refuses a hash that does not begin with `$`. -/
theorem bcryptHash_compare_prefixed (lib : Libs) (hpre : lib.ChecksHashPrefix) (g : Globals)
    (ctx : Context) (h cleartext : List Byte) (held : IntPool) (hlen : 48 ≤ h.length)
    (hacq : (getExpensiveHashComputeSem g).2.Acquire ctx = some (.ok held)) :
    CompareHashAndCleartextPassword lib g ctx (.bcryptHash (crdbBcryptPrefix ++ h)) cleartext =
      some ((false, some (.InvalidHashPrefixError 67)),
        (getExpensiveHashComputeSem g).1.setSem held.Release) := by
  have h1 : 59 ≤ (crdbBcryptPrefix ++ h).length := by
    rw [List.length_append]
    have : crdbBcryptPrefix.length = 11 := rfl
    omega
  have h2 : (crdbBcryptPrefix ++ h).headD 0 = 67 := rfl
  have h3 := hpre (crdbBcryptPrefix ++ h) (appendEmptySha256 cleartext) h1 (by rw [h2]; decide)
  rw [h2] at h3
  unfold CompareHashAndCleartextPassword PasswordHash.compareWithCleartextPassword
  simp only
  rw [bcryptHash_compare_acquired lib g _ ctx cleartext held hacq, h3]
  rfl

/-- C3: round trip. For every cleartext password `p` and every configured cost (those between
`bcrypt.MinCost` and `bcrypt.MaxCost` among them), if `HashPassword(p)` succeeds with the
bytes `h`, then `LoadPasswordHash(h)` is the bcrypt hash `h`, and once a permit is acquired
`CompareHashAndCleartextPassword` on it and `p` returns `(true, nil)`. The bcrypt package is
assumed to write its encoding and to accept the password it hashed. -/
theorem HashPassword_round_trip (lib : Libs) (hfmt : lib.GeneratesEncoded)
    (hacc : lib.AcceptsOwn) (g g1 g2 : Globals) (ctx ctx2 : Context) (sv : Values)
    (entropy p h : List Byte) (held : IntPool)
    (hhash : HashPassword lib g ctx sv entropy p = some (.ok h, g1))
    (hacq : (getExpensiveHashComputeSem g2).2.Acquire ctx2 = some (.ok held)) :
    ∃ hashed, LoadPasswordHash h = some hashed ∧ hashed.Method = .HashBCrypt ∧
      CompareHashAndCleartextPassword lib g2 ctx2 hashed p =
        some ((true, none), (getExpensiveHashComputeSem g2).1.setSem held.Release) := by
  have hgen := HashPassword_ok lib g g1 ctx sv entropy p h hhash
  refine ⟨.bcryptHash h,
    LoadPasswordHash_of_isBcryptHash h (isBcryptHash_of_encoded h (hfmt _ _ _ _ hgen)), rfl, ?_⟩
  unfold CompareHashAndCleartextPassword PasswordHash.compareWithCleartextPassword
  simp only
  rw [bcryptHash_compare_acquired lib g2 h ctx2 p held hacq, hacc _ _ _ _ hgen]

/-- The round trip of `hunter2` through the sample package at cost 4. -/
theorem HashPassword_round_trip_witness :
    ∃ hashed, LoadPasswordHash sample.hunter2Hash = some hashed ∧
      hashed.Method = .HashBCrypt ∧
      CompareHashAndCleartextPassword sample.libs sample.globals sample.background hashed
        sample.hunter2 =
        some ((true, none), (getExpensiveHashComputeSem sample.globals).1.setSem
          (IntPool.Release { capacity := 1, available := 0 })) :=
  HashPassword_round_trip sample.libs sample.libs_GeneratesEncoded sample.libs_AcceptsOwn
    sample.globals _ sample.globals sample.background sample.background sample.settings []
    sample.hunter2 sample.hunter2Hash _ sample.HashPassword_hunter2 sample.acquire_globals

/-- The sample stored hash is in the encoding of the bcrypt package. -/
theorem sample.storedHash_encoded : bcryptEncoded sample.storedHash = true := by
  decide

/-- The hash the sample package generates for `hunter2` is in the encoding of the package. -/
theorem sample.hunter2Hash_encoded : bcryptEncoded sample.hunter2Hash = true :=
  sample.libs_GeneratesEncoded [] (appendEmptySha256 sample.hunter2) 4 sample.hunter2Hash rfl

/-- Against C5: with the sample package, `HashPassword` of `hunter2` at cost 4 succeeds; the
result with `CRDB-BCRYPT` in front is loaded as a bcrypt hash; comparing it with `hunter2`
returns `(false, InvalidHashPrefixError('C'))`, not `(true, nil)`. -/
theorem prefixed_round_trip_fails :
    HashPassword sample.libs sample.globals sample.background sample.settings []
        sample.hunter2 =
      some (.ok sample.hunter2Hash, (getExpensiveHashComputeSem sample.globals).1.setSem
        (IntPool.Release { capacity := 1, available := 0 })) ∧
    LoadPasswordHash (crdbBcryptPrefix ++ sample.hunter2Hash) =
      some (.bcryptHash (crdbBcryptPrefix ++ sample.hunter2Hash)) ∧
    CompareHashAndCleartextPassword sample.libs sample.globals sample.background
        (.bcryptHash (crdbBcryptPrefix ++ sample.hunter2Hash)) sample.hunter2 =
      some ((false, some (.InvalidHashPrefixError 67)),
        (getExpensiveHashComputeSem sample.globals).1.setSem
          (IntPool.Release { capacity := 1, available := 0 })) ∧
    CompareHashAndCleartextPassword sample.libs sample.globals sample.background
        (.bcryptHash (crdbBcryptPrefix ++ sample.hunter2Hash)) sample.hunter2 ≠
      some ((true, none),
        (getExpensiveHashComputeSem sample.globals).1.setSem
          (IntPool.Release { capacity := 1, available := 0 })) := by
  have hc := bcryptHash_compare_prefixed sample.libs sample.libs_ChecksHashPrefix
    sample.globals sample.background sample.hunter2Hash sample.hunter2 _
    (by have := length_of_bcryptEncoded _ sample.hunter2Hash_encoded; omega)
    sample.acquire_globals
  refine ⟨sample.HashPassword_hunter2,
    LoadPasswordHash_of_isBcryptHash _
      (isBcryptHash_prefixed_of_encoded _ false sample.hunter2Hash_encoded), hc, ?_⟩
  rw [hc]
  intro h
  simp only [Option.some.injEq, Prod.mk.injEq] at h
  exact absurd h.1.1 (by decide)

/-- C5, amended: for every cleartext `p` and cost, the bytes `h` of a successful
`HashPassword(p)` with `CRDB-BCRYPT` in front are loaded as a bcrypt hash whose bytes still
begin with `CRDB-BCRYPT`; once a permit is acquired, comparing any cleartext with it, `p`
included, returns `(false, e)` where `e` is the `InvalidHashPrefixError` of the bcrypt package
for the byte `C`. The bcrypt package is assumed to write its encoding and to refuse a hash
that does not begin with `$`. -/
theorem prefixed_hash_is_refused (lib : Libs) (hfmt : lib.GeneratesEncoded)
    (hpre : lib.ChecksHashPrefix) (g g1 g2 : Globals) (ctx ctx2 : Context) (sv : Values)
    (entropy p h : List Byte) (held : IntPool)
    (hhash : HashPassword lib g ctx sv entropy p = some (.ok h, g1))
    (hacq : (getExpensiveHashComputeSem g2).2.Acquire ctx2 = some (.ok held)) :
    ∃ hashed, LoadPasswordHash (crdbBcryptPrefix ++ h) = some hashed ∧
      hashed.Method = .HashBCrypt ∧ hashed.String = crdbBcryptPrefix ++ h ∧
      ∀ cleartext, CompareHashAndCleartextPassword lib g2 ctx2 hashed cleartext =
        some ((false, some (.InvalidHashPrefixError 67)),
          (getExpensiveHashComputeSem g2).1.setSem held.Release) := by
  have he := hfmt _ _ _ _ (HashPassword_ok lib g g1 ctx sv entropy p h hhash)
  refine ⟨.bcryptHash (crdbBcryptPrefix ++ h),
    LoadPasswordHash_of_isBcryptHash _ (isBcryptHash_prefixed_of_encoded _ false he),
    rfl, rfl, ?_⟩
  intro cleartext
  exact bcryptHash_compare_prefixed lib hpre g2 ctx2 h cleartext held
    (by have := length_of_bcryptEncoded _ he; omega) hacq

/-- The hash of `hunter2` from the sample package, with the prefix in front. -/
theorem prefixed_hash_is_refused_witness :
    ∃ hashed, LoadPasswordHash (crdbBcryptPrefix ++ sample.hunter2Hash) = some hashed ∧
      hashed.Method = .HashBCrypt ∧ hashed.String = crdbBcryptPrefix ++ sample.hunter2Hash ∧
      ∀ cleartext,
        CompareHashAndCleartextPassword sample.libs sample.globals sample.background hashed
          cleartext =
        some ((false, some (.InvalidHashPrefixError 67)),
          (getExpensiveHashComputeSem sample.globals).1.setSem
            (IntPool.Release { capacity := 1, available := 0 })) :=
  prefixed_hash_is_refused sample.libs sample.libs_GeneratesEncoded
    sample.libs_ChecksHashPrefix sample.globals _ sample.globals sample.background
    sample.background sample.settings [] sample.hunter2 sample.hunter2Hash _
    sample.HashPassword_hunter2 sample.acquire_globals

/-- Against C6: the sample stored hash with `CRDB-BCRYPT` in front matches the bcrypt grammar,
and `LoadPasswordHash` returns a bcrypt hash that keeps the 11 bytes of the prefix: its bytes
are not the input without them, and they begin with `C`, not with `$`. -/
theorem LoadPasswordHash_prefix_kept :
    isBcryptHash (crdbBcryptPrefix ++ sample.storedHash) false = true ∧
    LoadPasswordHash (crdbBcryptPrefix ++ sample.storedHash) =
      some (.bcryptHash (crdbBcryptPrefix ++ sample.storedHash)) ∧
    LoadPasswordHash (crdbBcryptPrefix ++ sample.storedHash) ≠
      some (.bcryptHash ((crdbBcryptPrefix ++ sample.storedHash).drop 11)) ∧
    (crdbBcryptPrefix ++ sample.storedHash).head? = some 67 := by
  have hb := isBcryptHash_prefixed_of_encoded _ false sample.storedHash_encoded
  have hl := LoadPasswordHash_of_isBcryptHash _ hb
  refine ⟨hb, hl, ?_, rfl⟩
  rw [hl]
  intro h
  simp only [Option.some.injEq, PasswordHash.bcryptHash.injEq] at h
  have := congrArg List.length h
  simp [crdbBcryptPrefix, bytesOf] at this
  omega

/-- C6, amended: for every stored byte string that matches the bcrypt grammar,
`LoadPasswordHash` returns a bcrypt hash whose bytes are the stored bytes as they are: when
the input begins with `CRDB-BCRYPT`, so do the bytes of the hash. -/
theorem LoadPasswordHash_bcrypt_verbatim (b : List Byte) (hb : isBcryptHash b false = true) :
    ∃ hashed, LoadPasswordHash b = some hashed ∧ hashed = .bcryptHash b ∧
      hashed.Method = .HashBCrypt ∧ hashed.String = b ∧
      (HasPrefix b crdbBcryptPrefix = true → HasPrefix hashed.String crdbBcryptPrefix = true) :=
  ⟨.bcryptHash b, LoadPasswordHash_of_isBcryptHash b hb, rfl, rfl, rfl, fun h => h⟩

/-- The sample stored hash with the prefix in front is loaded with the prefix. -/
theorem LoadPasswordHash_bcrypt_verbatim_witness :
    ∃ hashed, LoadPasswordHash (crdbBcryptPrefix ++ sample.storedHash) = some hashed ∧
      hashed = .bcryptHash (crdbBcryptPrefix ++ sample.storedHash) ∧
      hashed.Method = .HashBCrypt ∧ hashed.String = crdbBcryptPrefix ++ sample.storedHash ∧
      (HasPrefix (crdbBcryptPrefix ++ sample.storedHash) crdbBcryptPrefix = true →
        HasPrefix hashed.String crdbBcryptPrefix = true) :=
  LoadPasswordHash_bcrypt_verbatim (crdbBcryptPrefix ++ sample.storedHash)
    (isBcryptHash_prefixed_of_encoded _ false sample.storedHash_encoded)

/-- The value of `sha256NewSum`: the SHA-256 digest of the empty message. -/
theorem sha256NewSum_eq :
    sha256NewSum =
      [0xe3, 0xb0, 0xc4, 0x42, 0x98, 0xfc, 0x1c, 0x14, 0x9a, 0xfb, 0xf4, 0xc8, 0x99, 0x6f, 0xb9,
       0x24, 0x27, 0xae, 0x41, 0xe4, 0x64, 0x9b, 0x93, 0x4c, 0xa4, 0x95, 0x99, 0x1b, 0x78, 0x52,
       0xb8, 0x55] := by
  decide

/-- The SHA-256 digest of `hunter2`, which is not the digest of the empty message. -/
theorem Sum256_hunter2 :
    sha256.Sum256 sample.hunter2 =
      [0xf5, 0x2f, 0xbd, 0x32, 0xb2, 0xb3, 0xb8, 0x6f, 0xf8, 0x8e, 0xf6, 0xc4, 0x90, 0x62, 0x82,
       0x85, 0xf4, 0x82, 0xaf, 0x15, 0xdd, 0xcb, 0x29, 0x54, 0x1f, 0x94, 0xbc, 0xf5, 0x26, 0xa3,
       0xf6, 0xc7] := by
  decide!

/-- The SCRAM verifier with a permit: the server key is derived from the prepared cleartext,
or from the cleartext as it is when the preparation fails, and compared with the stored one;
the permit is given back. -/
theorem ScramHash_compare_acquired (lib : Libs) (g : Globals) (decoded : StoredCredentials)
    (ctx : Context) (cleartext : List Byte) (held : IntPool)
    (hacq : (getExpensiveHashComputeSem g).2.Acquire ctx = some (.ok held)) :
    ScramHash.compareWithCleartextPassword lib g decoded ctx cleartext =
      some ((decide (computeHMAC lib
          (lib.pbkdf2Key
            (match lib.SASLprepPrepare cleartext with
              | .ok prepared => prepared
              | .error _ => cleartext)
            decoded.KeyFactors.Salt decoded.KeyFactors.Iters sha256.Size)
          (bytesOf "Server Key") = decoded.ServerKey), none),
        (getExpensiveHashComputeSem g).1.setSem held.Release) := by
  unfold ScramHash.compareWithCleartextPassword
  simp only [hacq]

/-- C7: once a permit is acquired, the bcrypt verifier maps the result of the bcrypt package:
success gives `(true, nil)`; the error `ErrMismatchedHashAndPassword` gives `(false, nil)`;
every other error `e` (one that `errors.Is` does not relate to it) gives `(false, e)`, with
`e` as the package returned it. -/
theorem bcrypt_verifier_maps_library_result (lib : Libs) (g : Globals) (ctx : Context)
    (b cleartext : List Byte) (held : IntPool)
    (hacq : (getExpensiveHashComputeSem g).2.Acquire ctx = some (.ok held)) :
    (lib.CompareHashAndPassword b (appendEmptySha256 cleartext) = none →
      CompareHashAndCleartextPassword lib g ctx (.bcryptHash b) cleartext =
        some ((true, none), (getExpensiveHashComputeSem g).1.setSem held.Release)) ∧
    (lib.CompareHashAndPassword b (appendEmptySha256 cleartext) =
        some .ErrMismatchedHashAndPassword →
      CompareHashAndCleartextPassword lib g ctx (.bcryptHash b) cleartext =
        some ((false, none), (getExpensiveHashComputeSem g).1.setSem held.Release)) ∧
    (∀ e, lib.CompareHashAndPassword b (appendEmptySha256 cleartext) = some e →
      errorsIs e .ErrMismatchedHashAndPassword = false →
      CompareHashAndCleartextPassword lib g ctx (.bcryptHash b) cleartext =
        some ((false, some e), (getExpensiveHashComputeSem g).1.setSem held.Release)) := by
  have h := bcryptHash_compare_acquired lib g b ctx cleartext held hacq
  unfold CompareHashAndCleartextPassword PasswordHash.compareWithCleartextPassword
  simp only
  rw [h]
  refine ⟨fun h1 => by rw [h1], fun h1 => by rw [h1]; rfl, fun e h1 h2 => ?_⟩
  rw [h1]
  simp [h2]

/-- The three results with the sample package: the hash of `hunter2` against `hunter2` and
against `hunter`, and a hash that is too short. -/
theorem bcrypt_verifier_maps_library_result_witness :
    (sample.libs.CompareHashAndPassword [] (appendEmptySha256 sample.hunter2) = none →
      CompareHashAndCleartextPassword sample.libs sample.globals sample.background
        (.bcryptHash []) sample.hunter2 =
        some ((true, none), (getExpensiveHashComputeSem sample.globals).1.setSem
          (IntPool.Release { capacity := 1, available := 0 }))) ∧
    (sample.libs.CompareHashAndPassword [] (appendEmptySha256 sample.hunter2) =
        some .ErrMismatchedHashAndPassword →
      CompareHashAndCleartextPassword sample.libs sample.globals sample.background
        (.bcryptHash []) sample.hunter2 =
        some ((false, none), (getExpensiveHashComputeSem sample.globals).1.setSem
          (IntPool.Release { capacity := 1, available := 0 }))) ∧
    (∀ e, sample.libs.CompareHashAndPassword [] (appendEmptySha256 sample.hunter2) = some e →
      errorsIs e .ErrMismatchedHashAndPassword = false →
      CompareHashAndCleartextPassword sample.libs sample.globals sample.background
        (.bcryptHash []) sample.hunter2 =
        some ((false, some e), (getExpensiveHashComputeSem sample.globals).1.setSem
          (IntPool.Release { capacity := 1, available := 0 }))) :=
  bcrypt_verifier_maps_library_result sample.libs sample.globals sample.background []
    sample.hunter2 _ sample.acquire_globals

/-- C8: for every cleartext password `p`, the byte string handed to the bcrypt package by the
bcrypt verifier and by `HashPassword` is `p` followed by the SHA-256 digest of the empty
message: its length is `len(p) + 32`, its first `len(p)` bytes are `p`, and its last 32 bytes
are the same constant for every `p` (for `hunter2` they are not the digest of `hunter2`). -/
theorem appendEmptySha256_handed_to_bcrypt (lib : Libs) (g : Globals) (ctx : Context)
    (sv : Values) (b entropy p : List Byte) (held : IntPool)
    (hacq : (getExpensiveHashComputeSem g).2.Acquire ctx = some (.ok held)) :
    appendEmptySha256 p = p ++ sha256.Sum256 [] ∧
    sha256.Sum256 [] =
      [0xe3, 0xb0, 0xc4, 0x42, 0x98, 0xfc, 0x1c, 0x14, 0x9a, 0xfb, 0xf4, 0xc8, 0x99, 0x6f, 0xb9,
       0x24, 0x27, 0xae, 0x41, 0xe4, 0x64, 0x9b, 0x93, 0x4c, 0xa4, 0x95, 0x99, 0x1b, 0x78, 0x52,
       0xb8, 0x55] ∧
    (appendEmptySha256 p).length = p.length + 32 ∧
    (appendEmptySha256 p).take p.length = p ∧
    (appendEmptySha256 p).drop p.length = sha256.Sum256 [] ∧
    sha256.Sum256 sample.hunter2 ≠ sha256.Sum256 [] ∧
    bcryptHash.compareWithCleartextPassword lib g b ctx p =
      some ((match lib.CompareHashAndPassword b (p ++ sha256.Sum256 []) with
        | some err =>
          if errorsIs err .ErrMismatchedHashAndPassword then (false, none) else (false, some err)
        | none => (true, none)), (getExpensiveHashComputeSem g).1.setSem held.Release) ∧
    HashPassword lib g ctx sv entropy p =
      some (lib.GenerateFromPassword entropy (p ++ sha256.Sum256 []) sv.BcryptCost,
        (getExpensiveHashComputeSem g).1.setSem held.Release) := by
  have hd : sha256.Sum256 [] = _ := sha256NewSum_eq
  refine ⟨rfl, hd, ?_, ?_, ?_, ?_, ?_, ?_⟩
  · show (p ++ sha256.Sum256 []).length = _
    rw [List.length_append, hd]; rfl
  · exact List.take_left' rfl
  · exact List.drop_left' rfl
  · rw [Sum256_hunter2, hd]; decide
  · exact bcryptHash_compare_acquired lib g b ctx p held hacq
  · unfold HashPassword
    simp only [hacq]
    rfl

/-- The password `hunter2` handed to the sample package. -/
theorem appendEmptySha256_handed_to_bcrypt_witness :
    (appendEmptySha256 sample.hunter2).length = sample.hunter2.length + 32 ∧
    (appendEmptySha256 sample.hunter2).drop sample.hunter2.length = sha256.Sum256 [] ∧
    HashPassword sample.libs sample.globals sample.background sample.settings []
        sample.hunter2 =
      some (sample.libs.GenerateFromPassword [] (sample.hunter2 ++ sha256.Sum256 [])
          sample.settings.BcryptCost,
        (getExpensiveHashComputeSem sample.globals).1.setSem
          (IntPool.Release { capacity := 1, available := 0 })) :=
  have h := appendEmptySha256_handed_to_bcrypt sample.libs sample.globals sample.background
    sample.settings [] [] sample.hunter2 _ sample.acquire_globals
  ⟨h.2.2.1, h.2.2.2.2.1, h.2.2.2.2.2.2.2⟩

/-- C9: for every SCRAM hash with salt `s`, iteration count `i` and stored server key `k`, and
every cleartext `c` that SASLprep normalises to `n`, once a permit is acquired the SCRAM
verifier returns `(ok, nil)`, where `ok` is true if and only if HMAC-SHA256 with key
PBKDF2-HMAC-SHA256(`n`, `s`, `i`, 32) and data `"Server Key"` equals `k` byte for byte. -/
theorem scram_verifier_server_key (lib : Libs) (g : Globals) (ctx : Context)
    (bytes : List Byte) (decoded : StoredCredentials) (cleartext normalized : List Byte)
    (held : IntPool)
    (hacq : (getExpensiveHashComputeSem g).2.Acquire ctx = some (.ok held))
    (hprep : lib.SASLprepPrepare cleartext = .ok normalized) :
    ∃ ok, CompareHashAndCleartextPassword lib g ctx (.ScramHash bytes decoded) cleartext =
        some ((ok, none), (getExpensiveHashComputeSem g).1.setSem held.Release) ∧
      (ok = true ↔
        specServerKey lib normalized decoded.KeyFactors.Salt decoded.KeyFactors.Iters =
          decoded.ServerKey) := by
  refine ⟨_, ?_, decide_eq_true_iff⟩
  unfold CompareHashAndCleartextPassword PasswordHash.compareWithCleartextPassword
  simp only
  rw [ScramHash_compare_acquired lib g decoded ctx cleartext held hacq, hprep]
  rfl

/-- The cleartext `hunter2`, which the sample SASLprep leaves as it is. -/
theorem scram_verifier_server_key_witness :
    ∃ ok, CompareHashAndCleartextPassword sample.libs sample.globals sample.background
        sample.scramHash sample.hunter2 =
        some ((ok, none), (getExpensiveHashComputeSem sample.globals).1.setSem
          (IntPool.Release { capacity := 1, available := 0 })) ∧
      (ok = true ↔ specServerKey sample.libs sample.hunter2 [1, 2] 4096 = []) :=
  scram_verifier_server_key sample.libs sample.globals sample.background []
    sample.credentials
    sample.hunter2 sample.hunter2 _ sample.acquire_globals rfl

/-- C10: for every SCRAM hash and every cleartext `c` on which the SASLprep normalisation
fails, the SCRAM verifier returns no error: with a permit acquired it returns `(ok, nil)`,
where `ok` is the result of the same derivation on the bytes of `c` as they are. -/
theorem scram_verifier_saslprep_failure (lib : Libs) (g : Globals) (ctx : Context)
    (bytes : List Byte) (decoded : StoredCredentials) (cleartext : List Byte) (e : GoError)
    (held : IntPool)
    (hacq : (getExpensiveHashComputeSem g).2.Acquire ctx = some (.ok held))
    (hprep : lib.SASLprepPrepare cleartext = .error e) :
    ∃ ok, CompareHashAndCleartextPassword lib g ctx (.ScramHash bytes decoded) cleartext =
        some ((ok, none), (getExpensiveHashComputeSem g).1.setSem held.Release) ∧
      (ok = true ↔
        specServerKey lib cleartext decoded.KeyFactors.Salt decoded.KeyFactors.Iters =
          decoded.ServerKey) := by
  refine ⟨_, ?_, decide_eq_true_iff⟩
  unfold CompareHashAndCleartextPassword PasswordHash.compareWithCleartextPassword
  simp only
  rw [ScramHash_compare_acquired lib g decoded ctx cleartext held hacq, hprep]
  rfl

/-- The cleartext made of the byte 0, which the sample SASLprep refuses. -/
theorem scram_verifier_saslprep_failure_witness :
    ∃ ok, CompareHashAndCleartextPassword sample.libs sample.globals sample.background
        sample.scramHash [0] =
        some ((ok, none), (getExpensiveHashComputeSem sample.globals).1.setSem
          (IntPool.Release { capacity := 1, available := 0 })) ∧
      (ok = true ↔ specServerKey sample.libs [0] [1, 2] 4096 = []) :=
  scram_verifier_saslprep_failure sample.libs sample.globals sample.background []
    sample.credentials
    [0] (.New "prohibited character") _ sample.acquire_globals rfl

/-! ## The character classes of the patterns -/

theorem mem_digit_iff (c : Byte) : c ∈ re.digit ↔ isDigit c := by
  unfold re.digit isDigit Byte
  rw [List.mem_range'_1]
  omega

theorem mem_lower_iff (c : Byte) : c ∈ re.lower ↔ isLower c := by
  unfold re.lower isLower Byte
  rw [List.mem_range'_1]
  omega

theorem mem_upper_iff (c : Byte) : c ∈ re.upper ↔ isUpper c := by
  unfold re.upper isUpper Byte
  rw [List.mem_range'_1]
  omega

theorem mem_bcryptAlphabet_iff (c : Byte) : c ∈ bcryptAlphabet ↔ isBcryptChar c := by
  unfold bcryptAlphabet isBcryptChar
  simp only [List.mem_append, mem_digit_iff, mem_upper_iff, mem_lower_iff, List.mem_cons,
    List.mem_singleton, List.not_mem_nil, or_false]
  tauto

theorem mem_scramAlphabet_iff (c : Byte) : c ∈ scramAlphabet ↔ isBase64Char c := by
  unfold scramAlphabet isBase64Char
  simp only [List.mem_append, mem_digit_iff, mem_upper_iff, mem_lower_iff, List.mem_cons,
    List.mem_singleton, List.not_mem_nil, or_false]
  tauto

/-! ## The bcrypt pattern and the bcrypt grammar -/

/-- The strings that `bcryptHashRe` matches are those of the bcrypt grammar with a run of 23
characters or more. -/
theorem bcryptHashRe_rmatch_iff (b : List Byte) :
    bcryptHashRe.rmatch b = true ↔ bcryptGrammar 23 b := by
  constructor
  · intro h
    unfold bcryptHashRe at h
    simp only [re.rmatch_seq_cons_iff, re.rmatch_seq_nil_iff, re.rmatch_opt_iff,
      re.rmatch_lit_iff, re.rmatch_char_iff, re.rmatch_cls_iff, re.rmatch_rep_cls_iff,
      re.rmatch_many1_cls_iff] at h
    obtain ⟨pre, u1, rfl, hpre, t2, u2, rfl, rfl, t3, u3, rfl, ⟨v, hv, rfl⟩, letter, u4, rfl,
      hletter, t5, u5, rfl, rfl, t6, u6, rfl, ⟨d1, hd1, rfl⟩, t7, u7, rfl, ⟨d2, hd2, rfl⟩,
      t8, u8, rfl, rfl, salt, u9, rfl, ⟨hslen, hsalt⟩, rest, u10, rfl, ⟨hrne, hrest⟩, rfl⟩ := h
    refine ⟨pre, v, letter, d1, d2, salt ++ rest, by simp, ?_, (mem_digit_iff v).1 hv, ?_,
      (mem_digit_iff d1).1 hd1, (mem_digit_iff d2).1 hd2, ?_, ?_⟩
    · rcases hpre with h | h
      · exact Or.inr h
      · exact Or.inl h
    · rcases hletter with ⟨c, hc, h⟩ | h
      · exact Or.inr ⟨c, (mem_lower_iff c).1 hc, h⟩
      · exact Or.inl h
    · rw [List.length_append, hslen]
      have : 0 < rest.length := List.length_pos.2 hrne
      omega
    · intro c hc
      rcases List.mem_append.1 hc with h | h
      · exact (mem_bcryptAlphabet_iff c).1 (hsalt c h)
      · exact (mem_bcryptAlphabet_iff c).1 (hrest c h)
  · rintro ⟨pre, v, letter, d1, d2, run, rfl, hpre, hv, hletter, hd1, hd2, hlen, hrun⟩
    have := bcryptHashRe_rmatch_of_parts pre letter run v d1 d2
      (by rcases hpre with h | h
          · exact Or.inr h
          · exact Or.inl h)
      ((mem_digit_iff v).2 hv)
      (by rcases hletter with h | ⟨c, hc, h⟩
          · exact Or.inr h
          · exact Or.inl ⟨c, (mem_lower_iff c).2 hc, h⟩)
      ((mem_digit_iff d1).2 hd1) ((mem_digit_iff d2).2 hd2) hlen
      (fun c hc => (mem_bcryptAlphabet_iff c).2 (hrun c hc))
    simpa using this

/-! ## Scanning up to a delimiter -/

theorem dropWhile_append_delim (p : Byte → Bool) (l r : List Byte) (x : Byte)
    (hl : ∀ c ∈ l, p c = true) (hx : p x = false) : (l ++ x :: r).dropWhile p = x :: r := by
  induction l with
  | nil => simp [List.dropWhile, hx]
  | cons a l ih =>
    rw [List.cons_append, List.dropWhile_cons, if_pos (hl a (List.mem_cons_self _ _))]
    exact ih (fun c hc => hl c (List.mem_cons_of_mem _ hc))

theorem takeWhile_append_delim (p : Byte → Bool) (l r : List Byte) (x : Byte)
    (hl : ∀ c ∈ l, p c = true) (hx : p x = false) : (l ++ x :: r).takeWhile p = l := by
  induction l with
  | nil => simp [List.takeWhile, hx]
  | cons a l ih =>
    rw [List.cons_append, List.takeWhile_cons, if_pos (hl a (List.mem_cons_self _ _))]
    rw [ih (fun c hc => hl c (List.mem_cons_of_mem _ hc))]

/-- The part after the first `$` of a string whose first `$` comes after `l`. -/
theorem afterDollar_append (l r : List Byte) (hl : ∀ c ∈ l, c ≠ 36) :
    afterDollar (l ++ 36 :: r) = r := by
  unfold afterDollar
  rw [dropWhile_append_delim _ l r 36 (fun c hc => by simpa using hl c hc) (by simp)]
  rfl

/-- The trailing run of a string of the bcrypt grammar is its run. -/
theorem bcryptTrailingRun_of_parts (pre letter run : List Byte) (v d1 d2 : Byte)
    (hpre : pre = [] ∨ pre = bytesOf "CRDB-BCRYPT") (hv : isDigit v)
    (hletter : letter = [] ∨ ∃ c, isLower c ∧ letter = [c]) (hd1 : isDigit d1)
    (hd2 : isDigit d2) :
    bcryptTrailingRun (pre ++ [36, v] ++ letter ++ [36, d1, d2, 36] ++ run) = run := by
  unfold bcryptTrailingRun
  have e1 : pre ++ [36, v] ++ letter ++ [36, d1, d2, 36] ++ run =
      pre ++ 36 :: ((v :: letter) ++ 36 :: ([d1, d2] ++ 36 :: run)) := by simp
  rw [e1, afterDollar_append, afterDollar_append, afterDollar_append]
  · intro c hc
    unfold isDigit Byte at *
    simp only [List.mem_cons, List.mem_singleton, List.not_mem_nil, or_false] at hc
    rcases hc with h | h <;> omega
  · intro c hc
    rcases List.mem_cons.1 hc with h | h
    · unfold isDigit Byte at *
      omega
    · rcases hletter with hl | ⟨d, hd, hl⟩
      · rw [hl] at h; cases h
      · rw [hl, List.mem_singleton] at h
        unfold isLower Byte at *
        omega
  · intro c hc
    rcases hpre with h | h
    · rw [h] at hc; cases hc
    · rw [h] at hc
      revert c
      decide

/-! ## The function `isBcryptHash` -/

/-- Without `strict`, `isBcryptHash` is the match of the pattern. -/
theorem isBcryptHash_false_eq (b : List Byte) : isBcryptHash b false = bcryptHashRe.rmatch b := by
  unfold isBcryptHash
  cases bcryptHashRe.rmatch b <;> simp

/-- With `strict`, `isBcryptHash` is the match of the pattern together with the prefix
`CRDB-BCRYPT$`. -/
theorem isBcryptHash_true_iff (b : List Byte) :
    isBcryptHash b true = true ↔
      bcryptHashRe.rmatch b = true ∧ HasPrefix b (crdbBcryptPrefix ++ [36]) = true := by
  unfold isBcryptHash
  cases bcryptHashRe.rmatch b <;> cases HasPrefix b (crdbBcryptPrefix ++ [36]) <;> simp

/-- A string of the bcrypt grammar that begins with `CRDB-BCRYPT` begins with
`CRDB-BCRYPT$`. -/
theorem HasPrefix_dollar_of_grammar (n : Nat) (b : List Byte) (hb : bcryptGrammar n b)
    (hp : HasPrefix b crdbBcryptPrefix = true) :
    HasPrefix b (crdbBcryptPrefix ++ [36]) = true := by
  obtain ⟨pre, v, letter, d1, d2, run, rfl, hpre, -⟩ := hb
  rcases hpre with h | h
  · subst h
    simp [HasPrefix, crdbBcryptPrefix, bytesOf] at hp
  · subst h
    simp [HasPrefix, crdbBcryptPrefix, bytesOf]

/-- C16: for every byte string `b`, `isBcryptHash(b, strict = true)` holds if and only if
`isBcryptHash(b, strict = false)` holds and `b` begins with the literal `CRDB-BCRYPT`; and when
`b` matches without `strict` and does not begin with the prefix, `CRDB-BCRYPT` followed by `b`
matches with `strict`. -/
theorem isBcryptHash_strict_iff (b : List Byte) :
    (isBcryptHash b true = true ↔
      isBcryptHash b false = true ∧ HasPrefix b crdbBcryptPrefix = true) ∧
    (isBcryptHash b false = true ∧ HasPrefix b crdbBcryptPrefix = false →
      isBcryptHash (crdbBcryptPrefix ++ b) true = true) := by
  rw [isBcryptHash_true_iff, isBcryptHash_false_eq]
  refine ⟨⟨?_, ?_⟩, ?_⟩
  · rintro ⟨h1, h2⟩
    refine ⟨h1, ?_⟩
    unfold HasPrefix at *
    rw [List.isPrefixOf_iff_prefix] at *
    exact (List.prefix_append _ _).trans h2
  · rintro ⟨h1, h2⟩
    exact ⟨h1, HasPrefix_dollar_of_grammar 23 b ((bcryptHashRe_rmatch_iff b).1 h1) h2⟩
  · rintro ⟨h1, h2⟩
    rw [isBcryptHash_true_iff]
    obtain ⟨pre, v, letter, d1, d2, run, rfl, hpre, hrest⟩ := (bcryptHashRe_rmatch_iff b).1 h1
    rcases hpre with h | h
    · subst h
      refine ⟨(bcryptHashRe_rmatch_iff _).2
        ⟨bytesOf "CRDB-BCRYPT", v, letter, d1, d2, run, by simp [crdbBcryptPrefix], Or.inr rfl,
          hrest⟩, ?_⟩
      simp [HasPrefix, crdbBcryptPrefix, bytesOf]
    · subst h
      simp [HasPrefix, crdbBcryptPrefix, bytesOf] at h2

/-- The string `run23Hash` is of the bcrypt grammar, with a run of 23 characters. -/
theorem sample.run23Hash_grammar (pre : List Byte)
    (hpre : pre = [] ∨ pre = bytesOf "CRDB-BCRYPT") :
    bcryptGrammar 23 (pre ++ sample.run23Hash) :=
  ⟨pre, 50, [97], 49, 48, bytesOf "abcdefghijklmnopqrstuuA", by simp [sample.run23Hash, bytesOf],
    hpre, by unfold isDigit Byte; omega, Or.inr ⟨97, by unfold isLower Byte; omega, rfl⟩,
    by unfold isDigit Byte; omega, by unfold isDigit Byte; omega, by decide,
    fun c hc => (mem_bcryptAlphabet_iff c).1 (by revert c; decide)⟩

/-- Against C17: `run23Hash` is accepted by `isBcryptHash` without `strict`, and with `strict`
once `CRDB-BCRYPT` is put in front, and its trailing run has 23 characters, fewer than 53. -/
theorem isBcryptHash_accepts_run_of_23 :
    isBcryptHash sample.run23Hash false = true ∧
    isBcryptHash (crdbBcryptPrefix ++ sample.run23Hash) true = true ∧
    (bcryptTrailingRun sample.run23Hash).length = 23 ∧
    (bcryptTrailingRun (crdbBcryptPrefix ++ sample.run23Hash)).length = 23 := by
  refine ⟨?_, ?_, by decide, by decide⟩
  · rw [isBcryptHash_false_eq, bcryptHashRe_rmatch_iff]
    exact sample.run23Hash_grammar [] (Or.inl rfl)
  · rw [isBcryptHash_true_iff, bcryptHashRe_rmatch_iff]
    exact ⟨sample.run23Hash_grammar _ (Or.inr rfl), by decide⟩

/-- C17, amended: `isBcryptHash(b, strict)` returns true only for strings whose trailing run
(the part after the third `$`) has at least 23 characters, all of `[0-9A-Za-z./]`; every input
with a shorter trailing run is rejected. -/
theorem isBcryptHash_trailing_run (b : List Byte) (strict : Bool) :
    (isBcryptHash b strict = true →
      23 ≤ (bcryptTrailingRun b).length ∧ (∀ c ∈ bcryptTrailingRun b, isBcryptChar c) ∧
        ∃ front, b = front ++ [36] ++ bcryptTrailingRun b) ∧
    ((bcryptTrailingRun b).length < 23 → isBcryptHash b strict = false) := by
  have key : isBcryptHash b strict = true →
      23 ≤ (bcryptTrailingRun b).length ∧ (∀ c ∈ bcryptTrailingRun b, isBcryptChar c) ∧
        ∃ front, b = front ++ [36] ++ bcryptTrailingRun b := by
    intro h
    have hr : bcryptHashRe.rmatch b = true := by
      cases strict
      · rw [← isBcryptHash_false_eq]; exact h
      · exact ((isBcryptHash_true_iff b).1 h).1
    obtain ⟨pre, v, letter, d1, d2, run, rfl, hpre, hv, hletter, hd1, hd2, hlen, hrun⟩ :=
      (bcryptHashRe_rmatch_iff b).1 hr
    rw [bcryptTrailingRun_of_parts pre letter run v d1 d2 hpre hv hletter hd1 hd2]
    exact ⟨hlen, hrun, pre ++ [36, v] ++ letter ++ [36, d1, d2], by simp⟩
  refine ⟨key, fun hlt => ?_⟩
  cases h : isBcryptHash b strict
  · rfl
  · have := (key h).1
    omega

/-- C18: for every byte string `b`, `isBcryptHash(b, false)` is true if and only if the whole
of `b` is an optional literal `CRDB-BCRYPT`, then `$`, one decimal digit, an optional lowercase
letter, `$`, two decimal digits, `$`, and a run of at least 23 characters of `[0-9A-Za-z./]`
up to the end. The run has no upper bound (one more character of the alphabet keeps the
match) and no other byte may follow (a trailing newline is rejected). -/
theorem isBcryptHash_iff_grammar (b : List Byte) :
    (isBcryptHash b false = true ↔ bcryptGrammar 23 b) ∧
    (∀ c, isBcryptChar c → isBcryptHash b false = true →
      isBcryptHash (b ++ [c]) false = true) ∧
    isBcryptHash (b ++ [10]) false = false := by
  have hiff : ∀ x, isBcryptHash x false = true ↔ bcryptGrammar 23 x := fun x => by
    rw [isBcryptHash_false_eq, bcryptHashRe_rmatch_iff]
  refine ⟨hiff b, ?_, ?_⟩
  · intro c hc h
    obtain ⟨pre, v, letter, d1, d2, run, rfl, hpre, hv, hletter, hd1, hd2, hlen, hrun⟩ :=
      (hiff b).1 h
    refine (hiff _).2 ⟨pre, v, letter, d1, d2, run ++ [c], by simp, hpre, hv, hletter, hd1, hd2,
      by rw [List.length_append]; omega, ?_⟩
    intro x hx
    rcases List.mem_append.1 hx with h' | h'
    · exact hrun x h'
    · rw [List.mem_singleton.1 h']; exact hc
  · cases h : isBcryptHash (b ++ [10]) false
    · rfl
    · exfalso
      obtain ⟨pre, v, letter, d1, d2, run, hb, -, -, -, -, -, hlen, hrun⟩ := (hiff _).1 h
      have hne : run ≠ [] := by
        intro e
        rw [e] at hlen
        simp at hlen
      have hlast : (b ++ [10]).getLast? = run.getLast? := by
        rw [hb, List.getLast?_append_of_ne_nil _ hne]
      simp only [List.getLast?_append, List.getLast?_singleton, Option.or] at hlast
      have hmem : (10 : Byte) ∈ run := List.mem_of_getLast?_eq_some hlast.symm
      have := hrun 10 hmem
      unfold isBcryptChar isDigit isUpper isLower Byte at this
      omega

/-! ## The SCRAM pattern and the SCRAM grammar -/

/-- The strings that `scramHashRe` matches are those of the SCRAM grammar. -/
theorem scramHashRe_rmatch_iff (b : List Byte) :
    scramHashRe.rmatch b = true ↔
      ∃ iters salt storedKey serverKey, scramGrammar b iters salt storedKey serverKey := by
  constructor
  · intro h
    unfold scramHashRe at h
    simp only [re.rmatch_seq_cons_iff, re.rmatch_seq_nil_iff, re.rmatch_lit_iff,
      re.rmatch_char_iff, re.rmatch_rep_cls_iff, re.rmatch_many1_cls_iff,
      re.rmatch_star_char_iff] at h
    obtain ⟨t1, u1, rfl, rfl, t2, u2, rfl, rfl, iters, u3, rfl, ⟨hine, hiters⟩, t4, u4, rfl,
      rfl, chars, u5, rfl, ⟨hcne, hchars⟩, pad, u6, rfl, hpad, t7, u7, rfl, rfl, sk, u8, rfl,
      ⟨hsklen, hsk⟩, t9, u9, rfl, rfl, t10, u10, rfl, rfl, svk, u11, rfl, ⟨hsvklen, hsvk⟩, t12,
      u12, rfl, rfl, rfl⟩ := h
    refine ⟨iters, chars ++ pad, sk ++ [61], svk ++ [61], ?_, hine,
      fun c hc => (mem_digit_iff c).1 (hiters c hc),
      ⟨chars, pad, rfl, hcne, fun c hc => (mem_scramAlphabet_iff c).1 (hchars c hc), hpad⟩,
      ⟨sk, rfl, hsklen, fun c hc => (mem_scramAlphabet_iff c).1 (hsk c hc)⟩,
      ⟨svk, rfl, hsvklen, fun c hc => (mem_scramAlphabet_iff c).1 (hsvk c hc)⟩⟩
    have e : bytesOf "SCRAM-SHA-256$" = bytesOf "SCRAM-SHA-256" ++ [36] := by decide
    rw [e]
    simp
  · rintro ⟨iters, salt, storedKey, serverKey, rfl, hine, hiters, ⟨chars, pad, rfl, hcne, hchars,
      hpad⟩, ⟨sk, rfl, hsklen, hsk⟩, ⟨svk, rfl, hsvklen, hsvk⟩⟩
    have e : bytesOf "SCRAM-SHA-256$" ++ iters ++ [58] ++ (chars ++ pad) ++ [36] ++
        (sk ++ [61]) ++ [58] ++ (svk ++ [61]) =
        bytesOf "SCRAM-SHA-256" ++ ([36] ++ (iters ++ ([58] ++ (chars ++ (pad ++ ([36] ++
          (sk ++ ([61] ++ ([58] ++ (svk ++ ([61] ++ []))))))))))) := by
      have e' : bytesOf "SCRAM-SHA-256$" = bytesOf "SCRAM-SHA-256" ++ [36] := by decide
      rw [e']
      simp
    rw [e]
    unfold scramHashRe
    refine (re.rmatch_seq_cons_iff _ _ _).2 ⟨_, _, rfl, (re.rmatch_lit_iff _ _).2 rfl, ?_⟩
    refine (re.rmatch_seq_cons_iff _ _ _).2 ⟨_, _, rfl, (re.rmatch_char_iff _ _).2 rfl, ?_⟩
    refine (re.rmatch_seq_cons_iff _ _ _).2 ⟨_, _, rfl, (re.rmatch_many1_cls_iff _ _).2
      ⟨hine, fun c hc => (mem_digit_iff c).2 (hiters c hc)⟩, ?_⟩
    refine (re.rmatch_seq_cons_iff _ _ _).2 ⟨_, _, rfl, (re.rmatch_char_iff _ _).2 rfl, ?_⟩
    refine (re.rmatch_seq_cons_iff _ _ _).2 ⟨_, _, rfl, (re.rmatch_many1_cls_iff _ _).2
      ⟨hcne, fun c hc => (mem_scramAlphabet_iff c).2 (hchars c hc)⟩, ?_⟩
    refine (re.rmatch_seq_cons_iff _ _ _).2
      ⟨_, _, rfl, (re.rmatch_star_char_iff _ _).2 hpad, ?_⟩
    refine (re.rmatch_seq_cons_iff _ _ _).2 ⟨_, _, rfl, (re.rmatch_char_iff _ _).2 rfl, ?_⟩
    refine (re.rmatch_seq_cons_iff _ _ _).2 ⟨_, _, rfl, (re.rmatch_rep_cls_iff _ _ _).2
      ⟨hsklen, fun c hc => (mem_scramAlphabet_iff c).2 (hsk c hc)⟩, ?_⟩
    refine (re.rmatch_seq_cons_iff _ _ _).2 ⟨_, _, rfl, (re.rmatch_char_iff _ _).2 rfl, ?_⟩
    refine (re.rmatch_seq_cons_iff _ _ _).2 ⟨_, _, rfl, (re.rmatch_char_iff _ _).2 rfl, ?_⟩
    refine (re.rmatch_seq_cons_iff _ _ _).2 ⟨_, _, rfl, (re.rmatch_rep_cls_iff _ _ _).2
      ⟨hsvklen, fun c hc => (mem_scramAlphabet_iff c).2 (hsvk c hc)⟩, ?_⟩
    exact (re.rmatch_seq_cons_iff _ _ _).2
      ⟨_, _, rfl, (re.rmatch_char_iff _ _).2 rfl, (re.rmatch_seq_nil_iff _).2 rfl⟩

/-- A character of standard base64 is not `$`. -/
theorem isBase64Char_ne_dollar (c : Byte) (h : isBase64Char c) : c ≠ 36 := by
  unfold isBase64Char isUpper isLower isDigit Byte at *
  omega

/-- The submatches of a string of the SCRAM grammar are its four fields. -/
theorem scramSubmatches_of_grammar (b iters salt storedKey serverKey : List Byte)
    (h : scramGrammar b iters salt storedKey serverKey) :
    scramSubmatches b = [b, iters, salt, storedKey, serverKey] := by
  obtain ⟨hb, -, hiters, ⟨chars, pad, rfl, -, hchars, hpad⟩, ⟨sk, rfl, hsklen, -⟩,
    ⟨svk, rfl, hsvklen, -⟩⟩ := h
  have e : b = bytesOf "SCRAM-SHA-256$" ++ (iters ++ 58 :: ((chars ++ pad) ++ 36 ::
      ((sk ++ [61]) ++ 58 :: (svk ++ [61])))) := by
    rw [hb]; simp
  have h1 : b.drop 14 = iters ++ 58 :: ((chars ++ pad) ++ 36 ::
      ((sk ++ [61]) ++ 58 :: (svk ++ [61]))) := by
    rw [e]
    exact List.drop_left' rfl
  have hi : ∀ c ∈ iters, (fun c : Byte => decide (c ≠ 58)) c = true := by
    intro c hc
    have := hiters c hc
    unfold isDigit Byte at this
    simp only [ne_eq, decide_not, Bool.not_eq_true', decide_eq_false_iff_not]
    unfold Byte
    omega
  have hs : ∀ c ∈ chars ++ pad, (fun c : Byte => decide (c ≠ 36)) c = true := by
    intro c hc
    simp only [ne_eq, decide_not, Bool.not_eq_true', decide_eq_false_iff_not]
    rcases List.mem_append.1 hc with h | h
    · exact isBase64Char_ne_dollar c (hchars c h)
    · rw [hpad c h]; decide
  have hsk44 : (sk ++ [61]).length = 44 := by simp [hsklen]
  have hsvk44 : (svk ++ [61]).length = 44 := by simp [hsvklen]
  unfold scramSubmatches
  simp only [h1]
  rw [takeWhile_append_delim _ iters _ 58 hi (by simp),
    dropWhile_append_delim _ iters _ 58 hi (by simp)]
  simp only [List.drop_succ_cons, List.drop_zero]
  rw [takeWhile_append_delim _ (chars ++ pad) _ 36 hs (by simp),
    dropWhile_append_delim _ (chars ++ pad) _ 36 hs (by simp)]
  simp only [List.drop_succ_cons, List.drop_zero]
  rw [List.take_left' hsk44]
  have h2 : ((sk ++ [61]) ++ 58 :: (svk ++ [61])).drop 45 = svk ++ [61] := by
    have e2 : (sk ++ [61]) ++ 58 :: (svk ++ [61]) = ((sk ++ [61]) ++ [58]) ++ (svk ++ [61]) := by
      simp
    rw [e2]
    exact List.drop_left' (by simp [hsklen])
  rw [h2, List.take_of_length_le (by omega)]

/-- The function `isSCRAMHash` is the match of the pattern. -/
theorem isSCRAMHash_fst (b : List Byte) : (isSCRAMHash b).1 = scramHashRe.rmatch b := by
  unfold isSCRAMHash
  cases scramHashRe.rmatch b <;> simp

/-- The submatches that `isSCRAMHash` returns on a match. -/
theorem isSCRAMHash_snd (b : List Byte) (h : (isSCRAMHash b).1 = true) :
    (isSCRAMHash b).2 = scramSubmatches b := by
  rw [isSCRAMHash_fst] at h
  unfold isSCRAMHash
  simp [h]

/-- C19: for every byte string `b`, `isSCRAMHash(b)` is true if and only if the whole of `b` is
`SCRAM-SHA-256$`, one or more decimal digits, `:`, one or more characters of `[A-Za-z0-9+/]`
followed by zero or more `=`, `$`, 43 characters of `[A-Za-z0-9+/]` followed by `=`, `:`, and 43
characters of `[A-Za-z0-9+/]` followed by `=`; when true, the parts 1 to 4 returned are the
iteration, salt, storedKey and serverKey substrings of `b`, and part 0 is `b`. -/
theorem isSCRAMHash_iff_grammar (b : List Byte) :
    ((isSCRAMHash b).1 = true ↔
      ∃ iters salt storedKey serverKey, scramGrammar b iters salt storedKey serverKey) ∧
    (∀ iters salt storedKey serverKey, scramGrammar b iters salt storedKey serverKey →
      (isSCRAMHash b).2 = [b, iters, salt, storedKey, serverKey]) := by
  refine ⟨by rw [isSCRAMHash_fst, scramHashRe_rmatch_iff], ?_⟩
  intro iters salt storedKey serverKey h
  have hm : (isSCRAMHash b).1 = true := by
    rw [isSCRAMHash_fst, scramHashRe_rmatch_iff]
    exact ⟨_, _, _, _, h⟩
  rw [isSCRAMHash_snd b hm]
  exact scramSubmatches_of_grammar b iters salt storedKey serverKey h

/-! ## Decimal numbers -/

theorem le_foldl_decimal (ds : List Byte) (n : Nat) :
    n ≤ ds.foldl (fun n c => n * 10 + (c - 48)) n := by
  induction ds generalizing n with
  | nil => exact Nat.le_refl n
  | cons c cs ih =>
    rw [List.foldl_cons]
    exact Nat.le_trans (by omega) (ih (n * 10 + (c - 48)))

/-- The digit loop of `ParseUint` on a string of digits: the value, or a range error when the
value does not fit 64 bits. -/
theorem parseUintLoop_digits (ds : List Byte) (n : Nat) (hds : ∀ c ∈ ds, isDigit c)
    (hn : n ≤ 18446744073709551615) :
    parseUintLoop ds n =
      if ds.foldl (fun n c => n * 10 + (c - 48)) n ≤ 18446744073709551615 then
        .ok (ds.foldl (fun n c => n * 10 + (c - 48)) n)
      else .error .ErrRange := by
  induction ds generalizing n with
  | nil => simp [parseUintLoop, hn]
  | cons c cs ih =>
    have hc := hds c (List.mem_cons_self _ _)
    unfold isDigit Byte at hc
    have hge := le_foldl_decimal cs (n * 10 + (c - 48))
    rw [parseUintLoop, List.foldl_cons]
    rw [if_neg (by unfold Byte; omega)]
    have e1 : (2 : Nat) ^ 64 - 1 = 18446744073709551615 := by norm_num
    rw [e1]
    by_cases h1 : 18446744073709551615 / 10 + 1 ≤ n
    · rw [if_pos h1, if_neg (by omega)]
    · rw [if_neg h1]
      by_cases h2 : 18446744073709551615 < n * 10 + (c - 48)
      · rw [if_pos h2, if_neg (by omega)]
      · rw [if_neg h2]
        exact ih _ (fun x hx => hds x (List.mem_cons_of_mem _ hx)) (by omega)

/-- The function `ParseInt` in base 10 on a string of digits that is not empty: the value, or a
range error when the value does not fit a signed 64-bit integer. -/
theorem parseInt10_digits (ds : List Byte) (hne : ds ≠ []) (hds : ∀ c ∈ ds, isDigit c) :
    parseInt10 ds =
      if decimalValue ds < 9223372036854775808 then .ok (decimalValue ds : Int)
      else .error .ErrRange := by
  cases ds with
  | nil => exact absurd rfl hne
  | cons c cs =>
    have hc := hds c (List.mem_cons_self _ _)
    unfold isDigit Byte at hc
    have h43 : ¬ c = 43 := by unfold Byte; omega
    have h45 : ¬ c = 45 := by unfold Byte; omega
    unfold parseInt10
    simp only [h43, h45, or_self, if_false, reduceCtorEq, not_false_eq_true, true_and,
      false_and]
    rw [parseUintLoop_digits (c :: cs) 0 hds (by omega)]
    have e2 : (2 : Nat) ^ 63 = 9223372036854775808 := by norm_num
    rw [e2]
    unfold decimalValue
    generalize List.foldl (fun n c => n * 10 + (c - 48)) 0 (c :: cs) = v
    unfold Byte at *
    by_cases h1 : v ≤ 18446744073709551615
    · rw [if_pos h1]
      by_cases h2 : v < 9223372036854775808
      · rw [if_pos h2]
        simp only [if_neg (Nat.not_le.2 h2)]
      · rw [if_neg h2]
        simp only [if_pos (Nat.not_lt.1 h2)]
    · rw [if_neg h1, if_neg (by omega)]

/-- The function `Atoi` on a string of digits that is not empty. -/
theorem Atoi_digits (ds : List Byte) (hne : ds ≠ []) (hds : ∀ c ∈ ds, isDigit c) :
    Atoi ds =
      if decimalValue ds < 9223372036854775808 then .ok (decimalValue ds : Int)
      else .error (.NumError "Atoi" ds .ErrRange) := by
  unfold Atoi
  rw [parseInt10_digits ds hne hds]
  split_ifs <;> rfl

/-- The function `ParseInt` on a string of digits that is not empty. -/
theorem ParseInt_digits (ds : List Byte) (hne : ds ≠ []) (hds : ∀ c ∈ ds, isDigit c) :
    ParseInt ds =
      if decimalValue ds < 9223372036854775808 then .ok (decimalValue ds : Int)
      else .error (.NumError "ParseInt" ds .ErrRange) := by
  unfold ParseInt
  rw [parseInt10_digits ds hne hds]
  split_ifs <;> rfl

/-! ## Base64 fields -/

theorem decodeMap_isSome (c : Byte) (h : isBase64Char c) : ∃ v, base64.decodeMap c = some v := by
  unfold isBase64Char isUpper isLower isDigit Byte at h
  unfold base64.decodeMap
  split_ifs <;> first | exact ⟨_, rfl⟩ | (exfalso; unfold Byte at *; omega)

theorem decodeMap_pad : base64.decodeMap 61 = none := by decide

/-- The quanta of a field of `4 * k + 3` characters of the alphabet followed by `=` decode to
`3 * k + 2` bytes. -/
theorem decodeQuanta_padded (k : Nat) :
    ∀ (fuel : Nat) (l : List Byte), l.length = 4 * k + 3 → (∀ c ∈ l, isBase64Char c) →
      k < fuel →
      ∃ out, base64.decodeQuanta fuel (l ++ [61]) = .ok out ∧ out.length = 3 * k + 2 := by
  induction k with
  | zero =>
    intro fuel l hlen hl hf
    match l, hlen with
    | [a, b, c], _ =>
      obtain ⟨va, ha⟩ := decodeMap_isSome a (hl a (by simp))
      obtain ⟨vb, hb⟩ := decodeMap_isSome b (hl b (by simp))
      obtain ⟨vc, hc⟩ := decodeMap_isSome c (hl c (by simp))
      obtain ⟨f, rfl⟩ : ∃ f, fuel = f + 1 := ⟨fuel - 1, by omega⟩
      have e : base64.decodeQuanta (f + 1) [a, b, c, 61] =
          .ok [(va * 2 ^ 18 + vb * 2 ^ 12 + vc * 2 ^ 6) / 2 ^ 16 % 256,
            (va * 2 ^ 18 + vb * 2 ^ 12 + vc * 2 ^ 6) / 2 ^ 8 % 256] := by
        rw [base64.decodeQuanta]
        simp only [ha, hb, hc, decodeMap_pad, base64.padChar, and_self, if_true]
      exact ⟨_, e, rfl⟩
  | succ k ih =>
    intro fuel l hlen hl hf
    match l, hlen with
    | a :: b :: c :: d :: l', hlen' =>
      obtain ⟨va, ha⟩ := decodeMap_isSome a (hl a (by simp))
      obtain ⟨vb, hb⟩ := decodeMap_isSome b (hl b (by simp))
      obtain ⟨vc, hc⟩ := decodeMap_isSome c (hl c (by simp))
      obtain ⟨vd, hd⟩ := decodeMap_isSome d (hl d (by simp))
      obtain ⟨f, rfl⟩ : ∃ f, fuel = f + 1 := ⟨fuel - 1, by omega⟩
      obtain ⟨out, hout, holen⟩ := ih f l' (by simp at hlen'; omega)
        (fun x hx => hl x (by simp [hx])) (by omega)
      have e : base64.decodeQuanta (f + 1) (a :: b :: c :: d :: (l' ++ [61])) =
          .ok ((va * 2 ^ 18 + vb * 2 ^ 12 + vc * 2 ^ 6 + vd) / 2 ^ 16 % 256 ::
            (va * 2 ^ 18 + vb * 2 ^ 12 + vc * 2 ^ 6 + vd) / 2 ^ 8 % 256 ::
            (va * 2 ^ 18 + vb * 2 ^ 12 + vc * 2 ^ 6 + vd) % 256 :: out) := by
        rw [base64.decodeQuanta]
        simp only [ha, hb, hc, hd, hout]
      refine ⟨_, e, ?_⟩
      simp only [List.length_cons, holen]
      omega

/-- A key field, 43 characters of the alphabet followed by `=`, decodes without error to 32
bytes. -/
theorem DecodeString_key (chars : List Byte) (hlen : chars.length = 43)
    (h : ∀ c ∈ chars, isBase64Char c) :
    ∃ out, base64.DecodeString (chars ++ [61]) = .ok out ∧ out.length = 32 := by
  have hf : (chars ++ [61]).filter (fun c => decide (c ≠ 10 ∧ c ≠ 13)) = chars ++ [61] := by
    rw [List.filter_eq_self]
    intro c hc
    rcases List.mem_append.1 hc with h' | h'
    · have := h c h'
      unfold isBase64Char isUpper isLower isDigit Byte at this
      simp only [ne_eq, decide_eq_true_eq]
      unfold Byte
      omega
    · rw [List.mem_singleton.1 h']
      decide
  unfold base64.DecodeString
  simp only [hf]
  exact decodeQuanta_padded 10 _ chars (by omega) h (by simp [hlen])

/-! ## The function `isMD5Hash` -/

/-- The function `bytes.Trim` leaves nothing exactly when every byte is in the cut set. -/
theorem Trim_length_eq_zero_iff (s cutset : List Byte) :
    (Trim s cutset).length = 0 ↔ ∀ c ∈ s, c ∈ cutset := by
  unfold Trim
  rw [List.length_eq_zero, List.reverse_eq_nil_iff, List.dropWhile_eq_nil_iff]
  constructor
  · intro h
    have h0 : s.dropWhile (fun c => decide (c ∈ cutset)) = [] := by
      by_contra hne
      have hhead := List.head_dropWhile_not (fun c => decide (c ∈ cutset)) s hne
      have := h _ (List.mem_reverse.2 (List.head_mem hne))
      rw [this] at hhead
      exact absurd hhead (by simp)
    rw [List.dropWhile_eq_nil_iff] at h0
    intro c hc
    simpa using h0 c hc
  · intro h c hc
    have : s.dropWhile (fun c => decide (c ∈ cutset)) = [] := by
      rw [List.dropWhile_eq_nil_iff]
      intro x hx
      simpa using h x hx
    rw [this] at hc
    cases hc

theorem mem_hex_iff (c : Byte) : c ∈ bytesOf "0123456789abcdef" ↔ isLowerHex c := by
  have e : bytesOf "0123456789abcdef" =
      [48, 49, 50, 51, 52, 53, 54, 55, 56, 57, 97, 98, 99, 100, 101, 102] := by decide
  rw [e]
  unfold isLowerHex isDigit Byte
  simp only [List.mem_cons, List.mem_singleton, List.not_mem_nil, or_false]
  omega

/-- The function `isMD5Hash` accepts the strings of the MD5 grammar. -/
theorem isMD5Hash_iff (b : List Byte) : isMD5Hash b = true ↔ md5Grammar b := by
  unfold isMD5Hash md5Grammar HasPrefix
  simp only [Bool.and_eq_true, decide_eq_true_eq, List.isPrefixOf_iff_prefix,
    Trim_length_eq_zero_iff, mem_hex_iff]
  constructor
  · rintro ⟨⟨hp, hlen⟩, hall⟩
    refine ⟨hlen, ?_, hall⟩
    obtain ⟨t, rfl⟩ := hp
    exact List.take_left' rfl
  · rintro ⟨hlen, ht, hall⟩
    refine ⟨⟨?_, hlen⟩, hall⟩
    rw [← ht]
    exact List.take_prefix 3 b

/-! ## The first byte of a recognised input -/

/-- An input that `isSCRAMHash` accepts begins with `S`. -/
theorem head_of_isSCRAMHash (b : List Byte) (h : (isSCRAMHash b).1 = true) :
    b.head? = some 83 := by
  rw [isSCRAMHash_fst, scramHashRe_rmatch_iff] at h
  obtain ⟨iters, salt, sk, svk, hb, -⟩ := h
  rw [hb]
  rfl

/-- An input that `isBcryptHash` accepts with `strict` begins with `C` and has 12 bytes or
more. -/
theorem head_of_isBcryptHash_strict (b : List Byte) (h : isBcryptHash b true = true) :
    b.head? = some 67 ∧ 12 ≤ b.length := by
  have hp := ((isBcryptHash_true_iff b).1 h).2
  unfold HasPrefix at hp
  rw [List.isPrefixOf_iff_prefix] at hp
  obtain ⟨t, rfl⟩ := hp
  exact ⟨rfl, by simp [crdbBcryptPrefix, bytesOf]⟩

/-- An input that `isBcryptHash` accepts, with `strict` or without, begins with `C` or `$`. -/
theorem head_of_isBcryptHash (b : List Byte) (strict : Bool) (h : isBcryptHash b strict = true) :
    b.head? = some 67 ∨ b.head? = some 36 := by
  have hr : bcryptHashRe.rmatch b = true := by
    cases strict
    · rw [← isBcryptHash_false_eq]; exact h
    · exact ((isBcryptHash_true_iff b).1 h).1
  obtain ⟨pre, v, letter, d1, d2, run, rfl, hpre, -⟩ := (bcryptHashRe_rmatch_iff b).1 hr
  rcases hpre with h | h
  · subst h; right; rfl
  · subst h; left; rfl

/-- An input of the MD5 grammar begins with `m`. -/
theorem head_of_md5Grammar (b : List Byte) (h : md5Grammar b) : b.head? = some 109 := by
  obtain ⟨hlen, ht, -⟩ := h
  match b, hlen with
  | a :: b :: c :: rest, _ =>
    simp only [List.take_succ_cons, List.take_zero] at ht
    have : a = 109 := by
      have := congrArg List.head? ht
      simpa [bytesOf] using this
    rw [this]
    rfl

/-! ## The checks of `CheckPasswordHashValidity` -/

/-- The function `isSCRAMHash` on a string of the SCRAM grammar. -/
theorem isSCRAMHash_of_grammar (b iters salt storedKey serverKey : List Byte)
    (h : scramGrammar b iters salt storedKey serverKey) :
    isSCRAMHash b = (true, [b, iters, salt, storedKey, serverKey]) := by
  have hm : scramHashRe.rmatch b = true := (scramHashRe_rmatch_iff b).2 ⟨_, _, _, _, h⟩
  unfold isSCRAMHash
  rw [if_pos hm, scramSubmatches_of_grammar b iters salt storedKey serverKey h]

/-- The function `isSCRAMHash` on a string that the pattern does not match. -/
theorem isSCRAMHash_of_not (b : List Byte) (h : (isSCRAMHash b).1 = false) :
    isSCRAMHash b = (false, []) := by
  rw [isSCRAMHash_fst] at h
  unfold isSCRAMHash
  simp [h]

/-- The function `checkBcryptHash` on an input that is not a bcrypt hash with the prefix. -/
theorem checkBcryptHash_of_not (lib : Libs) (b : List Byte) (h : isBcryptHash b true = false) :
    checkBcryptHash lib b = some (false, [], none) := by
  unfold checkBcryptHash
  simp [h]

/-- The function `checkBcryptHash` on a bcrypt hash with the prefix: the prefix is removed, and
the error is the one of `bcrypt.Cost` on the rest. -/
theorem checkBcryptHash_of_strict (lib : Libs) (b : List Byte) (h : isBcryptHash b true = true) :
    checkBcryptHash lib b =
      some (true, b.drop 11,
        match lib.Cost (b.drop 11) with
        | .ok _ => none
        | .error err => some err) := by
  have hlen := (head_of_isBcryptHash_strict b h).2
  have h11 : crdbBcryptPrefix.length = 11 := rfl
  unfold checkBcryptHash
  simp only [h, Bool.not_true, Bool.false_eq_true, if_false, h11]
  rw [if_neg (by omega)]
  cases lib.Cost (b.drop 11) <;> rfl

/-- The function `checkSCRAMHash` on an input that is not a SCRAM hash. -/
theorem checkSCRAMHash_of_not (b : List Byte) (h : (isSCRAMHash b).1 = false) :
    checkSCRAMHash b = some (false, [], none) := by
  unfold checkSCRAMHash
  rw [isSCRAMHash_of_not b h]
  rfl

/-- The function `checkSCRAMHash` on a string of the SCRAM grammar, by the value of the
iteration digits. -/
theorem checkSCRAMHash_of_grammar (b iters salt storedKey serverKey : List Byte)
    (h : scramGrammar b iters salt storedKey serverKey) :
    checkSCRAMHash b =
      if decimalValue iters < 9223372036854775808 then
        if decimalValue iters < 4096 ∨ 240000000000 < decimalValue iters then
          some (true, [], some (.New
            "scram-sha-256 iteration count not in allowed range (4096,240000000000)"))
        else some (true, b, none)
      else
        some (true, [], some (.Wrap (.NumError "ParseInt" iters .ErrRange)
          "invalid scram-sha-256 iteration count")) := by
  have hp := ParseInt_digits iters h.2.1 h.2.2.1
  unfold checkSCRAMHash
  rw [isSCRAMHash_of_grammar b iters salt storedKey serverKey h]
  simp only [Bool.not_true, Bool.false_eq_true, if_false, List.getElem?_cons_succ,
    List.getElem?_cons_zero, hp]
  by_cases h1 : decimalValue iters < 9223372036854775808
  · simp only [if_pos h1]
    by_cases h2 : decimalValue iters < 4096 ∨ 240000000000 < decimalValue iters
    · rw [if_pos h2, if_pos (by unfold scramMinCost scramMaxCost; omega)]
    · rw [if_neg h2, if_neg (by unfold scramMinCost scramMaxCost; omega)]
  · simp only [if_neg h1]

/-- A string of the SCRAM grammar is not a bcrypt hash. -/
theorem isBcryptHash_of_scramGrammar (b iters salt storedKey serverKey : List Byte)
    (strict : Bool) (h : scramGrammar b iters salt storedKey serverKey) :
    isBcryptHash b strict = false := by
  cases hb : isBcryptHash b strict
  · rfl
  · exfalso
    have h1 := head_of_isBcryptHash b strict hb
    have h2 := head_of_isSCRAMHash b
      (by rw [isSCRAMHash_of_grammar b iters salt storedKey serverKey h])
    rw [h2] at h1
    rcases h1 with h1 | h1 <;> exact absurd h1 (by decide)

/-- The function `CheckPasswordHashValidity` on a string of the SCRAM grammar is decided by
`checkSCRAMHash`. -/
theorem CheckPasswordHashValidity_of_scramGrammar (lib : Libs)
    (b iters salt storedKey serverKey : List Byte)
    (h : scramGrammar b iters salt storedKey serverKey) :
    CheckPasswordHashValidity lib b =
      if decimalValue iters < 9223372036854775808 then
        if decimalValue iters < 4096 ∨ 240000000000 < decimalValue iters then
          some { isPreHashed := true, supportedScheme := true, issueNum := 0,
                 schemeName := "scram-sha-256", hashedPassword := [],
                 err := some (.New
                   "scram-sha-256 iteration count not in allowed range (4096,240000000000)") }
        else
          some { isPreHashed := true, supportedScheme := true, issueNum := 0,
                 schemeName := "scram-sha-256", hashedPassword := b, err := none }
      else
        some { isPreHashed := true, supportedScheme := true, issueNum := 0,
               schemeName := "scram-sha-256", hashedPassword := [],
               err := some (.Wrap (.NumError "ParseInt" iters .ErrRange)
                 "invalid scram-sha-256 iteration count") } := by
  unfold CheckPasswordHashValidity
  rw [checkBcryptHash_of_not lib b
    (isBcryptHash_of_scramGrammar b iters salt storedKey serverKey true h),
    checkSCRAMHash_of_grammar b iters salt storedKey serverKey h]
  split_ifs <;> rfl

/-! ## The sample inputs -/

/-- The sample SCRAM hashes are of the SCRAM grammar, whatever digits and salt field of the
right shape they are built with. -/
theorem sample.scramWith_grammar (iters chars pad : List Byte) (hine : iters ≠ [])
    (hiters : ∀ c ∈ iters, isDigit c) (hcne : chars ≠ [])
    (hchars : ∀ c ∈ chars, isBase64Char c) (hpad : ∀ c ∈ pad, c = 61) :
    scramGrammar (sample.scramWith iters (chars ++ pad)) iters (chars ++ pad)
      sample.storedKeyField sample.serverKeyField :=
  ⟨rfl, hine, hiters, ⟨chars, pad, rfl, hcne, hchars, hpad⟩,
    ⟨sample.storedKeyField.take 43, by decide, by decide,
      fun c hc => (mem_scramAlphabet_iff c).1 (by revert c; decide)⟩,
    ⟨sample.serverKeyField.take 43, by decide, by decide,
      fun c hc => (mem_scramAlphabet_iff c).1 (by revert c; decide)⟩⟩

/-- The sample SCRAM hash with the given digits and the sample salt field is of the SCRAM
grammar. -/
theorem sample.scramWith_saltField_grammar (iters : List Byte) (hine : iters ≠ [])
    (hiters : ∀ c ∈ iters, c ∈ re.digit) :
    scramGrammar (sample.scramWith iters sample.saltField) iters sample.saltField
      sample.storedKeyField sample.serverKeyField :=
  sample.scramWith_grammar iters (sample.saltField.take 22) [61, 61] hine
    (fun c hc => (mem_digit_iff c).1 (hiters c hc)) (by decide)
    (fun c hc => (mem_scramAlphabet_iff c).1 (by revert c; decide)) (by decide)

/-- An input that `isSCRAMHash` accepts with the given parts is of the SCRAM grammar with these
parts as fields. -/
theorem scramGrammar_of_isSCRAMHash (b iters salt storedKey serverKey : List Byte)
    (hm : (isSCRAMHash b).1 = true)
    (hparts : (isSCRAMHash b).2 = [b, iters, salt, storedKey, serverKey]) :
    scramGrammar b iters salt storedKey serverKey := by
  obtain ⟨i, s, k1, k2, hg⟩ := (scramHashRe_rmatch_iff b).1 (by rw [← isSCRAMHash_fst]; exact hm)
  rw [isSCRAMHash_of_grammar b i s k1 k2 hg] at hparts
  simp only [List.cons.injEq, true_and, and_true] at hparts
  obtain ⟨rfl, rfl, rfl, rfl⟩ := hparts
  exact hg

/-! ## The claims on `CheckPasswordHashValidity` -/

/-- The function `CheckPasswordHashValidity` on a bcrypt hash with the prefix is decided by
`checkBcryptHash`. -/
theorem CheckPasswordHashValidity_of_strict (lib : Libs) (b : List Byte)
    (h : isBcryptHash b true = true) :
    CheckPasswordHashValidity lib b =
      some { isPreHashed := true, supportedScheme := true, issueNum := 0,
             schemeName := "crdb-bcrypt", hashedPassword := b.drop 11,
             err := match lib.Cost (b.drop 11) with
               | .ok _ => none
               | .error err => some err } := by
  unfold CheckPasswordHashValidity
  rw [checkBcryptHash_of_strict lib b h]

/-- Against C11: `CRDB-BCRYPT$2a$99$` followed by 53 characters of the alphabet matches the bcrypt
grammar with `strict`, its cost field `99` parses as the number 99, and with the checks of
`bcrypt.Cost` the function `CheckPasswordHashValidity` returns the error `InvalidCostError(99)`,
not a nil error. -/
theorem CheckPasswordHashValidity_cost_99 :
    isBcryptHash (crdbBcryptPrefix ++ sample.cost99Hash) true = true ∧
    Atoi (bytesOf "99") = .ok 99 ∧
    CheckPasswordHashValidity sample.libs (crdbBcryptPrefix ++ sample.cost99Hash) =
      some { isPreHashed := true, supportedScheme := true, issueNum := 0,
             schemeName := "crdb-bcrypt", hashedPassword := sample.cost99Hash,
             err := some (.InvalidCostError 99) } := by
  have he : bcryptEncoded sample.cost99Hash = true := by decide
  have hs := isBcryptHash_prefixed_of_encoded sample.cost99Hash true he
  have hd : (crdbBcryptPrefix ++ sample.cost99Hash).drop 11 = sample.cost99Hash :=
    List.drop_left' rfl
  have hc : sample.libs.Cost sample.cost99Hash = .error (.InvalidCostError 99) := by rfl
  refine ⟨hs, by rfl, ?_⟩
  rw [CheckPasswordHashValidity_of_strict sample.libs _ hs, hd, hc]

/-- C11, amended: for every input that matches the bcrypt grammar with `strict` (the prefix
`CRDB-BCRYPT` is there), `CheckPasswordHashValidity` returns `isPreHashed = true`,
`supportedScheme = true`, `schemeName = "crdb-bcrypt"` and as `hashedPassword` the input
without the 11 bytes of the prefix; the error is nil if and only if `bcrypt.Cost` accepts these
bytes, and is the error of `bcrypt.Cost` otherwise. -/
theorem CheckPasswordHashValidity_bcrypt (lib : Libs) (b : List Byte)
    (h : isBcryptHash b true = true) :
    b = crdbBcryptPrefix ++ b.drop 11 ∧
    ∃ err, CheckPasswordHashValidity lib b =
        some { isPreHashed := true, supportedScheme := true, issueNum := 0,
               schemeName := "crdb-bcrypt", hashedPassword := b.drop 11, err := err } ∧
      (err = none ↔ ∃ cost, lib.Cost (b.drop 11) = .ok cost) ∧
      (∀ e, lib.Cost (b.drop 11) = .error e → err = some e) := by
  constructor
  · have hp := ((isBcryptHash_true_iff b).1 h).2
    unfold HasPrefix at hp
    rw [List.isPrefixOf_iff_prefix] at hp
    obtain ⟨t, rfl⟩ := hp
    have e : (crdbBcryptPrefix ++ [36] ++ t) = crdbBcryptPrefix ++ ([36] ++ t) := by simp
    have hd : (crdbBcryptPrefix ++ ([36] ++ t)).drop 11 = [36] ++ t := List.drop_left' rfl
    rw [e, hd]
  · rw [CheckPasswordHashValidity_of_strict lib b h]
    cases hc : lib.Cost (b.drop 11) with
    | ok cost => exact ⟨none, rfl, by simp, by simp⟩
    | error e => exact ⟨some e, rfl, by simp, by simp⟩

/-- The sample stored hash with the prefix in front is accepted without error. -/
theorem CheckPasswordHashValidity_bcrypt_witness :
    crdbBcryptPrefix ++ sample.storedHash =
      crdbBcryptPrefix ++ (crdbBcryptPrefix ++ sample.storedHash).drop 11 ∧
    ∃ err, CheckPasswordHashValidity sample.libs (crdbBcryptPrefix ++ sample.storedHash) =
        some { isPreHashed := true, supportedScheme := true, issueNum := 0,
               schemeName := "crdb-bcrypt",
               hashedPassword := (crdbBcryptPrefix ++ sample.storedHash).drop 11, err := err } ∧
      (err = none ↔
        ∃ cost, sample.libs.Cost ((crdbBcryptPrefix ++ sample.storedHash).drop 11) = .ok cost) ∧
      (∀ e, sample.libs.Cost ((crdbBcryptPrefix ++ sample.storedHash).drop 11) = .error e →
        err = some e) :=
  CheckPasswordHashValidity_bcrypt sample.libs (crdbBcryptPrefix ++ sample.storedHash)
    (isBcryptHash_prefixed_of_encoded _ true sample.storedHash_encoded)

/-- The function `isSCRAMHash` on the sample SCRAM hash with the given digits. -/
theorem sample.isSCRAMHash_scramWith (iters : List Byte) (hine : iters ≠ [])
    (hiters : ∀ c ∈ iters, c ∈ re.digit) :
    isSCRAMHash (sample.scramWith iters sample.saltField) =
      (true, [sample.scramWith iters sample.saltField, iters, sample.saltField,
        sample.storedKeyField, sample.serverKeyField]) :=
  isSCRAMHash_of_grammar _ _ _ _ _ (sample.scramWith_saltField_grammar iters hine hiters)

/-- An input that does not start with `C` is not a bcrypt hash with the prefix. -/
theorem isBcryptHash_strict_of_head (b : List Byte) (h : b.head? ≠ some 67) :
    isBcryptHash b true = false := by
  cases hb : isBcryptHash b true
  · rfl
  · exact absurd (head_of_isBcryptHash_strict b hb).1 h

/-- An input that does not start with `S` is not a SCRAM hash. -/
theorem isSCRAMHash_of_head (b : List Byte) (h : b.head? ≠ some 83) :
    (isSCRAMHash b).1 = false := by
  cases hb : (isSCRAMHash b).1
  · rfl
  · exact absurd (head_of_isSCRAMHash b hb) h

/-- An input that does not start with `m` is not an MD5 hash. -/
theorem isMD5Hash_of_head (b : List Byte) (h : b.head? ≠ some 109) : isMD5Hash b = false := by
  cases hb : isMD5Hash b
  · rfl
  · exact absurd (head_of_md5Grammar b ((isMD5Hash_iff b).1 hb)) h

/-- The function `CheckPasswordHashValidity` on an input that none of the three checks
accepts. -/
theorem CheckPasswordHashValidity_of_none (lib : Libs) (b : List Byte)
    (h1 : isBcryptHash b true = false) (h2 : (isSCRAMHash b).1 = false)
    (h3 : isMD5Hash b = false) :
    CheckPasswordHashValidity lib b =
      some { isPreHashed := false, supportedScheme := false, issueNum := 0,
             schemeName := "", hashedPassword := b, err := none } := by
  unfold CheckPasswordHashValidity
  rw [checkBcryptHash_of_not lib b h1, checkSCRAMHash_of_not b h2]
  simp only [h3, Bool.false_eq_true, if_false]

/-- C12: for every input that `isSCRAMHash` accepts, with `iters` the submatch of the iteration
digits, `CheckPasswordHashValidity` returns a nil error if and only if the decimal value of
`iters` lies in the closed range [4096, 240000000000], and then it returns
(true, true, 0, "scram-sha-256", the input unchanged); with 4096 and with 240000000000 as
digits the sample hash is accepted, with 4095 and with 240000000001 it is rejected with the
range error. -/
theorem CheckPasswordHashValidity_scram_range (lib : Libs)
    (b iters salt storedKey serverKey : List Byte) (hm : (isSCRAMHash b).1 = true)
    (hparts : (isSCRAMHash b).2 = [b, iters, salt, storedKey, serverKey]) :
    (∃ v, CheckPasswordHashValidity lib b = some v ∧
      (v.err = none ↔ 4096 ≤ decimalValue iters ∧ decimalValue iters ≤ 240000000000) ∧
      (v.err = none →
        v = { isPreHashed := true, supportedScheme := true, issueNum := 0,
              schemeName := "scram-sha-256", hashedPassword := b, err := none })) ∧
    CheckPasswordHashValidity lib (sample.scramWith (bytesOf "4096") sample.saltField) =
      some { isPreHashed := true, supportedScheme := true, issueNum := 0,
             schemeName := "scram-sha-256",
             hashedPassword := sample.scramWith (bytesOf "4096") sample.saltField,
             err := none } ∧
    CheckPasswordHashValidity lib (sample.scramWith (bytesOf "240000000000") sample.saltField) =
      some { isPreHashed := true, supportedScheme := true, issueNum := 0,
             schemeName := "scram-sha-256",
             hashedPassword := sample.scramWith (bytesOf "240000000000") sample.saltField,
             err := none } ∧
    CheckPasswordHashValidity lib (sample.scramWith (bytesOf "4095") sample.saltField) =
      some { isPreHashed := true, supportedScheme := true, issueNum := 0,
             schemeName := "scram-sha-256", hashedPassword := [],
             err := some (.New
               "scram-sha-256 iteration count not in allowed range (4096,240000000000)") } ∧
    CheckPasswordHashValidity lib (sample.scramWith (bytesOf "240000000001") sample.saltField) =
      some { isPreHashed := true, supportedScheme := true, issueNum := 0,
             schemeName := "scram-sha-256", hashedPassword := [],
             err := some (.New
               "scram-sha-256 iteration count not in allowed range (4096,240000000000)") } := by
  have hg := scramGrammar_of_isSCRAMHash b iters salt storedKey serverKey hm hparts
  refine ⟨?_, ?_, ?_, ?_, ?_⟩
  · rw [CheckPasswordHashValidity_of_scramGrammar lib b iters salt storedKey serverKey hg]
    by_cases h1 : decimalValue iters < 9223372036854775808
    · by_cases h2 : decimalValue iters < 4096 ∨ 240000000000 < decimalValue iters
      · rw [if_pos h1, if_pos h2]
        refine ⟨_, rfl, ?_, ?_⟩
        · simp only [reduceCtorEq, false_iff]; omega
        · intro h; simp only [reduceCtorEq] at h
      · rw [if_pos h1, if_neg h2]
        refine ⟨_, rfl, ?_, fun _ => rfl⟩
        simp only [true_iff]; omega
    · rw [if_neg h1]
      refine ⟨_, rfl, ?_, ?_⟩
      · simp only [reduceCtorEq, false_iff]; omega
      · intro h; simp only [reduceCtorEq] at h
  · rw [CheckPasswordHashValidity_of_scramGrammar lib _ _ _ _ _
      (sample.scramWith_saltField_grammar (bytesOf "4096") (by decide) (by decide))]
    rfl
  · rw [CheckPasswordHashValidity_of_scramGrammar lib _ _ _ _ _
      (sample.scramWith_saltField_grammar (bytesOf "240000000000") (by decide) (by decide))]
    rfl
  · rw [CheckPasswordHashValidity_of_scramGrammar lib _ _ _ _ _
      (sample.scramWith_saltField_grammar (bytesOf "4095") (by decide) (by decide))]
    rfl
  · rw [CheckPasswordHashValidity_of_scramGrammar lib _ _ _ _ _
      (sample.scramWith_saltField_grammar (bytesOf "240000000001") (by decide) (by decide))]
    rfl

/-- The sample SCRAM hash of 4096 iterations is accepted: 4096 is in the range. -/
theorem CheckPasswordHashValidity_scram_range_witness :
    ∃ v, CheckPasswordHashValidity sample.libs sample.scram4096 = some v ∧
      (v.err = none ↔
        4096 ≤ decimalValue (bytesOf "4096") ∧ decimalValue (bytesOf "4096") ≤ 240000000000) ∧
      (v.err = none →
        v = { isPreHashed := true, supportedScheme := true, issueNum := 0,
              schemeName := "scram-sha-256", hashedPassword := sample.scram4096,
              err := none }) :=
  (CheckPasswordHashValidity_scram_range sample.libs sample.scram4096 (bytesOf "4096")
    sample.saltField sample.storedKeyField sample.serverKeyField
    (congrArg Prod.fst (sample.isSCRAMHash_scramWith (bytesOf "4096") (by decide) (by decide)))
    (congrArg Prod.snd
      (sample.isSCRAMHash_scramWith (bytesOf "4096") (by decide) (by decide)))).1

/-- C13: for every input that `isSCRAMHash` accepts, with `iters` the submatch of the iteration
digits, if the decimal value of `iters` is below 4096, above 240000000000 or not below 2^63
(too large for a 64-bit integer), `CheckPasswordHashValidity` returns `isPreHashed = true`,
`supportedScheme = true`, `schemeName = "scram-sha-256"`, no bytes as `hashedPassword` and an
error that is not nil. -/
theorem CheckPasswordHashValidity_scram_rejected (lib : Libs)
    (b iters salt storedKey serverKey : List Byte) (hm : (isSCRAMHash b).1 = true)
    (hparts : (isSCRAMHash b).2 = [b, iters, salt, storedKey, serverKey])
    (hbad : decimalValue iters < 4096 ∨ 240000000000 < decimalValue iters ∨
      9223372036854775808 ≤ decimalValue iters) :
    ∃ e, CheckPasswordHashValidity lib b =
      some { isPreHashed := true, supportedScheme := true, issueNum := 0,
             schemeName := "scram-sha-256", hashedPassword := [], err := some e } := by
  have hg := scramGrammar_of_isSCRAMHash b iters salt storedKey serverKey hm hparts
  rw [CheckPasswordHashValidity_of_scramGrammar lib b iters salt storedKey serverKey hg]
  by_cases h1 : decimalValue iters < 9223372036854775808
  · rw [if_pos h1, if_pos (by omega)]
    exact ⟨_, rfl⟩
  · rw [if_neg h1]
    exact ⟨_, rfl⟩

/-- The sample SCRAM hash with 4095 iterations is rejected as a SCRAM hash. -/
theorem CheckPasswordHashValidity_scram_rejected_witness :
    ∃ e, CheckPasswordHashValidity sample.libs
        (sample.scramWith (bytesOf "4095") sample.saltField) =
      some { isPreHashed := true, supportedScheme := true, issueNum := 0,
             schemeName := "scram-sha-256", hashedPassword := [], err := some e } :=
  CheckPasswordHashValidity_scram_rejected sample.libs
    (sample.scramWith (bytesOf "4095") sample.saltField) (bytesOf "4095")
    sample.saltField sample.storedKeyField sample.serverKeyField
    (congrArg Prod.fst (sample.isSCRAMHash_scramWith (bytesOf "4095") (by decide) (by decide)))
    (congrArg Prod.snd (sample.isSCRAMHash_scramWith (bytesOf "4095") (by decide) (by decide)))
    (Or.inl (by decide))

/-- C14: for every input `b`, `CheckPasswordHashValidity(b)` returns (isPreHashed = true,
supportedScheme = false, issueNum = 73337, schemeName = "md5", hashedPassword = b, nil error)
if and only if `b` is 35 bytes long, begins with `md5`, and its other 32 bytes are all
characters of `[0-9a-f]`. -/
theorem CheckPasswordHashValidity_md5_iff (lib : Libs) (b : List Byte) :
    CheckPasswordHashValidity lib b =
      some { isPreHashed := true, supportedScheme := false, issueNum := 73337,
             schemeName := "md5", hashedPassword := b, err := none } ↔ md5Grammar b := by
  constructor
  · intro h
    cases h1 : isBcryptHash b true with
    | true =>
      unfold CheckPasswordHashValidity at h
      rw [checkBcryptHash_of_strict lib b h1] at h
      simp at h
    | false =>
      cases h2 : (isSCRAMHash b).1 with
      | true =>
        obtain ⟨iters, salt, sk, svk, hg⟩ :=
          (scramHashRe_rmatch_iff b).1 (by rw [← isSCRAMHash_fst]; exact h2)
        rw [CheckPasswordHashValidity_of_scramGrammar lib b iters salt sk svk hg] at h
        split_ifs at h <;> simp at h
      | false =>
        cases h3 : isMD5Hash b with
        | true => exact (isMD5Hash_iff b).1 h3
        | false =>
          rw [CheckPasswordHashValidity_of_none lib b h1 h2 h3] at h
          simp at h
  · intro h
    have hh := head_of_md5Grammar b h
    have h1 := isBcryptHash_strict_of_head b (by rw [hh]; decide)
    have h2 := isSCRAMHash_of_head b (by rw [hh]; decide)
    have h3 := (isMD5Hash_iff b).2 h
    unfold CheckPasswordHashValidity
    rw [checkBcryptHash_of_not lib b h1, checkSCRAMHash_of_not b h2]
    simp only [h3, if_true]

/-- C15: for every input `b` that is refused by `isBcryptHash` with `strict`, by `isSCRAMHash`
and by `isMD5Hash`, `CheckPasswordHashValidity(b)` returns (isPreHashed = false,
supportedScheme = false, issueNum = 0, schemeName = "", hashedPassword = b, nil error); a bcrypt
hash without the prefix `CRDB-BCRYPT` (it starts with `$`) is such an input. -/
theorem CheckPasswordHashValidity_unrecognized (lib : Libs) (b : List Byte) :
    (isBcryptHash b true = false → (isSCRAMHash b).1 = false → isMD5Hash b = false →
      CheckPasswordHashValidity lib b =
        some { isPreHashed := false, supportedScheme := false, issueNum := 0,
               schemeName := "", hashedPassword := b, err := none }) ∧
    (isBcryptHash b false = true → b.head? = some 36 →
      CheckPasswordHashValidity lib b =
        some { isPreHashed := false, supportedScheme := false, issueNum := 0,
               schemeName := "", hashedPassword := b, err := none }) := by
  refine ⟨CheckPasswordHashValidity_of_none lib b, fun _ hh => ?_⟩
  exact CheckPasswordHashValidity_of_none lib b
    (isBcryptHash_strict_of_head b (by rw [hh]; decide))
    (isSCRAMHash_of_head b (by rw [hh]; decide))
    (isMD5Hash_of_head b (by rw [hh]; decide))

/-- The sample bcrypt hash without the prefix is reported as not hashed. -/
theorem CheckPasswordHashValidity_unrecognized_witness :
    isBcryptHash sample.storedHash false = true ∧
    CheckPasswordHashValidity sample.libs sample.storedHash =
      some { isPreHashed := false, supportedScheme := false, issueNum := 0,
             schemeName := "", hashedPassword := sample.storedHash, err := none } :=
  ⟨isBcryptHash_of_encoded sample.storedHash sample.storedHash_encoded,
    (CheckPasswordHashValidity_unrecognized sample.libs sample.storedHash).1
      (isBcryptHash_strict_of_head _ (by decide)) (isSCRAMHash_of_head _ (by decide))
      (isMD5Hash_of_head _ (by decide))⟩

/-! ## The claim on `LoadPasswordHash` and SCRAM hashes -/

/-- C20: for every input `b` that `isSCRAMHash` accepts, with `iters`, `salt`, `storedKey` and
`serverKey` the submatches: `LoadPasswordHash(b)` returns the invalid hash that carries `b`
when the decimal value of `iters` does not fit a 64-bit integer, and when the salt field is
refused by the base64 decoder; otherwise it returns the SCRAM hash that keeps `b`, whose
iterations are the decimal value of `iters`, and whose salt, storedKey and serverKey are the
base64 decodings of the fields (those of the two keys always exist). -/
theorem LoadPasswordHash_scram (b iters salt storedKey serverKey : List Byte)
    (hm : (isSCRAMHash b).1 = true)
    (hparts : (isSCRAMHash b).2 = [b, iters, salt, storedKey, serverKey]) :
    (9223372036854775808 ≤ decimalValue iters →
      LoadPasswordHash b = some (.invalidHash b)) ∧
    (∀ e, base64.DecodeString salt = .error e → LoadPasswordHash b = some (.invalidHash b)) ∧
    (decimalValue iters < 9223372036854775808 → ∀ s, base64.DecodeString salt = .ok s →
      ∃ k1 k2, base64.DecodeString storedKey = .ok k1 ∧
        base64.DecodeString serverKey = .ok k2 ∧
        LoadPasswordHash b = some (.ScramHash b
          { KeyFactors := { Salt := s, Iters := (decimalValue iters : Int) },
            StoredKey := k1, ServerKey := k2 })) := by
  have hg := scramGrammar_of_isSCRAMHash b iters salt storedKey serverKey hm hparts
  have hne : ¬ b.length = 0 := by
    intro h0
    have hh := head_of_isSCRAMHash b hm
    rw [List.length_eq_zero.1 h0] at hh
    exact absurd hh (by decide)
  have hb := isBcryptHash_of_scramGrammar b iters salt storedKey serverKey false hg
  have hA := Atoi_digits iters hg.2.1 hg.2.2.1
  obtain ⟨c1, hsk, hl1, hc1⟩ := hg.2.2.2.2.1
  obtain ⟨c2, hsvk, hl2, hc2⟩ := hg.2.2.2.2.2
  obtain ⟨k1, hk1, -⟩ := DecodeString_key c1 hl1 hc1
  obtain ⟨k2, hk2, -⟩ := DecodeString_key c2 hl2 hc2
  rw [← hsk] at hk1
  rw [← hsvk] at hk2
  have hL : LoadPasswordHash b =
      makeSCRAMHash b [b, iters, salt, storedKey, serverKey] (.invalidHash b) := by
    unfold LoadPasswordHash
    simp only [hne, hb, hm, hparts, if_false, if_true, Bool.false_eq_true]
  rw [hL]
  unfold makeSCRAMHash
  simp only [List.getElem?_cons_succ, List.getElem?_cons_zero, hA, hk1, hk2]
  refine ⟨fun h => ?_, fun e he => ?_, fun h s hs => ⟨k1, k2, rfl, rfl, ?_⟩⟩
  · rw [if_neg (by omega)]
  · rw [he]
    split_ifs <;> rfl
  · rw [if_pos h, hs]

/-- The sample SCRAM hash of 4096 iterations is loaded as a SCRAM hash. -/
theorem LoadPasswordHash_scram_witness :
    (9223372036854775808 ≤ decimalValue (bytesOf "4096") →
      LoadPasswordHash sample.scram4096 = some (.invalidHash sample.scram4096)) ∧
    (∀ e, base64.DecodeString sample.saltField = .error e →
      LoadPasswordHash sample.scram4096 = some (.invalidHash sample.scram4096)) ∧
    (decimalValue (bytesOf "4096") < 9223372036854775808 →
      ∀ s, base64.DecodeString sample.saltField = .ok s →
      ∃ k1 k2, base64.DecodeString sample.storedKeyField = .ok k1 ∧
        base64.DecodeString sample.serverKeyField = .ok k2 ∧
        LoadPasswordHash sample.scram4096 = some (.ScramHash sample.scram4096
          { KeyFactors := { Salt := s, Iters := (decimalValue (bytesOf "4096") : Int) },
            StoredKey := k1, ServerKey := k2 })) :=
  LoadPasswordHash_scram sample.scram4096 (bytesOf "4096") sample.saltField
    sample.storedKeyField sample.serverKeyField
    (congrArg Prod.fst (sample.isSCRAMHash_scramWith (bytesOf "4096") (by decide) (by decide)))
    (congrArg Prod.snd (sample.isSCRAMHash_scramWith (bytesOf "4096") (by decide) (by decide)))

/-! ## What `LoadPasswordHash` makes of a SCRAM hash -/

/-- The quanta of a string that is not empty do not decode to the empty string. -/
theorem decodeQuanta_ne_nil (fuel : Nat) (l out : List Byte) (hl : l ≠ [])
    (h : base64.decodeQuanta fuel l = .ok out) : out ≠ [] := by
  cases fuel with
  | zero => simp [base64.decodeQuanta] at h
  | succ f =>
    match l, hl with
    | [a], _ => simp [base64.decodeQuanta] at h
    | [a, b], _ => simp [base64.decodeQuanta] at h
    | [a, b, c], _ => simp [base64.decodeQuanta] at h
    | a :: b :: c :: d :: rest, _ =>
      rw [base64.decodeQuanta] at h
      split at h
      · split at h
        · split at h
          · cases h; simp
          · cases h
        · split at h
          · cases h; simp
          · cases h
        · split at h
          · cases h; simp
          · cases h
      · cases h

/-- A salt field of the SCRAM grammar does not decode to the empty string. -/
theorem DecodeString_salt_ne_nil (chars pad s : List Byte) (hne : chars ≠ [])
    (hchars : ∀ c ∈ chars, isBase64Char c)
    (h : base64.DecodeString (chars ++ pad) = .ok s) : s ≠ [] := by
  unfold base64.DecodeString at h
  refine decodeQuanta_ne_nil _ _ s ?_ h
  match chars, hne with
  | c :: cs, _ =>
    have hc := hchars c (by simp)
    have : (decide (c ≠ 10 ∧ c ≠ 13)) = true := by
      unfold isBase64Char isUpper isLower isDigit Byte at hc
      simp only [ne_eq, decide_eq_true_eq]
      unfold Byte
      omega
    simp only [List.cons_append, List.filter_cons, this, if_true]
    simp

/-- The function `LoadPasswordHash` on a string of the SCRAM grammar: the two key fields decode
to 32 bytes each, and the result is decided by the iteration digits and the salt field. -/
theorem LoadPasswordHash_of_scramGrammar (b iters salt storedKey serverKey : List Byte)
    (hg : scramGrammar b iters salt storedKey serverKey) :
    ∃ k1 k2, base64.DecodeString storedKey = .ok k1 ∧ k1.length = 32 ∧
      base64.DecodeString serverKey = .ok k2 ∧ k2.length = 32 ∧
      (9223372036854775808 ≤ decimalValue iters →
        LoadPasswordHash b = some (.invalidHash b)) ∧
      (∀ e, base64.DecodeString salt = .error e →
        LoadPasswordHash b = some (.invalidHash b)) ∧
      (decimalValue iters < 9223372036854775808 → ∀ s, base64.DecodeString salt = .ok s →
        LoadPasswordHash b = some (.ScramHash b
          { KeyFactors := { Salt := s, Iters := (decimalValue iters : Int) },
            StoredKey := k1, ServerKey := k2 })) := by
  have hI := isSCRAMHash_of_grammar b iters salt storedKey serverKey hg
  have hm : (isSCRAMHash b).1 = true := by rw [hI]
  have hparts : (isSCRAMHash b).2 = [b, iters, salt, storedKey, serverKey] := by rw [hI]
  have hne : ¬ b.length = 0 := by
    intro h0
    have hh := head_of_isSCRAMHash b hm
    rw [List.length_eq_zero.1 h0] at hh
    exact absurd hh (by decide)
  have hb := isBcryptHash_of_scramGrammar b iters salt storedKey serverKey false hg
  have hA := Atoi_digits iters hg.2.1 hg.2.2.1
  obtain ⟨c1, hsk, hl1, hc1⟩ := hg.2.2.2.2.1
  obtain ⟨c2, hsvk, hl2, hc2⟩ := hg.2.2.2.2.2
  obtain ⟨k1, hk1, hk1len⟩ := DecodeString_key c1 hl1 hc1
  obtain ⟨k2, hk2, hk2len⟩ := DecodeString_key c2 hl2 hc2
  rw [← hsk] at hk1
  rw [← hsvk] at hk2
  have hL : LoadPasswordHash b =
      makeSCRAMHash b [b, iters, salt, storedKey, serverKey] (.invalidHash b) := by
    unfold LoadPasswordHash
    simp only [hne, hb, hm, hparts, if_false, if_true, Bool.false_eq_true]
  refine ⟨k1, k2, hk1, hk1len, hk2, hk2len, ?_⟩
  rw [hL]
  unfold makeSCRAMHash
  simp only [List.getElem?_cons_succ, List.getElem?_cons_zero, hA, hk1, hk2]
  refine ⟨fun h => ?_, fun e he => ?_, fun h s hs => ?_⟩
  · rw [if_neg (by omega)]
  · rw [he]
    split_ifs <;> rfl
  · rw [if_pos h, hs]

/-- The sample SCRAM hash with the digits `iters` loads as a SCRAM hash with the decoded sample
fields, when the value of the digits fits a 64-bit integer. -/
theorem sample.LoadPasswordHash_scramWith (iters : List Byte) (hine : iters ≠ [])
    (hiters : ∀ c ∈ iters, c ∈ re.digit) (hfit : decimalValue iters < 9223372036854775808) :
    LoadPasswordHash (sample.scramWith iters sample.saltField) =
      some (.ScramHash (sample.scramWith iters sample.saltField)
        (sample.decoded (decimalValue iters))) := by
  obtain ⟨k1, k2, hk1, -, hk2, -, -, -, h⟩ := LoadPasswordHash_of_scramGrammar _ _ _ _ _
    (sample.scramWith_saltField_grammar iters hine hiters)
  have e1 : base64.DecodeString sample.storedKeyField = .ok sample.storedKey := by rfl
  have e2 : base64.DecodeString sample.serverKeyField = .ok sample.serverKey := by rfl
  have es : base64.DecodeString sample.saltField = .ok sample.salt := by rfl
  rw [e1] at hk1
  rw [e2] at hk2
  cases hk1
  cases hk2
  exact h hfit _ es

/-- C21: for every input on which `LoadPasswordHash` returns a SCRAM hash, the decoded storedKey
and the decoded serverKey have 32 bytes each and the decoded salt has at least one byte. -/
theorem LoadPasswordHash_scram_lengths (b raw : List Byte) (decoded : StoredCredentials)
    (h : LoadPasswordHash b = some (.ScramHash raw decoded)) :
    decoded.StoredKey.length = 32 ∧ decoded.ServerKey.length = 32 ∧
      1 ≤ decoded.KeyFactors.Salt.length := by
  have hm : (isSCRAMHash b).1 = true := by
    cases hs : (isSCRAMHash b).1
    · exfalso
      unfold LoadPasswordHash at h
      simp only [hs, Bool.false_eq_true, if_false] at h
      split_ifs at h <;> cases h
    · rfl
  obtain ⟨iters, salt, sk, svk, hg⟩ :=
    (scramHashRe_rmatch_iff b).1 (by rw [← isSCRAMHash_fst]; exact hm)
  obtain ⟨k1, k2, -, hk1, -, hk2, hbig, hbad, hok⟩ :=
    LoadPasswordHash_of_scramGrammar b iters salt sk svk hg
  obtain ⟨chars, pad, rfl, hcne, hchars, -⟩ := hg.2.2.2.1
  by_cases hfit : decimalValue iters < 9223372036854775808
  · cases hs : base64.DecodeString (chars ++ pad) with
    | error e =>
      rw [hbad e hs] at h
      cases h
    | ok s =>
      rw [hok hfit s hs] at h
      cases h
      have := DecodeString_salt_ne_nil chars pad s hcne hchars hs
      exact ⟨hk1, hk2, List.length_pos.2 this⟩
  · rw [hbig (by omega)] at h
    cases h

/-- The sample SCRAM hash of 4096 iterations: a salt of 16 bytes and two keys of 32 bytes. -/
theorem LoadPasswordHash_scram_lengths_witness :
    LoadPasswordHash sample.scram4096 =
      some (.ScramHash sample.scram4096 (sample.decoded 4096)) ∧
    (sample.decoded 4096).StoredKey.length = 32 ∧ (sample.decoded 4096).ServerKey.length = 32 ∧
      1 ≤ (sample.decoded 4096).KeyFactors.Salt.length :=
  ⟨sample.LoadPasswordHash_scramWith (bytesOf "4096") (by decide) (by decide) (by decide),
    LoadPasswordHash_scram_lengths sample.scram4096 sample.scram4096 (sample.decoded 4096)
      (sample.LoadPasswordHash_scramWith (bytesOf "4096") (by decide) (by decide) (by decide))⟩

/-- An input that starts neither with `C` nor with `$` is not a bcrypt hash. -/
theorem isBcryptHash_of_head (b : List Byte) (strict : Bool) (h1 : b.head? ≠ some 67)
    (h2 : b.head? ≠ some 36) : isBcryptHash b strict = false := by
  cases hb : isBcryptHash b strict
  · rfl
  · rcases head_of_isBcryptHash b strict hb with h | h
    · exact absurd h h1
    · exact absurd h h2

/-- C22: for every input `b` that is not empty and that neither `isBcryptHash` without `strict`
nor `isSCRAMHash` accepts, `LoadPasswordHash(b)` returns the invalid hash whose bytes
(`String()`) are `b`. -/
theorem LoadPasswordHash_unknown (b : List Byte) (hne : b ≠ [])
    (h1 : isBcryptHash b false = false) (h2 : (isSCRAMHash b).1 = false) :
    LoadPasswordHash b = some (.invalidHash b) ∧
    ∀ h, LoadPasswordHash b = some h → h.Method = .HashInvalidMethod ∧ h.String = b := by
  have hlen : ¬ b.length = 0 := fun h => hne (List.length_eq_zero.1 h)
  have hL : LoadPasswordHash b = some (.invalidHash b) := by
    unfold LoadPasswordHash
    simp only [hlen, h1, h2, if_false, Bool.false_eq_true]
  refine ⟨hL, fun h hh => ?_⟩
  rw [hL] at hh
  cases hh
  exact ⟨rfl, rfl⟩

/-- An MD5 hash is kept as an invalid hash. -/
theorem LoadPasswordHash_unknown_witness :
    LoadPasswordHash sample.md5Hash = some (.invalidHash sample.md5Hash) ∧
    ∀ h, LoadPasswordHash sample.md5Hash = some h →
      h.Method = .HashInvalidMethod ∧ h.String = sample.md5Hash :=
  LoadPasswordHash_unknown sample.md5Hash (by decide)
    (isBcryptHash_of_head _ false (by decide) (by decide)) (isSCRAMHash_of_head _ (by decide))

/-- C23: the iteration range is not enforced at load time. For every input that `isSCRAMHash`
accepts whose salt field decodes and whose iteration count is outside [4096, 240000000000] but
fits a 64-bit integer, `LoadPasswordHash` returns a SCRAM hash with that iteration count, not
an invalid hash, and `CheckPasswordHashValidity` rejects the input with an error. -/
theorem LoadPasswordHash_iterations_unchecked (lib : Libs)
    (b iters salt storedKey serverKey s : List Byte) (hm : (isSCRAMHash b).1 = true)
    (hparts : (isSCRAMHash b).2 = [b, iters, salt, storedKey, serverKey])
    (hout : decimalValue iters < 4096 ∨ 240000000000 < decimalValue iters)
    (hfit : decimalValue iters < 9223372036854775808)
    (hsalt : base64.DecodeString salt = .ok s) :
    (∃ k1 k2, LoadPasswordHash b = some (.ScramHash b
      { KeyFactors := { Salt := s, Iters := (decimalValue iters : Int) },
        StoredKey := k1, ServerKey := k2 })) ∧
    ∃ e, CheckPasswordHashValidity lib b =
      some { isPreHashed := true, supportedScheme := true, issueNum := 0,
             schemeName := "scram-sha-256", hashedPassword := [], err := some e } := by
  have hg := scramGrammar_of_isSCRAMHash b iters salt storedKey serverKey hm hparts
  obtain ⟨k1, k2, -, -, -, -, -, -, hok⟩ :=
    LoadPasswordHash_of_scramGrammar b iters salt storedKey serverKey hg
  refine ⟨⟨k1, k2, hok hfit s hsalt⟩, ?_⟩
  rw [CheckPasswordHashValidity_of_scramGrammar lib b iters salt storedKey serverKey hg,
    if_pos hfit, if_pos hout]
  exact ⟨_, rfl⟩

/-- The sample SCRAM hash with one iteration is loaded as a SCRAM hash and rejected by the
validity check. -/
theorem LoadPasswordHash_iterations_unchecked_witness :
    (∃ k1 k2, LoadPasswordHash (sample.scramWith (bytesOf "1") sample.saltField) =
      some (.ScramHash (sample.scramWith (bytesOf "1") sample.saltField)
        { KeyFactors := { Salt := sample.salt, Iters := (decimalValue (bytesOf "1") : Int) },
          StoredKey := k1, ServerKey := k2 })) ∧
    ∃ e, CheckPasswordHashValidity sample.libs (sample.scramWith (bytesOf "1") sample.saltField) =
      some { isPreHashed := true, supportedScheme := true, issueNum := 0,
             schemeName := "scram-sha-256", hashedPassword := [], err := some e } :=
  LoadPasswordHash_iterations_unchecked sample.libs
    (sample.scramWith (bytesOf "1") sample.saltField) (bytesOf "1") sample.saltField
    sample.storedKeyField sample.serverKeyField sample.salt
    (congrArg Prod.fst (sample.isSCRAMHash_scramWith (bytesOf "1") (by decide) (by decide)))
    (congrArg Prod.snd (sample.isSCRAMHash_scramWith (bytesOf "1") (by decide) (by decide)))
    (Or.inl (by decide)) (by decide) (by rfl)

/-- The sample SCRAM hash with the salt field `A` is of the SCRAM grammar. -/
theorem sample.badSalt_grammar :
    scramGrammar (sample.scramWith (bytesOf "4096") sample.badSaltField) (bytesOf "4096")
      sample.badSaltField sample.storedKeyField sample.serverKeyField :=
  sample.scramWith_grammar (bytesOf "4096") sample.badSaltField [] (by decide)
    (fun c hc => (mem_digit_iff c).1 (by revert c; decide)) (by decide)
    (fun c hc => (mem_scramAlphabet_iff c).1 (by revert c; decide)) (by decide)

/-- Against C24: the sample SCRAM hash with the salt field `A` is accepted by `isSCRAMHash`,
its salt field is refused by the base64 decoder, `LoadPasswordHash` makes an invalid hash of
it, and `CheckPasswordHashValidity` returns it with a nil error. -/
theorem CheckPasswordHashValidity_accepts_bad_salt :
    (isSCRAMHash (sample.scramWith (bytesOf "4096") sample.badSaltField)).1 = true ∧
    (isSCRAMHash (sample.scramWith (bytesOf "4096") sample.badSaltField)).2[2]? =
      some sample.badSaltField ∧
    base64.DecodeString sample.badSaltField = .error .CorruptInputError ∧
    LoadPasswordHash (sample.scramWith (bytesOf "4096") sample.badSaltField) =
      some (.invalidHash (sample.scramWith (bytesOf "4096") sample.badSaltField)) ∧
    CheckPasswordHashValidity sample.libs
        (sample.scramWith (bytesOf "4096") sample.badSaltField) =
      some { isPreHashed := true, supportedScheme := true, issueNum := 0,
             schemeName := "scram-sha-256",
             hashedPassword := sample.scramWith (bytesOf "4096") sample.badSaltField,
             err := none } := by
  have hg := sample.badSalt_grammar
  have hI := isSCRAMHash_of_grammar _ _ _ _ _ hg
  obtain ⟨k1, k2, -, -, -, -, -, hbad, -⟩ := LoadPasswordHash_of_scramGrammar _ _ _ _ _ hg
  have hd : base64.DecodeString sample.badSaltField = .error .CorruptInputError := by rfl
  refine ⟨by rw [hI], by rw [hI]; rfl, hd, hbad _ hd, ?_⟩
  rw [CheckPasswordHashValidity_of_scramGrammar sample.libs _ _ _ _ _ hg]
  rfl

/-- C24, amended: for every input that `isSCRAMHash` accepts and whose salt field is refused by
the base64 decoder, `LoadPasswordHash` returns the invalid hash, while
`CheckPasswordHashValidity` does not look at the base64 fields: its error is nil if and only if
the iteration count lies in [4096, 240000000000], and then it returns the input as
`hashedPassword`. -/
theorem CheckPasswordHashValidity_ignores_base64 (lib : Libs)
    (b iters salt storedKey serverKey : List Byte) (e : GoError)
    (hm : (isSCRAMHash b).1 = true)
    (hparts : (isSCRAMHash b).2 = [b, iters, salt, storedKey, serverKey])
    (hsalt : base64.DecodeString salt = .error e) :
    LoadPasswordHash b = some (.invalidHash b) ∧
    ∃ v, CheckPasswordHashValidity lib b = some v ∧
      v.isPreHashed = true ∧ v.schemeName = "scram-sha-256" ∧
      (v.err = none ↔ 4096 ≤ decimalValue iters ∧ decimalValue iters ≤ 240000000000) ∧
      (v.err = none → v.hashedPassword = b) := by
  have hg := scramGrammar_of_isSCRAMHash b iters salt storedKey serverKey hm hparts
  obtain ⟨k1, k2, -, -, -, -, -, hbad, -⟩ :=
    LoadPasswordHash_of_scramGrammar b iters salt storedKey serverKey hg
  refine ⟨hbad e hsalt, ?_⟩
  rw [CheckPasswordHashValidity_of_scramGrammar lib b iters salt storedKey serverKey hg]
  by_cases h1 : decimalValue iters < 9223372036854775808
  · by_cases h2 : decimalValue iters < 4096 ∨ 240000000000 < decimalValue iters
    · rw [if_pos h1, if_pos h2]
      refine ⟨_, rfl, rfl, rfl, ?_, ?_⟩
      · simp only [reduceCtorEq, false_iff]; omega
      · intro h; simp only [reduceCtorEq] at h
    · rw [if_pos h1, if_neg h2]
      refine ⟨_, rfl, rfl, rfl, ?_, fun _ => rfl⟩
      simp only [true_iff]; omega
  · rw [if_neg h1]
    refine ⟨_, rfl, rfl, rfl, ?_, ?_⟩
    · simp only [reduceCtorEq, false_iff]; omega
    · intro h; simp only [reduceCtorEq] at h

/-- The sample SCRAM hash with the salt field `A` and 4096 iterations. -/
theorem CheckPasswordHashValidity_ignores_base64_witness :
    LoadPasswordHash (sample.scramWith (bytesOf "4096") sample.badSaltField) =
      some (.invalidHash (sample.scramWith (bytesOf "4096") sample.badSaltField)) ∧
    ∃ v, CheckPasswordHashValidity sample.libs
        (sample.scramWith (bytesOf "4096") sample.badSaltField) = some v ∧
      v.isPreHashed = true ∧ v.schemeName = "scram-sha-256" ∧
      (v.err = none ↔
        4096 ≤ decimalValue (bytesOf "4096") ∧ decimalValue (bytesOf "4096") ≤ 240000000000) ∧
      (v.err = none →
        v.hashedPassword = sample.scramWith (bytesOf "4096") sample.badSaltField) :=
  CheckPasswordHashValidity_ignores_base64 sample.libs
    (sample.scramWith (bytesOf "4096") sample.badSaltField) (bytesOf "4096")
    sample.badSaltField sample.storedKeyField sample.serverKeyField .CorruptInputError
    (congrArg Prod.fst (isSCRAMHash_of_grammar _ _ _ _ _ sample.badSalt_grammar))
    (congrArg Prod.snd (isSCRAMHash_of_grammar _ _ _ _ _ sample.badSalt_grammar))
    (by rfl)

/-! ## The capacity of the hashing semaphore -/

/-- The capacity computed in `getExpensiveHashComputeSem`: the override when it is at least 1,
and otherwise the eighth of `GOMAXPROCS`, rounded down, but at least 1. -/
theorem hashComputeConcurrency_eq (g : Globals) :
    hashComputeConcurrency g =
      if g.envMaxHashComputeConcurrency ≥ 1 then g.envMaxHashComputeConcurrency
      else max 1 (Int.fdiv g.GOMAXPROCS 8) := by
  unfold hashComputeConcurrency
  by_cases h : g.envMaxHashComputeConcurrency ≥ 1
  · simp only [if_pos h]
    rw [if_neg (by omega)]
  · simp only [if_neg h]
    rw [Int.fdiv_eq_ediv _ (by decide : (0 : Int) ≤ 8)]
    by_cases hp : 0 ≤ g.GOMAXPROCS
    · rw [Int.tdiv_eq_ediv hp (by decide)]
      rw [max_def]
      split_ifs <;> omega
    · have e : g.GOMAXPROCS.tdiv 8 = -((-g.GOMAXPROCS) / 8) := by
        rw [← Int.tdiv_eq_ediv (by omega) (by decide), Int.neg_tdiv, Int.neg_neg]
      rw [e, max_def]
      split_ifs <;> omega

/-- The capacity is at least 1. -/
theorem one_le_hashComputeConcurrency (g : Globals) : 1 ≤ hashComputeConcurrency g := by
  unfold hashComputeConcurrency
  simp only
  split_ifs <;> omega

/-- On first use `getExpensiveHashComputeSem` creates the semaphore with the computed
capacity. -/
theorem getExpensiveHashComputeSem_first (g : Globals)
    (hfirst : g.expensiveHashComputeSemOnce = none) :
    getExpensiveHashComputeSem g =
      (g.setSem (NewIntPool (hashComputeConcurrency g).toNat),
        NewIntPool (hashComputeConcurrency g).toNat) := by
  unfold getExpensiveHashComputeSem Globals.setSem
  rw [hfirst]

/-- C25: the capacity of the semaphore created on first use is the override when the override
is at least 1, and max(1, floor(P / 8)) otherwise, with P the value of `GOMAXPROCS`; it is at
least 1 whatever the override and P are. -/
theorem getExpensiveHashComputeSem_capacity (g : Globals)
    (hfirst : g.expensiveHashComputeSemOnce = none) :
    ((getExpensiveHashComputeSem g).2.capacity : Int) =
      (if g.envMaxHashComputeConcurrency ≥ 1 then g.envMaxHashComputeConcurrency
       else max 1 (Int.fdiv g.GOMAXPROCS 8)) ∧
    1 ≤ (getExpensiveHashComputeSem g).2.capacity := by
  have h1 := one_le_hashComputeConcurrency g
  rw [getExpensiveHashComputeSem_first g hfirst, ← hashComputeConcurrency_eq]
  unfold NewIntPool
  simp only
  omega

/-- A process with eight processors and no override gets one permit. -/
theorem getExpensiveHashComputeSem_capacity_witness :
    ((getExpensiveHashComputeSem sample.globals).2.capacity : Int) =
      (if sample.globals.envMaxHashComputeConcurrency ≥ 1 then
        sample.globals.envMaxHashComputeConcurrency
       else max 1 (Int.fdiv sample.globals.GOMAXPROCS 8)) ∧
    1 ≤ (getExpensiveHashComputeSem sample.globals).2.capacity :=
  getExpensiveHashComputeSem_capacity sample.globals rfl

/-- Against C26: with the override 0, which is not negative, and eight processors, the capacity
computed on first use is 1, not 0. -/
theorem capacity_of_override_zero :
    sample.globals.expensiveHashComputeSemOnce = none ∧
    sample.globals.envMaxHashComputeConcurrency = 0 ∧
    (getExpensiveHashComputeSem sample.globals).2.capacity = 1 ∧
    ((getExpensiveHashComputeSem sample.globals).2.capacity : Int) ≠
      sample.globals.envMaxHashComputeConcurrency := by
  decide

/-- C26, amended: for every override `v` that is at least 1 the capacity computed on first use
equals `v`; for the override 0 it is max(1, floor(P / 8)), which is not 0. -/
theorem getExpensiveHashComputeSem_override (g : Globals)
    (hfirst : g.expensiveHashComputeSemOnce = none) :
    (1 ≤ g.envMaxHashComputeConcurrency →
      ((getExpensiveHashComputeSem g).2.capacity : Int) = g.envMaxHashComputeConcurrency) ∧
    (g.envMaxHashComputeConcurrency = 0 →
      ((getExpensiveHashComputeSem g).2.capacity : Int) = max 1 (Int.fdiv g.GOMAXPROCS 8) ∧
      (getExpensiveHashComputeSem g).2.capacity ≠ 0) := by
  have h1 := one_le_hashComputeConcurrency g
  have he := hashComputeConcurrency_eq g
  rw [getExpensiveHashComputeSem_first g hfirst]
  unfold NewIntPool
  simp only
  refine ⟨fun h => ?_, fun h => ⟨?_, ?_⟩⟩
  · rw [if_pos h] at he
    omega
  · rw [if_neg (by omega)] at he
    omega
  · omega

/-- With the override 3 the capacity is 3. -/
theorem getExpensiveHashComputeSem_override_witness :
    ((getExpensiveHashComputeSem (Globals.mk 3 8 none)).2.capacity : Int) = 3 :=
  (getExpensiveHashComputeSem_override (Globals.mk 3 8 none) rfl).1 (by decide)

/-! ## The permit around a hash computation -/

/-- The bcrypt verifier when no permit is obtained. -/
theorem bcryptHash_compare_refused (lib : Libs) (g : Globals) (b : List Byte) (ctx : Context)
    (cleartext : List Byte) (e : GoError)
    (hacq : (getExpensiveHashComputeSem g).2.Acquire ctx = some (.error e)) :
    bcryptHash.compareWithCleartextPassword lib g b ctx cleartext =
      some ((false, some e), (getExpensiveHashComputeSem g).1) := by
  unfold bcryptHash.compareWithCleartextPassword
  simp only [hacq]

/-- The SCRAM verifier when no permit is obtained. -/
theorem ScramHash_compare_refused (lib : Libs) (g : Globals) (decoded : StoredCredentials)
    (ctx : Context) (cleartext : List Byte) (e : GoError)
    (hacq : (getExpensiveHashComputeSem g).2.Acquire ctx = some (.error e)) :
    ScramHash.compareWithCleartextPassword lib g decoded ctx cleartext =
      some ((false, some e), (getExpensiveHashComputeSem g).1) := by
  unfold ScramHash.compareWithCleartextPassword
  simp only [hacq]

/-- The function `HashPassword` when no permit is obtained. -/
theorem HashPassword_refused (lib : Libs) (g : Globals) (ctx : Context) (sv : Values)
    (entropy password : List Byte) (e : GoError)
    (hacq : (getExpensiveHashComputeSem g).2.Acquire ctx = some (.error e)) :
    HashPassword lib g ctx sv entropy password =
      some (.error e, (getExpensiveHashComputeSem g).1) := by
  unfold HashPassword
  simp only [hacq]

/-- The function `HashPassword` with a permit. -/
theorem HashPassword_acquired (lib : Libs) (g : Globals) (ctx : Context) (sv : Values)
    (entropy password : List Byte) (held : IntPool)
    (hacq : (getExpensiveHashComputeSem g).2.Acquire ctx = some (.ok held)) :
    HashPassword lib g ctx sv entropy password =
      some (lib.GenerateFromPassword entropy (appendEmptySha256 password) sv.BcryptCost,
        (getExpensiveHashComputeSem g).1.setSem held.Release) := by
  unfold HashPassword
  simp only [hacq]

/-- C27: if acquiring the permit fails with the error `e`, the bcrypt verifier and the SCRAM
verifier return (false, e) and `HashPassword` returns (no bytes, e); none of the three results
depends on the functions of the bcrypt, SASLprep, PBKDF2 and HMAC packages (with other
functions `other` for them the results are the same), so none of these is computed. -/
theorem acquire_failure_is_returned (lib other : Libs) (g : Globals) (ctx : Context)
    (e : GoError) (b cleartext entropy password : List Byte) (decoded : StoredCredentials)
    (sv : Values) (hacq : (getExpensiveHashComputeSem g).2.Acquire ctx = some (.error e)) :
    (bcryptHash.compareWithCleartextPassword lib g b ctx cleartext).map Prod.fst =
      some (false, some e) ∧
    (ScramHash.compareWithCleartextPassword lib g decoded ctx cleartext).map Prod.fst =
      some (false, some e) ∧
    (HashPassword lib g ctx sv entropy password).map Prod.fst = some (.error e) ∧
    bcryptHash.compareWithCleartextPassword lib g b ctx cleartext =
      bcryptHash.compareWithCleartextPassword other g b ctx cleartext ∧
    ScramHash.compareWithCleartextPassword lib g decoded ctx cleartext =
      ScramHash.compareWithCleartextPassword other g decoded ctx cleartext ∧
    HashPassword lib g ctx sv entropy password =
      HashPassword other g ctx sv entropy password := by
  rw [bcryptHash_compare_refused lib g b ctx cleartext e hacq,
    bcryptHash_compare_refused other g b ctx cleartext e hacq,
    ScramHash_compare_refused lib g decoded ctx cleartext e hacq,
    ScramHash_compare_refused other g decoded ctx cleartext e hacq,
    HashPassword_refused lib g ctx sv entropy password e hacq,
    HashPassword_refused other g ctx sv entropy password e hacq]
  exact ⟨rfl, rfl, rfl, rfl, rfl, rfl⟩

/-- The permit of the sample semaphore is taken and the context is cancelled: the three
functions return the cancellation. -/
theorem acquire_failure_is_returned_witness :
    (bcryptHash.compareWithCleartextPassword sample.libs sample.exhausted sample.storedHash
      sample.cancelled sample.hunter2).map Prod.fst = some (false, some .Canceled) ∧
    (ScramHash.compareWithCleartextPassword sample.libs sample.exhausted sample.credentials
      sample.cancelled sample.hunter2).map Prod.fst = some (false, some .Canceled) ∧
    (HashPassword sample.libs sample.exhausted sample.cancelled sample.settings []
      sample.hunter2).map Prod.fst = some (.error .Canceled) :=
  have h := acquire_failure_is_returned sample.libs sample.libs sample.exhausted
    sample.cancelled .Canceled sample.storedHash sample.hunter2 [] sample.hunter2
    sample.credentials sample.settings rfl
  ⟨h.1, h.2.1, h.2.2.1⟩

/-- The semaphore that `getExpensiveHashComputeSem` returns is the one it leaves in the
package state. -/
theorem getExpensiveHashComputeSem_idem (g : Globals) :
    getExpensiveHashComputeSem (getExpensiveHashComputeSem g).1 =
      getExpensiveHashComputeSem g := by
  unfold getExpensiveHashComputeSem
  cases h : g.expensiveHashComputeSemOnce with
  | none => rfl
  | some sem => simp only [h]

/-- The free permits once the semaphore is in the package state. -/
theorem availablePermits_fst (g : Globals) :
    availablePermits (getExpensiveHashComputeSem g).1 = availablePermits g := by
  unfold availablePermits
  rw [getExpensiveHashComputeSem_idem]

/-- The free permits after an update of the semaphore. -/
theorem availablePermits_setSem (g : Globals) (sem : IntPool) :
    availablePermits (g.setSem sem) = sem.available := rfl

/-- A permit that was acquired and is released leaves the number of free permits as it was. -/
theorem Release_of_Acquire (sem held : IntPool) (ctx : Context)
    (hwf : sem.available ≤ sem.capacity) (hacq : sem.Acquire ctx = some (.ok held)) :
    held.available + 1 = sem.available ∧ held.capacity = sem.capacity ∧
      held.Release = sem := by
  unfold IntPool.Acquire at hacq
  by_cases h : 1 ≤ sem.available
  · rw [if_pos h] at hacq
    simp only [Option.some.injEq, Except.ok.injEq] at hacq
    subst hacq
    unfold IntPool.Release
    refine ⟨by simp only; omega, rfl, ?_⟩
    cases sem with
    | mk capacity available =>
      simp only [IntPool.mk.injEq, true_and] at *
      omega
  · rw [if_neg h] at hacq
    cases hc : ctx.err with
    | none => rw [hc] at hacq; cases hacq
    | some e => rw [hc] at hacq; cases hacq

/-! ## `LoadPasswordHash` returns on every input -/

/-- The function `makeSCRAMHash` returns on every list of five parts. -/
theorem makeSCRAMHash_total (b : List Byte) (parts : List (List Byte)) (inv : PasswordHash)
    (h : parts.length = 5) : ∃ r, makeSCRAMHash b parts inv = some r := by
  match parts, h with
  | [p0, p1, p2, p3, p4], _ =>
    unfold makeSCRAMHash
    simp only [List.getElem?_cons_succ, List.getElem?_cons_zero]
    split
    · exact ⟨_, rfl⟩
    · split
      · exact ⟨_, rfl⟩
      · split
        · exact ⟨_, rfl⟩
        · split
          · exact ⟨_, rfl⟩
          · exact ⟨_, rfl⟩

/-! ## The recognisers exclude one another -/

/-- The check of a scheme never panics. -/
theorem checkScheme_bcrypt (lib : Libs) (b : List Byte) :
    checkScheme lib b .bcrypt =
      if isBcryptHash b true = true then
        some (some { isPreHashed := true, supportedScheme := true, issueNum := 0,
                     schemeName := "crdb-bcrypt", hashedPassword := b.drop 11,
                     err := match lib.Cost (b.drop 11) with
                       | .ok _ => none
                       | .error err => some err })
      else some none := by
  unfold checkScheme
  by_cases h : isBcryptHash b true = true
  · rw [if_pos h, checkBcryptHash_of_strict lib b h]
  · rw [if_neg h, checkBcryptHash_of_not lib b (by simpa using h)]

/-- The SCRAM check on an input that `isSCRAMHash` refuses. -/
theorem checkScheme_scram_of_not (lib : Libs) (b : List Byte)
    (h : (isSCRAMHash b).1 = false) : checkScheme lib b .scram = some none := by
  unfold checkScheme
  rw [checkSCRAMHash_of_not b h]

/-- The MD5 check. -/
theorem checkScheme_md5 (lib : Libs) (b : List Byte) :
    checkScheme lib b .md5 =
      if isMD5Hash b = true then
        some (some { isPreHashed := true, supportedScheme := false, issueNum := 73337,
                     schemeName := "md5", hashedPassword := b, err := none })
      else some none := by
  unfold checkScheme
  rfl

/-- When every check of the list refuses the input, the input is reported as not hashed. -/
theorem CheckPasswordHashValidityIn_of_none (lib : Libs) (b : List Byte) (order : List Scheme)
    (h : ∀ s ∈ order, checkScheme lib b s = some none) :
    CheckPasswordHashValidityIn lib b order =
      some { isPreHashed := false, supportedScheme := false, issueNum := 0,
             schemeName := "", hashedPassword := b, err := none } := by
  induction order with
  | nil => rfl
  | cons s rest ih =>
    rw [CheckPasswordHashValidityIn, h s (by simp)]
    exact ih (fun t ht => h t (by simp [ht]))

/-- When one check accepts the input and every other check refuses it, that check decides the
result, wherever it stands in the list. -/
theorem CheckPasswordHashValidityIn_of_one (lib : Libs) (b : List Byte) (s0 : Scheme)
    (v : Validity) (h0 : checkScheme lib b s0 = some (some v))
    (hothers : ∀ s, s ≠ s0 → checkScheme lib b s = some none) (order : List Scheme)
    (hmem : s0 ∈ order) : CheckPasswordHashValidityIn lib b order = some v := by
  induction order with
  | nil => cases hmem
  | cons s rest ih =>
    by_cases hs : s = s0
    · subst hs
      rw [CheckPasswordHashValidityIn, h0]
    · rw [CheckPasswordHashValidityIn, hothers s hs]
      rcases List.mem_cons.1 hmem with h | h
      · exact absurd h.symm hs
      · exact ih h

/-- A bcrypt hash is not a SCRAM hash. -/
theorem not_bcrypt_and_scram (b : List Byte) (strict : Bool) :
    ¬ (isBcryptHash b strict = true ∧ (isSCRAMHash b).1 = true) := by
  rintro ⟨h1, h2⟩
  have hb := head_of_isBcryptHash b strict h1
  rw [head_of_isSCRAMHash b h2] at hb
  rcases hb with h | h <;> exact absurd h (by decide)

/-- A bcrypt hash is not an MD5 hash. -/
theorem not_bcrypt_and_md5 (b : List Byte) (strict : Bool) :
    ¬ (isBcryptHash b strict = true ∧ isMD5Hash b = true) := by
  rintro ⟨h1, h2⟩
  have hb := head_of_isBcryptHash b strict h1
  rw [head_of_md5Grammar b ((isMD5Hash_iff b).1 h2)] at hb
  rcases hb with h | h <;> exact absurd h (by decide)

/-- A SCRAM hash is not an MD5 hash. -/
theorem not_scram_and_md5 (b : List Byte) :
    ¬ ((isSCRAMHash b).1 = true ∧ isMD5Hash b = true) := by
  rintro ⟨h1, h2⟩
  have hb := head_of_isSCRAMHash b h1
  rw [head_of_md5Grammar b ((isMD5Hash_iff b).1 h2)] at hb
  exact absurd hb (by decide)

/-- On an input that `isSCRAMHash` accepts, the SCRAM check returns what
`CheckPasswordHashValidity` returns. -/
theorem checkScheme_scram_of_match (lib : Libs) (b : List Byte)
    (hm : (isSCRAMHash b).1 = true) :
    ∃ v, checkScheme lib b .scram = some (some v) ∧ CheckPasswordHashValidity lib b = some v := by
  obtain ⟨iters, salt, sk, svk, hg⟩ :=
    (scramHashRe_rmatch_iff b).1 (by rw [← isSCRAMHash_fst]; exact hm)
  rw [CheckPasswordHashValidity_of_scramGrammar lib b iters salt sk svk hg]
  unfold checkScheme
  rw [checkSCRAMHash_of_grammar b iters salt sk svk hg]
  split_ifs <;> exact ⟨_, rfl, rfl⟩

/-- The function `CheckPasswordHashValidity` on an MD5 hash. -/
theorem CheckPasswordHashValidity_of_md5 (lib : Libs) (b : List Byte)
    (h : isMD5Hash b = true) :
    CheckPasswordHashValidity lib b =
      some { isPreHashed := true, supportedScheme := false, issueNum := 73337,
             schemeName := "md5", hashedPassword := b, err := none } := by
  have h1 : isBcryptHash b true = false := by
    cases hb : isBcryptHash b true
    · rfl
    · exact absurd ⟨hb, h⟩ (not_bcrypt_and_md5 b true)
  have h2 : (isSCRAMHash b).1 = false := by
    cases hb : (isSCRAMHash b).1
    · rfl
    · exact absurd ⟨hb, h⟩ (not_scram_and_md5 b)
  unfold CheckPasswordHashValidity
  rw [checkBcryptHash_of_not lib b h1, checkSCRAMHash_of_not b h2]
  simp only [h, if_true]

/-- C32: no byte string is accepted by more than one of `isBcryptHash` (with or without
`strict`), `isSCRAMHash` and `isMD5Hash`; so `LoadPasswordHash` returns the same with its two
recognisers tried in the other order, and `CheckPasswordHashValidity` returns the same with its
three checks tried in any order. -/
theorem recognisers_exclude_one_another (lib : Libs) (b : List Byte) :
    (∀ strict, ¬ (isBcryptHash b strict = true ∧ (isSCRAMHash b).1 = true)) ∧
    (∀ strict, ¬ (isBcryptHash b strict = true ∧ isMD5Hash b = true)) ∧
    ¬ ((isSCRAMHash b).1 = true ∧ isMD5Hash b = true) ∧
    LoadPasswordHashScramFirst b = LoadPasswordHash b ∧
    ∀ order : List Scheme, (∀ s, s ∈ order) →
      CheckPasswordHashValidityIn lib b order = CheckPasswordHashValidity lib b := by
  refine ⟨not_bcrypt_and_scram b, not_bcrypt_and_md5 b, not_scram_and_md5 b, ?_, ?_⟩
  · unfold LoadPasswordHashScramFirst LoadPasswordHash
    cases h1 : isBcryptHash b false <;> cases h2 : (isSCRAMHash b).1
    · rfl
    · rfl
    · rfl
    · exact absurd ⟨h1, h2⟩ (not_bcrypt_and_scram b false)
  · intro order hall
    cases h1 : isBcryptHash b true with
    | true =>
      have h2 : (isSCRAMHash b).1 = false := by
        cases hb : (isSCRAMHash b).1
        · rfl
        · exact absurd ⟨h1, hb⟩ (not_bcrypt_and_scram b true)
      have h3 : isMD5Hash b = false := by
        cases hb : isMD5Hash b
        · rfl
        · exact absurd ⟨h1, hb⟩ (not_bcrypt_and_md5 b true)
      rw [CheckPasswordHashValidity_of_strict lib b h1]
      refine CheckPasswordHashValidityIn_of_one lib b .bcrypt _ ?_ ?_ order (hall _)
      · rw [checkScheme_bcrypt, if_pos h1]
      · intro s hs
        cases s with
        | bcrypt => exact absurd rfl hs
        | scram => exact checkScheme_scram_of_not lib b h2
        | md5 => rw [checkScheme_md5, if_neg (by simp [h3])]
    | false =>
      have hb : checkScheme lib b .bcrypt = some none := by
        rw [checkScheme_bcrypt, if_neg (by simp [h1])]
      cases h2 : (isSCRAMHash b).1 with
      | true =>
        have h3 : isMD5Hash b = false := by
          cases hm : isMD5Hash b
          · rfl
          · exact absurd ⟨h2, hm⟩ (not_scram_and_md5 b)
        obtain ⟨v, hv, hc⟩ := checkScheme_scram_of_match lib b h2
        rw [hc]
        refine CheckPasswordHashValidityIn_of_one lib b .scram v hv ?_ order (hall _)
        intro s hs
        cases s with
        | bcrypt => exact hb
        | scram => exact absurd rfl hs
        | md5 => rw [checkScheme_md5, if_neg (by simp [h3])]
      | false =>
        cases h3 : isMD5Hash b with
        | true =>
          rw [CheckPasswordHashValidity_of_md5 lib b h3]
          refine CheckPasswordHashValidityIn_of_one lib b .md5 _ ?_ ?_ order (hall _)
          · rw [checkScheme_md5, if_pos h3]
          · intro s hs
            cases s with
            | bcrypt => exact hb
            | scram => exact checkScheme_scram_of_not lib b h2
            | md5 => exact absurd rfl hs
        | false =>
          rw [CheckPasswordHashValidity_of_none lib b h1 h2 h3]
          refine CheckPasswordHashValidityIn_of_none lib b order ?_
          intro s _
          cases s with
          | bcrypt => exact hb
          | scram => exact checkScheme_scram_of_not lib b h2
          | md5 => rw [checkScheme_md5, if_neg (by simp [h3])]

/-! ## From the validity check to the loader -/

/-- A bcrypt hash with the prefix is the prefix followed by a bcrypt hash without it. -/
theorem isBcryptHash_drop_prefix (b : List Byte) (h : isBcryptHash b true = true) :
    isBcryptHash (b.drop 11) false = true ∧ b = crdbBcryptPrefix ++ b.drop 11 := by
  obtain ⟨hr, hp⟩ := (isBcryptHash_true_iff b).1 h
  obtain ⟨pre, v, letter, d1, d2, run, rfl, hpre, hrest⟩ := (bcryptHashRe_rmatch_iff b).1 hr
  rcases hpre with hpre | hpre
  · subst hpre
    simp [HasPrefix, crdbBcryptPrefix, bytesOf] at hp
  · subst hpre
    have e : bytesOf "CRDB-BCRYPT" ++ [36, v] ++ letter ++ [36, d1, d2, 36] ++ run =
        crdbBcryptPrefix ++ ([] ++ [36, v] ++ letter ++ [36, d1, d2, 36] ++ run) := by
      simp [crdbBcryptPrefix]
    have hd : (crdbBcryptPrefix ++ ([] ++ [36, v] ++ letter ++ [36, d1, d2, 36] ++ run)).drop 11 =
        [] ++ [36, v] ++ letter ++ [36, d1, d2, 36] ++ run := List.drop_left' rfl
    rw [e, hd]
    refine ⟨?_, rfl⟩
    rw [isBcryptHash_false_eq, bcryptHashRe_rmatch_iff]
    exact ⟨[], v, letter, d1, d2, run, rfl, Or.inl rfl, hrest⟩

/-- C33: for every input on which `CheckPasswordHashValidity` reports the scheme `crdb-bcrypt`
(with a nil error or not), the returned `hashedPassword` is the input without the prefix
`CRDB-BCRYPT`, it is accepted by `isBcryptHash` without `strict`, and `LoadPasswordHash`
applied to it returns the bcrypt hash whose bytes are that `hashedPassword`. -/
theorem CheckPasswordHashValidity_then_load (lib : Libs) (b : List Byte) (v : Validity)
    (h : CheckPasswordHashValidity lib b = some v) (hs : v.schemeName = "crdb-bcrypt") :
    b = crdbBcryptPrefix ++ v.hashedPassword ∧
    isBcryptHash v.hashedPassword false = true ∧
    LoadPasswordHash v.hashedPassword = some (.bcryptHash v.hashedPassword) ∧
    ∀ l, LoadPasswordHash v.hashedPassword = some l → l.String = v.hashedPassword := by
  have h1 : isBcryptHash b true = true := by
    cases h1 : isBcryptHash b true
    · exfalso
      cases h2 : (isSCRAMHash b).1 with
      | true =>
        obtain ⟨iters, salt, sk, svk, hg⟩ :=
          (scramHashRe_rmatch_iff b).1 (by rw [← isSCRAMHash_fst]; exact h2)
        rw [CheckPasswordHashValidity_of_scramGrammar lib b iters salt sk svk hg] at h
        split_ifs at h <;> cases h <;> simp only at hs <;> exact absurd hs (by decide)
      | false =>
        cases h3 : isMD5Hash b with
        | true =>
          rw [CheckPasswordHashValidity_of_md5 lib b h3] at h
          cases h
          simp only at hs
          exact absurd hs (by decide)
        | false =>
          rw [CheckPasswordHashValidity_of_none lib b h1 h2 h3] at h
          cases h
          simp only at hs
          exact absurd hs (by decide)
    · rfl
  rw [CheckPasswordHashValidity_of_strict lib b h1] at h
  cases h
  obtain ⟨hd, hb⟩ := isBcryptHash_drop_prefix b h1
  have hl := LoadPasswordHash_of_isBcryptHash (b.drop 11) hd
  refine ⟨hb, hd, hl, fun l hl2 => ?_⟩
  simp only at hl2 ⊢
  rw [hl] at hl2
  cases hl2
  rfl

/-- The sample stored hash with the prefix: the validity check strips the prefix and the loader
accepts the rest. -/
theorem CheckPasswordHashValidity_then_load_witness :
    CheckPasswordHashValidity sample.libs (crdbBcryptPrefix ++ sample.storedHash) =
      some { isPreHashed := true, supportedScheme := true, issueNum := 0,
             schemeName := "crdb-bcrypt", hashedPassword := sample.storedHash, err := none } ∧
    isBcryptHash sample.storedHash false = true ∧
    LoadPasswordHash sample.storedHash = some (.bcryptHash sample.storedHash) :=
  have hs := isBcryptHash_prefixed_of_encoded sample.storedHash true sample.storedHash_encoded
  have hd : (crdbBcryptPrefix ++ sample.storedHash).drop 11 = sample.storedHash :=
    List.drop_left' rfl
  have hc : sample.libs.Cost sample.storedHash = .ok 10 := by rfl
  have hv : CheckPasswordHashValidity sample.libs (crdbBcryptPrefix ++ sample.storedHash) =
      some { isPreHashed := true, supportedScheme := true, issueNum := 0,
             schemeName := "crdb-bcrypt", hashedPassword := sample.storedHash, err := none } := by
    rw [CheckPasswordHashValidity_of_strict sample.libs _ hs, hd, hc]
  have h := CheckPasswordHashValidity_then_load sample.libs
    (crdbBcryptPrefix ++ sample.storedHash) _ hv rfl
  ⟨hv, h.2.1, h.2.2.1⟩

/-! ## What the SCRAM verifier depends on -/

/-- C34: for every two SCRAM hashes with the same salt, iteration count and server key, whatever
their stored keys and their retained bytes, and every cleartext, the two comparisons return the
same result; once a permit is acquired that result is `(ok, nil)` with the same `ok`. -/
theorem scram_verifier_depends_on (lib : Libs) (g : Globals) (ctx : Context)
    (bytes1 bytes2 cleartext : List Byte) (d1 d2 : StoredCredentials)
    (hsalt : d1.KeyFactors.Salt = d2.KeyFactors.Salt)
    (hiters : d1.KeyFactors.Iters = d2.KeyFactors.Iters)
    (hkey : d1.ServerKey = d2.ServerKey) :
    CompareHashAndCleartextPassword lib g ctx (.ScramHash bytes1 d1) cleartext =
      CompareHashAndCleartextPassword lib g ctx (.ScramHash bytes2 d2) cleartext ∧
    ∀ held, (getExpensiveHashComputeSem g).2.Acquire ctx = some (.ok held) →
      ∃ ok, (CompareHashAndCleartextPassword lib g ctx (.ScramHash bytes1 d1) cleartext).map
          Prod.fst = some (ok, none) ∧
        (CompareHashAndCleartextPassword lib g ctx (.ScramHash bytes2 d2) cleartext).map
          Prod.fst = some (ok, none) := by
  have e : CompareHashAndCleartextPassword lib g ctx (.ScramHash bytes1 d1) cleartext =
      CompareHashAndCleartextPassword lib g ctx (.ScramHash bytes2 d2) cleartext := by
    unfold CompareHashAndCleartextPassword PasswordHash.compareWithCleartextPassword
      ScramHash.compareWithCleartextPassword
    simp only [hsalt, hiters, hkey]
  refine ⟨e, fun held hacq => ?_⟩
  rw [← e]
  unfold CompareHashAndCleartextPassword PasswordHash.compareWithCleartextPassword
  simp only
  rw [ScramHash_compare_acquired lib g d1 ctx cleartext held hacq]
  exact ⟨_, rfl, rfl⟩

/-- Two sample hashes that differ in the stored key and in the retained bytes. -/
theorem scram_verifier_depends_on_witness :
    CompareHashAndCleartextPassword sample.libs sample.globals sample.background
        (.ScramHash [] sample.credentials) sample.hunter2 =
      CompareHashAndCleartextPassword sample.libs sample.globals sample.background
        (.ScramHash [1] sample.credentialsOther) sample.hunter2 ∧
    ∃ ok, (CompareHashAndCleartextPassword sample.libs sample.globals sample.background
        (.ScramHash [] sample.credentials) sample.hunter2).map Prod.fst = some (ok, none) ∧
      (CompareHashAndCleartextPassword sample.libs sample.globals sample.background
        (.ScramHash [1] sample.credentialsOther) sample.hunter2).map Prod.fst =
          some (ok, none) :=
  have h := scram_verifier_depends_on sample.libs sample.globals sample.background [] [1]
    sample.hunter2 sample.credentials sample.credentialsOther rfl rfl rfl
  ⟨h.1, h.2 _ sample.acquire_globals⟩

/-! ## The key that bcrypt reads -/

/-- A string repeated after itself is read like the string, at any position. -/
theorem getD_append_self_mod (y : List Byte) (hy : 0 < y.length) (i : Nat) :
    (y ++ y).getD (i % (2 * y.length)) 0 = y.getD (i % y.length) 0 := by
  have hj : i % (2 * y.length) < 2 * y.length := Nat.mod_lt _ (by omega)
  have hm : i % y.length = i % (2 * y.length) % y.length :=
    (Nat.mod_mod_of_dvd i (Dvd.intro_left 2 rfl)).symm
  rw [hm]
  generalize i % (2 * y.length) = j at hj
  by_cases h : j < y.length
  · rw [Nat.mod_eq_of_lt h, List.getD_append _ _ _ _ h]
  · have hsub : j % y.length = j - y.length := by
      rw [Nat.mod_eq_sub_mod (by omega), Nat.mod_eq_of_lt (by omega)]
    rw [hsub, List.getD_append_right _ _ _ _ (by omega)]

/-- The key of a password followed by a NUL byte and by itself is the key of the password. -/
theorem bcryptKey_repeat (x : List Byte) : bcryptKey (x ++ [0] ++ x) = bcryptKey x := by
  unfold bcryptKey
  apply List.map_congr_left
  intro i _
  have e : x ++ [0] ++ x ++ [0] = (x ++ [0]) ++ (x ++ [0]) := by simp
  have hl : (x ++ [0] ++ x).length + 1 = 2 * (x ++ [0]).length := by
    simp only [List.length_append, List.length_singleton]; omega
  have hl2 : x.length + 1 = (x ++ [0]).length := by simp
  rw [e, hl, hl2]
  exact getD_append_self_mod (x ++ [0]) (by simp) i

/-- The extension `p`, digest, NUL, `p` of a password `p` reaches bcrypt with the key of
`p`. -/
theorem bcryptKey_extension (p : List Byte) :
    bcryptKey (appendEmptySha256 (appendEmptySha256 p ++ [0] ++ p)) =
      bcryptKey (appendEmptySha256 p) := by
  have e : appendEmptySha256 (appendEmptySha256 p ++ [0] ++ p) =
      appendEmptySha256 p ++ [0] ++ appendEmptySha256 p := by
    unfold appendEmptySha256
    simp
  rw [e, bcryptKey_repeat]

/-- With a bcrypt package that accepts the password it hashed and reads its key as the package
does, the extension `p`, digest, NUL, `p` is accepted against the hash of `p`. -/
theorem compare_extension (lib : Libs) (hacc : lib.AcceptsOwn) (hkey : lib.ReadsKey)
    (entropy p h : List Byte) (cost : Int)
    (hgen : lib.GenerateFromPassword entropy (appendEmptySha256 p) cost = .ok h) :
    lib.CompareHashAndPassword h (appendEmptySha256 (appendEmptySha256 p ++ [0] ++ p)) =
      none := by
  rw [hkey h _ (appendEmptySha256 p) (bcryptKey_extension p)]
  exact hacc _ _ _ _ hgen

namespace sample

/-- The two digits of a cost between 4 and 31 are read back as the cost. -/
theorem Atoi_twoDigits (c : Int) (h4 : 4 ≤ c) (h31 : c ≤ 31) : Atoi (twoDigits c) = .ok c := by
  interval_cases c <;> rfl

/-- The cost that the sample package writes. -/
theorem Cost_generated (entropy password h : List Byte) (cost : Int)
    (hg : libs.GenerateFromPassword entropy password cost = .ok h) :
    Cost h = .ok (if cost < 4 then 10 else cost) ∧ cost ≤ 31 := by
  simp only [libs, GenerateFromPassword, bcryptMaxCost, bcryptMinCost] at hg
  split at hg
  · cases hg
  · rename_i hle
    injection hg with hg
    have hc : 4 ≤ (if cost < 4 then (10 : Int) else cost) ∧
        (if cost < 4 then (10 : Int) else cost) ≤ 31 := by
      split_ifs <;> omega
    generalize (if cost < 4 then (10 : Int) else cost) = c at hg hc
    have e : bytesOf "$2a$" ++ twoDigits c ++ [36] ++ encode password =
        36 :: 50 :: 97 :: 36 :: (twoDigits c ++ 36 :: encode password) := by
      simp [bytesOf]
    have hl := length_encode password
    have h2 : (twoDigits c).length = 2 := rfl
    subst hg
    refine ⟨?_, by omega⟩
    rw [e]
    unfold Cost
    rw [if_neg (by simp only [List.length_cons, List.length_append, h2]; omega),
      if_neg (by simp), if_neg (by simp)]
    have h97 : (36 :: 50 :: 97 :: 36 :: (twoDigits c ++ 36 :: encode password)).getD 2 0 ≠ 36 := by
      simp
    simp only [h97, if_true, List.drop_succ_cons, List.drop_zero, ne_eq, not_false_eq_true]
    rw [List.take_left' h2, Atoi_twoDigits c hc.1 hc.2]
    simp only [bcryptMinCost, bcryptMaxCost]
    rw [if_neg (by omega)]

/-- The sample package answers a mismatch for every password other than the hashed one. -/
theorem libs_mismatch (entropy password other h : List Byte) (cost : Int)
    (hg : libs.GenerateFromPassword entropy password cost = .ok h) (hne : other ≠ password) :
    libs.CompareHashAndPassword h other = some .ErrMismatchedHashAndPassword := by
  obtain ⟨c, rfl⟩ := GenerateFromPassword_ok entropy password h cost hg
  have e : bytesOf "$2a$" ++ twoDigits c ++ [36] ++ encode password =
      36 :: 50 :: 97 :: 36 :: (48 + c.toNat / 10 % 10) :: (48 + c.toNat % 10) :: 36 ::
        encode password := rfl
  rw [e]
  have hl := length_encode password
  simp only [libs, CompareHashAndPassword, List.length_cons, List.headD_cons, List.drop_succ_cons,
    List.drop_zero]
  have hne2 : ¬ encode password = encode other :=
    fun h => hne (encode_injective _ _ h).symm
  simp [hne2]
  omega

/-- The keyed sample package writes the encoding of the bcrypt package. -/
theorem keyedLibs_GeneratesEncoded : keyedLibs.GeneratesEncoded :=
  fun entropy password cost h hg => libs_GeneratesEncoded entropy (bcryptKey password) cost h hg

/-- The keyed sample package accepts the password it hashed. -/
theorem keyedLibs_AcceptsOwn : keyedLibs.AcceptsOwn := by
  intro entropy password cost h hg
  have hg2 : libs.GenerateFromPassword entropy (bcryptKey password) cost = .ok h := hg
  show CompareKeyed h password = none
  unfold CompareKeyed
  rw [(Cost_generated entropy (bcryptKey password) h cost hg2).1]
  exact libs_AcceptsOwn entropy (bcryptKey password) cost h hg2

/-- The keyed sample package looks at the key of the password only. -/
theorem keyedLibs_ReadsKey : keyedLibs.ReadsKey := by
  intro h p q hk
  show CompareKeyed h p = CompareKeyed h q
  unfold CompareKeyed
  rw [hk]

end sample

/-! ## A password that bcrypt does not tell apart -/

/-- Against C4: `extended` is `hunter2`, the empty digest, a NUL byte and `hunter2` again, an
extension of `hunter2` and different from it. With the sample package that reads its key as
bcrypt does, `HashPassword` of `hunter2` succeeds, the hash is loaded as a bcrypt hash, and
comparing `extended` with it returns `(true, nil)`, not `(false, nil)`. -/
theorem extension_is_accepted :
    sample.hunter2 <+: sample.extended ∧ sample.extended ≠ sample.hunter2 ∧
    (HashPassword sample.keyedLibs sample.globals sample.background sample.settings []
      sample.hunter2).map Prod.fst = some (.ok sample.keyedHash) ∧
    LoadPasswordHash sample.keyedHash = some (.bcryptHash sample.keyedHash) ∧
    (CompareHashAndCleartextPassword sample.keyedLibs sample.globals sample.background
      (.bcryptHash sample.keyedHash) sample.extended).map Prod.fst = some (true, none) := by
  have hgen : sample.keyedLibs.GenerateFromPassword [] (appendEmptySha256 sample.hunter2)
      sample.settings.BcryptCost = .ok sample.keyedHash := rfl
  refine ⟨⟨sha256NewSum ++ [0] ++ sample.hunter2, ?_⟩, ?_, ?_, ?_, ?_⟩
  · unfold sample.extended appendEmptySha256
    simp
  · intro h
    have hl := congrArg List.length h
    unfold sample.extended appendEmptySha256 at hl
    simp only [List.length_append, List.length_singleton] at hl
    omega
  · rw [HashPassword_acquired sample.keyedLibs sample.globals sample.background sample.settings
      [] sample.hunter2 _ sample.acquire_globals, hgen]
    rfl
  · exact LoadPasswordHash_of_isBcryptHash _
      (isBcryptHash_of_encoded _ (sample.keyedLibs_GeneratesEncoded _ _ _ _ hgen))
  · unfold CompareHashAndCleartextPassword PasswordHash.compareWithCleartextPassword
    simp only
    rw [bcryptHash_compare_acquired sample.keyedLibs sample.globals _ sample.background
      sample.extended _ sample.acquire_globals]
    have hc := compare_extension sample.keyedLibs sample.keyedLibs_AcceptsOwn
      sample.keyedLibs_ReadsKey [] sample.hunter2 _ _ hgen
    unfold sample.extended
    rw [hc]
    rfl

/-- C4, amended: for every pair of cleartext passwords `p` and `q`, the hash `h` of
`HashPassword(p)` is loaded as a bcrypt hash, and comparing `q` with it returns `(false, nil)`
whenever the bcrypt package reports a mismatch for `q` followed by the empty digest: a mismatch
is a false result and never an error. The package does not report a mismatch for every `q`
other than `p`: when it accepts the password it hashed and reads its key (cleartext, digest and
a NUL byte, cyclically over 72 bytes), the extension `p`, digest, NUL, `p` of `p` is accepted
with `(true, nil)`. -/
theorem bcrypt_mismatch_is_false_nil (lib : Libs) (hfmt : lib.GeneratesEncoded)
    (g g1 g2 : Globals) (ctx ctx2 : Context) (sv : Values) (entropy p q h : List Byte)
    (held : IntPool)
    (hhash : HashPassword lib g ctx sv entropy p = some (.ok h, g1))
    (hacq : (getExpensiveHashComputeSem g2).2.Acquire ctx2 = some (.ok held)) :
    LoadPasswordHash h = some (.bcryptHash h) ∧
    (lib.CompareHashAndPassword h (appendEmptySha256 q) =
        some .ErrMismatchedHashAndPassword →
      CompareHashAndCleartextPassword lib g2 ctx2 (.bcryptHash h) q =
        some ((false, none), (getExpensiveHashComputeSem g2).1.setSem held.Release)) ∧
    (lib.AcceptsOwn → lib.ReadsKey → q = appendEmptySha256 p ++ [0] ++ p →
      CompareHashAndCleartextPassword lib g2 ctx2 (.bcryptHash h) q =
        some ((true, none), (getExpensiveHashComputeSem g2).1.setSem held.Release)) := by
  have hgen := HashPassword_ok lib g g1 ctx sv entropy p h hhash
  refine ⟨LoadPasswordHash_of_isBcryptHash h (isBcryptHash_of_encoded h (hfmt _ _ _ _ hgen)),
    fun hmis => ?_, fun hacc hkey hq => ?_⟩
  · unfold CompareHashAndCleartextPassword PasswordHash.compareWithCleartextPassword
    simp only
    rw [bcryptHash_compare_acquired lib g2 h ctx2 q held hacq, hmis]
    rfl
  · unfold CompareHashAndCleartextPassword PasswordHash.compareWithCleartextPassword
    simp only
    rw [bcryptHash_compare_acquired lib g2 h ctx2 q held hacq, hq,
      compare_extension lib hacc hkey entropy p h _ hgen]

/-- The password `hunter` against the hash of `hunter2`, with the sample package, which reports
a mismatch. -/
theorem bcrypt_mismatch_is_false_nil_witness :
    sample.libs.CompareHashAndPassword sample.hunter2Hash (appendEmptySha256 sample.hunter) =
      some .ErrMismatchedHashAndPassword ∧
    LoadPasswordHash sample.hunter2Hash = some (.bcryptHash sample.hunter2Hash) ∧
    CompareHashAndCleartextPassword sample.libs sample.globals sample.background
        (.bcryptHash sample.hunter2Hash) sample.hunter =
      some ((false, none), (getExpensiveHashComputeSem sample.globals).1.setSem
        (IntPool.Release { capacity := 1, available := 0 })) :=
  have hmis : sample.libs.CompareHashAndPassword sample.hunter2Hash
      (appendEmptySha256 sample.hunter) = some .ErrMismatchedHashAndPassword :=
    sample.libs_mismatch [] (appendEmptySha256 sample.hunter2)
      (appendEmptySha256 sample.hunter) sample.hunter2Hash 4 rfl
      (fun e => absurd (appendEmptySha256_injective _ _ e) (by decide))
  have h := bcrypt_mismatch_is_false_nil sample.libs sample.libs_GeneratesEncoded
    sample.globals _ sample.globals sample.background sample.background sample.settings []
    sample.hunter2 sample.hunter sample.hunter2Hash _ sample.HashPassword_hunter2
    sample.acquire_globals
  ⟨hmis, h.1, h.2.1 hmis⟩

/-! ## The bcrypt cost -/

/-- Against C29: the cost 3 is refused by the validation function, yet `HashPassword` with
settings that hold the cost 3 hands it to the bcrypt package and returns a hash; the sample
package, as bcrypt does, replaces a cost below `MinCost` by the default cost, and the hash has
the cost 10. -/
theorem HashPassword_cost_3 :
    BcryptCostValidate sample.settingsCost3.BcryptCost = some (.InvalidCostError 3) ∧
    (HashPassword sample.libs sample.globals sample.background sample.settingsCost3 []
      sample.hunter2).map Prod.fst = some (.ok sample.cost3Hash) ∧
    sample.Cost sample.cost3Hash = .ok 10 := by
  have hgen : sample.libs.GenerateFromPassword [] (appendEmptySha256 sample.hunter2)
      sample.settingsCost3.BcryptCost = .ok sample.cost3Hash := rfl
  have hgen3 : sample.libs.GenerateFromPassword [] (appendEmptySha256 sample.hunter2) 3 =
      .ok sample.cost3Hash := rfl
  have hc := (sample.Cost_generated [] (appendEmptySha256 sample.hunter2) sample.cost3Hash 3
    hgen3).1
  rw [if_pos (by decide)] at hc
  refine ⟨by decide, ?_, hc⟩
  rw [HashPassword_acquired sample.libs sample.globals sample.background sample.settingsCost3
    [] sample.hunter2 _ sample.acquire_globals, hgen]
  rfl

/-- C29, amended: the validation function of the setting `BcryptCost` returns the invalid-cost
error exactly for the integers `i < 4` and `i > 31`, and nil for every `i` with `4 ≤ i ≤ 31`;
`HashPassword` does not check the cost: once the permit is acquired it hands the configured
cost, whatever it is, to the generation function of the bcrypt package. -/
theorem BcryptCost_checked_by_validation_only (i : Int) (lib : Libs) (g : Globals)
    (ctx : Context) (sv : Values) (entropy password : List Byte) :
    (BcryptCostValidate i = some (.InvalidCostError i) ↔ i < 4 ∨ i > 31) ∧
    (BcryptCostValidate i = none ↔ 4 ≤ i ∧ i ≤ 31) ∧
    (∀ held, (getExpensiveHashComputeSem g).2.Acquire ctx = some (.ok held) →
      HashPassword lib g ctx sv entropy password =
        some (lib.GenerateFromPassword entropy (appendEmptySha256 password) sv.BcryptCost,
          (getExpensiveHashComputeSem g).1.setSem held.Release)) := by
  refine ⟨?_, ?_, fun held hacq => HashPassword_acquired lib g ctx sv entropy password held hacq⟩
  · unfold BcryptCostValidate bcryptMinCost bcryptMaxCost
    split_ifs with h
    · simp only [true_iff]; exact h
    · simp only [reduceCtorEq, false_iff]; exact h
  · unfold BcryptCostValidate bcryptMinCost bcryptMaxCost
    split_ifs with h
    · simp only [reduceCtorEq, false_iff]; omega
    · simp only [true_iff]; omega

/-- The costs 3 and 32 are refused and the costs 4 and 31 accepted by the validation; with the
cost 4 configured `HashPassword` hands 4 to the bcrypt package. -/
theorem BcryptCost_checked_by_validation_only_witness :
    BcryptCostValidate 3 = some (.InvalidCostError 3) ∧
    BcryptCostValidate 32 = some (.InvalidCostError 32) ∧
    BcryptCostValidate 4 = none ∧ BcryptCostValidate 31 = none ∧
    HashPassword sample.libs sample.globals sample.background sample.settings []
        sample.hunter2 =
      some (sample.libs.GenerateFromPassword [] (appendEmptySha256 sample.hunter2) 4,
        (getExpensiveHashComputeSem sample.globals).1.setSem
          (IntPool.Release { capacity := 1, available := 0 })) :=
  ⟨(BcryptCost_checked_by_validation_only 3 sample.libs sample.globals sample.background
      sample.settings [] sample.hunter2).1.2 (Or.inl (by decide)),
    (BcryptCost_checked_by_validation_only 32 sample.libs sample.globals sample.background
      sample.settings [] sample.hunter2).1.2 (Or.inr (by decide)),
    (BcryptCost_checked_by_validation_only 4 sample.libs sample.globals sample.background
      sample.settings [] sample.hunter2).2.1.2 ⟨by decide, by decide⟩,
    (BcryptCost_checked_by_validation_only 31 sample.libs sample.globals sample.background
      sample.settings [] sample.hunter2).2.1.2 ⟨by decide, by decide⟩,
    (BcryptCost_checked_by_validation_only 4 sample.libs sample.globals sample.background
      sample.settings [] sample.hunter2).2.2 _ sample.acquire_globals⟩

/-! ## The permit is held while the hash is computed -/

/-- What a call that goes through acquisition, computation and release leaves of the permits:
`after` is what the call leaves, `during` the package state while the hash is computed. -/
theorem traced_permits (g : Globals) (ctx : Context)
    (hwf : availablePermits g ≤ (getExpensiveHashComputeSem g).2.capacity)
    (during : Option Globals) (after : Globals)
    (h : (∃ e, (getExpensiveHashComputeSem g).2.Acquire ctx = some (.error e) ∧
          during = none ∧ after = (getExpensiveHashComputeSem g).1) ∨
        (∃ held, (getExpensiveHashComputeSem g).2.Acquire ctx = some (.ok held) ∧
          during = some ((getExpensiveHashComputeSem g).1.setSem held) ∧
          after = (getExpensiveHashComputeSem g).1.setSem held.Release)) :
    availablePermits after = availablePermits g ∧
    (∀ gd, during = some gd → availablePermits gd + 1 = availablePermits g) ∧
    (during = none ↔ ∃ e, (getExpensiveHashComputeSem g).2.Acquire ctx = some (.error e)) := by
  rcases h with ⟨e, hacq, rfl, rfl⟩ | ⟨held, hacq, rfl, rfl⟩
  · refine ⟨availablePermits_fst g, ?_, fun _ => ⟨e, hacq⟩, fun _ => rfl⟩
    intro gd hgd
    cases hgd
  · obtain ⟨h1, -, h3⟩ := Release_of_Acquire _ held ctx hwf hacq
    refine ⟨?_, ?_, ?_, ?_⟩
    · rw [availablePermits_setSem, h3]
      rfl
    · intro gd hgd
      cases hgd
      rw [availablePermits_setSem]
      exact h1
    · intro hn
      cases hn
    · rintro ⟨e, he⟩
      rw [hacq] at he
      cases he

/-- The instrumented bcrypt verifier, by the result of the acquisition. -/
theorem bcryptHash_compareTraced_cases (lib : Libs) (g : Globals) (b : List Byte)
    (ctx : Context) (cleartext : List Byte) (t : Traced CompareResult)
    (h : bcryptHash.compareTraced lib g b ctx cleartext = some t) :
    (∃ e, (getExpensiveHashComputeSem g).2.Acquire ctx = some (.error e) ∧
      t.during = none ∧ t.after = (getExpensiveHashComputeSem g).1) ∨
    (∃ held, (getExpensiveHashComputeSem g).2.Acquire ctx = some (.ok held) ∧
      t.during = some ((getExpensiveHashComputeSem g).1.setSem held) ∧
      t.after = (getExpensiveHashComputeSem g).1.setSem held.Release) := by
  unfold bcryptHash.compareTraced at h
  cases hacq : (getExpensiveHashComputeSem g).2.Acquire ctx with
  | none => simp only [hacq] at h; cases h
  | some res =>
    cases res with
    | error e =>
      simp only [hacq, Option.some.injEq] at h
      subst h
      exact Or.inl ⟨e, rfl, rfl, rfl⟩
    | ok held =>
      simp only [hacq, Option.some.injEq] at h
      subst h
      exact Or.inr ⟨held, rfl, rfl, rfl⟩

/-- The instrumented SCRAM verifier, by the result of the acquisition. -/
theorem ScramHash_compareTraced_cases (lib : Libs) (g : Globals) (decoded : StoredCredentials)
    (ctx : Context) (cleartext : List Byte) (t : Traced CompareResult)
    (h : ScramHash.compareTraced lib g decoded ctx cleartext = some t) :
    (∃ e, (getExpensiveHashComputeSem g).2.Acquire ctx = some (.error e) ∧
      t.during = none ∧ t.after = (getExpensiveHashComputeSem g).1) ∨
    (∃ held, (getExpensiveHashComputeSem g).2.Acquire ctx = some (.ok held) ∧
      t.during = some ((getExpensiveHashComputeSem g).1.setSem held) ∧
      t.after = (getExpensiveHashComputeSem g).1.setSem held.Release) := by
  unfold ScramHash.compareTraced at h
  cases hacq : (getExpensiveHashComputeSem g).2.Acquire ctx with
  | none => simp only [hacq] at h; cases h
  | some res =>
    cases res with
    | error e =>
      simp only [hacq, Option.some.injEq] at h
      subst h
      exact Or.inl ⟨e, rfl, rfl, rfl⟩
    | ok held =>
      simp only [hacq, Option.some.injEq] at h
      subst h
      exact Or.inr ⟨held, rfl, rfl, rfl⟩

/-- The instrumented `HashPassword`, by the result of the acquisition. -/
theorem HashPasswordTraced_cases (lib : Libs) (g : Globals) (ctx : Context) (sv : Values)
    (entropy password : List Byte) (t : Traced (Except GoError (List Byte)))
    (h : HashPasswordTraced lib g ctx sv entropy password = some t) :
    (∃ e, (getExpensiveHashComputeSem g).2.Acquire ctx = some (.error e) ∧
      t.during = none ∧ t.after = (getExpensiveHashComputeSem g).1) ∨
    (∃ held, (getExpensiveHashComputeSem g).2.Acquire ctx = some (.ok held) ∧
      t.during = some ((getExpensiveHashComputeSem g).1.setSem held) ∧
      t.after = (getExpensiveHashComputeSem g).1.setSem held.Release) := by
  unfold HashPasswordTraced at h
  cases hacq : (getExpensiveHashComputeSem g).2.Acquire ctx with
  | none => simp only [hacq] at h; cases h
  | some res =>
    cases res with
    | error e =>
      simp only [hacq, Option.some.injEq] at h
      subst h
      exact Or.inl ⟨e, rfl, rfl, rfl⟩
    | ok held =>
      simp only [hacq, Option.some.injEq] at h
      subst h
      exact Or.inr ⟨held, rfl, rfl, rfl⟩

/-- The bcrypt verifier is its instrumented form without the trace. -/
theorem bcryptHash_compare_eq_traced (lib : Libs) (g : Globals) (b : List Byte)
    (ctx : Context) (cleartext : List Byte) :
    bcryptHash.compareWithCleartextPassword lib g b ctx cleartext =
      (bcryptHash.compareTraced lib g b ctx cleartext).map (fun t => (t.result, t.after)) := by
  unfold bcryptHash.compareWithCleartextPassword bcryptHash.compareTraced
  cases hacq : (getExpensiveHashComputeSem g).2.Acquire ctx with
  | none => simp only [hacq, Option.map_none']
  | some res =>
    cases res with
    | error e => simp only [hacq, Option.map_some']
    | ok held => simp only [hacq, Option.map_some']

/-- The SCRAM verifier is its instrumented form without the trace. -/
theorem ScramHash_compare_eq_traced (lib : Libs) (g : Globals) (decoded : StoredCredentials)
    (ctx : Context) (cleartext : List Byte) :
    ScramHash.compareWithCleartextPassword lib g decoded ctx cleartext =
      (ScramHash.compareTraced lib g decoded ctx cleartext).map
        (fun t => (t.result, t.after)) := by
  unfold ScramHash.compareWithCleartextPassword ScramHash.compareTraced
  cases hacq : (getExpensiveHashComputeSem g).2.Acquire ctx with
  | none => simp only [hacq, Option.map_none']
  | some res =>
    cases res with
    | error e => simp only [hacq, Option.map_some']
    | ok held => simp only [hacq, Option.map_some']

/-- The function `HashPassword` is its instrumented form without the trace. -/
theorem HashPassword_eq_traced (lib : Libs) (g : Globals) (ctx : Context) (sv : Values)
    (entropy password : List Byte) :
    HashPassword lib g ctx sv entropy password =
      (HashPasswordTraced lib g ctx sv entropy password).map
        (fun t => (t.result, t.after)) := by
  unfold HashPassword HashPasswordTraced
  cases hacq : (getExpensiveHashComputeSem g).2.Acquire ctx with
  | none => simp only [hacq, Option.map_none']
  | some res =>
    cases res with
    | error e => simp only [hacq, Option.map_some']
    | ok held => simp only [hacq, Option.map_some']

/-- C28: with the semaphore as a count of free permits, not above its capacity. The bcrypt
verifier, the SCRAM verifier and `HashPassword` are their instrumented forms without the trace,
and for every call that returns (match, mismatch, error of a package, failed acquisition): the
number of free permits after the call is what it was before; while the hash is computed the
number of free permits is one less than before the call, so one permit is held; and the call
returns without computing a hash exactly when the acquisition failed. -/
theorem permit_held_while_computing (lib : Libs) (g : Globals) (ctx : Context)
    (hwf : availablePermits g ≤ (getExpensiveHashComputeSem g).2.capacity) :
    (∀ b cleartext,
      bcryptHash.compareWithCleartextPassword lib g b ctx cleartext =
        (bcryptHash.compareTraced lib g b ctx cleartext).map (fun t => (t.result, t.after)) ∧
      ∀ t, bcryptHash.compareTraced lib g b ctx cleartext = some t →
        availablePermits t.after = availablePermits g ∧
        (∀ gd, t.during = some gd → availablePermits gd + 1 = availablePermits g) ∧
        (t.during = none ↔
          ∃ e, (getExpensiveHashComputeSem g).2.Acquire ctx = some (.error e))) ∧
    (∀ decoded cleartext,
      ScramHash.compareWithCleartextPassword lib g decoded ctx cleartext =
        (ScramHash.compareTraced lib g decoded ctx cleartext).map
          (fun t => (t.result, t.after)) ∧
      ∀ t, ScramHash.compareTraced lib g decoded ctx cleartext = some t →
        availablePermits t.after = availablePermits g ∧
        (∀ gd, t.during = some gd → availablePermits gd + 1 = availablePermits g) ∧
        (t.during = none ↔
          ∃ e, (getExpensiveHashComputeSem g).2.Acquire ctx = some (.error e))) ∧
    (∀ sv entropy password,
      HashPassword lib g ctx sv entropy password =
        (HashPasswordTraced lib g ctx sv entropy password).map
          (fun t => (t.result, t.after)) ∧
      ∀ t, HashPasswordTraced lib g ctx sv entropy password = some t →
        availablePermits t.after = availablePermits g ∧
        (∀ gd, t.during = some gd → availablePermits gd + 1 = availablePermits g) ∧
        (t.during = none ↔
          ∃ e, (getExpensiveHashComputeSem g).2.Acquire ctx = some (.error e))) :=
  ⟨fun b cleartext => ⟨bcryptHash_compare_eq_traced lib g b ctx cleartext, fun t h =>
      traced_permits g ctx hwf _ _ (bcryptHash_compareTraced_cases lib g b ctx cleartext t h)⟩,
    fun decoded cleartext => ⟨ScramHash_compare_eq_traced lib g decoded ctx cleartext,
      fun t h => traced_permits g ctx hwf _ _
        (ScramHash_compareTraced_cases lib g decoded ctx cleartext t h)⟩,
    fun sv entropy password => ⟨HashPassword_eq_traced lib g ctx sv entropy password,
      fun t h => traced_permits g ctx hwf _ _
        (HashPasswordTraced_cases lib g ctx sv entropy password t h)⟩⟩

/-- A process that has not hashed yet: the semaphore is created with one permit; the bcrypt
verifier computes with no permit left and gives the permit back. -/
theorem permit_held_while_computing_witness :
    availablePermits sample.globals = 1 ∧
    (∃ t, bcryptHash.compareTraced sample.libs sample.globals sample.storedHash
        sample.background sample.hunter2 = some t ∧
      t.during.map availablePermits = some 0 ∧ availablePermits t.after = 1) ∧
    ∀ t, bcryptHash.compareTraced sample.libs sample.globals sample.storedHash
        sample.background sample.hunter2 = some t →
      availablePermits t.after = availablePermits sample.globals ∧
      (∀ gd, t.during = some gd → availablePermits gd + 1 = availablePermits sample.globals) ∧
      (t.during = none ↔
        ∃ e, (getExpensiveHashComputeSem sample.globals).2.Acquire sample.background =
          some (.error e)) :=
  ⟨by decide, ⟨_, rfl, rfl, rfl⟩,
    ((permit_held_while_computing sample.libs sample.globals sample.background
      (by decide)).1 sample.storedHash sample.hunter2).2⟩

/-! ## Calls that run at the same time -/

/-- The semaphore that exists is the one `getExpensiveHashComputeSem` returns. -/
theorem getExpensiveHashComputeSem_of_some (g : Globals) (sem : IntPool)
    (h : g.expensiveHashComputeSemOnce = some sem) :
    getExpensiveHashComputeSem g = (g, sem) := by
  unfold getExpensiveHashComputeSem
  rw [h]

/-- The number of computing calls after the phase of one call changed. -/
theorem count_computing_set (l : List Phase) (i : Nat) (a b : Phase)
    (hi : l[i]? = some a) :
    (l.set i b).count .computing + (if a = .computing then 1 else 0) =
      l.count .computing + (if b = .computing then 1 else 0) := by
  induction l generalizing i with
  | nil => simp at hi
  | cons x xs ih =>
    cases i with
    | zero =>
      simp only [List.getElem?_cons_zero, Option.some.injEq] at hi
      subst hi
      simp only [List.set_cons_zero, List.count_cons, beq_iff_eq]
      split_ifs <;> simp_all
    | succ j =>
      simp only [List.getElem?_cons_succ] at hi
      have := ih j hi
      simp only [List.set_cons_succ, List.count_cons]
      omega

/-- What the steps keep: before the first call there is no semaphore and no call; afterwards
the semaphore has the capacity `n` and its free permits and the computing calls add up to
`n`. -/
theorem step_keeps (n : Nat) (s s1 : Server) (e : Event)
    (hinv : (s.g.expensiveHashComputeSemOnce = none ∧ s.calls = [] ∧
        (hashComputeConcurrency s.g).toNat = n) ∨
      ∃ sem, s.g.expensiveHashComputeSemOnce = some sem ∧ sem.capacity = n ∧
        sem.available + s.computing = n)
    (hstep : s.step e = some s1) :
    (s1.g.expensiveHashComputeSemOnce = none ∧ s1.calls = [] ∧
        (hashComputeConcurrency s1.g).toNat = n) ∨
      ∃ sem, s1.g.expensiveHashComputeSemOnce = some sem ∧ sem.capacity = n ∧
        sem.available + s1.computing = n := by
  right
  cases e with
  | call =>
    simp only [Server.step, Option.some.injEq] at hstep
    subst hstep
    rcases hinv with ⟨hnone, hcalls, hn⟩ | ⟨sem, hsome, hcap, hsum⟩
    · rw [getExpensiveHashComputeSem_first s.g hnone]
      refine ⟨NewIntPool (hashComputeConcurrency s.g).toNat, rfl, hn, ?_⟩
      simp only [Server.computing, hcalls, NewIntPool, List.nil_append, List.count_cons,
        List.count_nil]
      simpa using hn
    · rw [getExpensiveHashComputeSem_of_some s.g sem hsome]
      refine ⟨sem, hsome, hcap, ?_⟩
      simp only [Server.computing, List.count_append, List.count_cons, List.count_nil] at hsum ⊢
      simpa using hsum
  | acquire i ctx =>
    simp only [Server.step] at hstep
    split_ifs at hstep with hi
    rcases hinv with ⟨-, hcalls, -⟩ | ⟨sem, hsome, hcap, hsum⟩
    · rw [hcalls] at hi
      simp at hi
    · rw [getExpensiveHashComputeSem_of_some s.g sem hsome] at hstep
      have hcount := count_computing_set s.calls i .waiting
      cases hacq : sem.Acquire ctx with
      | none => simp only [hacq] at hstep; cases hstep
      | some res =>
        cases res with
        | error err =>
          simp only [hacq, Option.some.injEq] at hstep
          subst hstep
          refine ⟨sem, hsome, hcap, ?_⟩
          have := hcount .returned hi
          simp only [Server.computing] at hsum ⊢
          simp only [reduceCtorEq, if_false, Nat.add_zero] at this
          omega
        | ok held =>
          simp only [hacq, Option.some.injEq] at hstep
          subst hstep
          have hheld : 1 ≤ sem.available ∧
              held = { sem with available := sem.available - 1 } := by
            unfold IntPool.Acquire at hacq
            by_cases h1 : 1 ≤ sem.available
            · rw [if_pos h1] at hacq
              simp only [Option.some.injEq, Except.ok.injEq] at hacq
              exact ⟨h1, hacq.symm⟩
            · rw [if_neg h1] at hacq
              cases hc : ctx.err with
              | none => rw [hc] at hacq; cases hacq
              | some e => rw [hc] at hacq; cases hacq
          refine ⟨held, rfl, ?_, ?_⟩
          · rw [hheld.2]
            exact hcap
          · have := hcount .computing hi
            simp only [Server.computing] at hsum ⊢
            simp only [reduceCtorEq, if_false, Nat.add_zero, if_true] at this
            rw [hheld.2]
            simp only
            omega
  | release i =>
    simp only [Server.step] at hstep
    split_ifs at hstep with hi
    rcases hinv with ⟨-, hcalls, -⟩ | ⟨sem, hsome, hcap, hsum⟩
    · rw [hcalls] at hi
      simp at hi
    · rw [getExpensiveHashComputeSem_of_some s.g sem hsome] at hstep
      simp only [Option.some.injEq] at hstep
      subst hstep
      have := count_computing_set s.calls i .computing .returned hi
      simp only [reduceCtorEq, if_false, Nat.add_zero, if_true] at this
      refine ⟨sem.Release, rfl, (show sem.Release.capacity = n from hcap), ?_⟩
      simp only [Server.computing, IntPool.Release] at hsum ⊢
      omega

/-- What the steps keep holds after every sequence of steps. -/
theorem run_keeps (n : Nat) (events : List Event) (s s1 : Server)
    (hinv : (s.g.expensiveHashComputeSemOnce = none ∧ s.calls = [] ∧
        (hashComputeConcurrency s.g).toNat = n) ∨
      ∃ sem, s.g.expensiveHashComputeSemOnce = some sem ∧ sem.capacity = n ∧
        sem.available + s.computing = n)
    (hrun : s.run events = some s1) :
    (s1.g.expensiveHashComputeSemOnce = none ∧ s1.calls = [] ∧
        (hashComputeConcurrency s1.g).toNat = n) ∨
      ∃ sem, s1.g.expensiveHashComputeSemOnce = some sem ∧ sem.capacity = n ∧
        sem.available + s1.computing = n := by
  induction events generalizing s with
  | nil =>
    simp only [Server.run, Option.some.injEq] at hrun
    subst hrun
    exact hinv
  | cons e es ih =>
    simp only [Server.run] at hrun
    cases hstep : s.step e with
    | none => rw [hstep] at hrun; cases hrun
    | some s2 =>
      rw [hstep] at hrun
      exact ih s2 (step_keeps n s s2 e hinv hstep) hrun

/-- C30: in a process that starts without the semaphore, after every interleaving of the steps
of any number of calls (obtaining the semaphore, acquiring a permit, computing, releasing), the
number of calls that compute a hash is at most the capacity `n` computed on first use; the
semaphore, once created, keeps the capacity `n`, and its free permits and the computing calls
add up to `n`. -/
theorem computing_at_most_capacity (g0 : Globals) (events : List Event) (s : Server)
    (hfirst : g0.expensiveHashComputeSemOnce = none)
    (hrun : (Server.mk g0 []).run events = some s) :
    s.computing ≤ (hashComputeConcurrency g0).toNat ∧
    ∀ sem, s.g.expensiveHashComputeSemOnce = some sem →
      sem.capacity = (hashComputeConcurrency g0).toNat ∧
      sem.available + s.computing = sem.capacity := by
  have h := run_keeps (hashComputeConcurrency g0).toNat events (Server.mk g0 []) s
    (Or.inl ⟨hfirst, rfl, rfl⟩) hrun
  rcases h with ⟨hnone, hcalls, -⟩ | ⟨sem, hsome, hcap, hsum⟩
  · refine ⟨?_, fun sem hs => ?_⟩
    · simp [Server.computing, hcalls]
    · rw [hnone] at hs
      cases hs
  · refine ⟨by omega, fun sem2 hs => ?_⟩
    rw [hsome] at hs
    cases hs
    exact ⟨hcap, by omega⟩

/-- With eight processors the capacity is 1: of two calls, one acquires the permit and
computes; the other one cannot acquire (it waits) until the first has released, and a third
one whose context is cancelled returns. -/
theorem computing_at_most_capacity_witness :
    ((Server.mk sample.globals []).run
      [.call, .call, .acquire 0 sample.background]).map Server.computing = some 1 ∧
    (Server.mk sample.globals []).run
      [.call, .call, .acquire 0 sample.background, .acquire 1 sample.background] = none ∧
    ((Server.mk sample.globals []).run
      [.call, .call, .acquire 0 sample.background, .release 0,
        .acquire 1 sample.background]).map Server.computing = some 1 ∧
    ∀ s, (Server.mk sample.globals []).run
        [.call, .call, .acquire 0 sample.background, .acquire 1 sample.cancelled] = some s →
      s.computing ≤ (hashComputeConcurrency sample.globals).toNat ∧
      ∀ sem, s.g.expensiveHashComputeSemOnce = some sem →
        sem.capacity = (hashComputeConcurrency sample.globals).toNat ∧
        sem.available + s.computing = sem.capacity :=
  ⟨by decide, by decide, by decide, fun s hs =>
    computing_at_most_capacity sample.globals _ s rfl hs⟩

/-! ## The submatches of the SCRAM pattern -/

/-- The run of the empty pattern. -/
theorem re.exec_nil (rest : List Byte) (pos : Nat) (caps : List Nat) :
    re.exec [] rest pos caps = if rest = [] then some caps else none := by
  rw [re.exec]

/-- The run of a literal on an input that starts with it. -/
theorem re.exec_lit (s : List Byte) (prog : List re.Inst) (rest : List Byte) (pos : Nat)
    (caps : List Nat) :
    re.exec (.lit s :: prog) (s ++ rest) pos caps = re.exec prog rest (pos + s.length) caps := by
  rw [re.exec]
  simp

/-- The run of a mark. -/
theorem re.exec_cap (k : Nat) (prog : List re.Inst) (rest : List Byte) (pos : Nat)
    (caps : List Nat) :
    re.exec (.cap k :: prog) rest pos caps = re.exec prog rest pos (caps.set k pos) := by
  rw [re.exec]

/-- A literal that matched is the start of the input. -/
theorem re.exec_lit_some (s : List Byte) (prog : List re.Inst) (rest : List Byte) (pos : Nat)
    (caps r : List Nat) (h : re.exec (.lit s :: prog) rest pos caps = some r) :
    ∃ rest1, rest = s ++ rest1 ∧ re.exec prog rest1 (pos + s.length) caps = some r := by
  rw [re.exec] at h
  by_cases hp : s.isPrefixOf rest = true
  · rw [if_pos hp] at h
    obtain ⟨t, rfl⟩ := List.isPrefixOf_iff_prefix.1 hp
    refine ⟨t, rfl, ?_⟩
    simpa using h
  · rw [if_neg hp] at h
    cases h

/-- The bytes before the end of the leading run of a class are in the class. -/
theorem take_of_le_takeWhile (p : Byte → Bool) (l : List Byte) (k : Nat)
    (hk : k ≤ (l.takeWhile p).length) : ∀ c ∈ l.take k, p c = true := by
  induction l generalizing k with
  | nil => simp
  | cons a l ih =>
    cases k with
    | zero => simp
    | succ k =>
      by_cases ha : p a = true
      · rw [List.takeWhile_cons_of_pos ha] at hk
        intro c hc
        rw [List.take_succ_cons, List.mem_cons] at hc
        rcases hc with rfl | hc
        · exact ha
        · exact ih k (by simpa using hk) c hc
      · rw [List.takeWhile_cons_of_neg ha] at hk
        simp at hk

/-- The leading run of a class is not longer than the input. -/
theorem takeWhile_length_le (p : Byte → Bool) (l : List Byte) :
    (l.takeWhile p).length ≤ l.length :=
  (List.takeWhile_prefix p).length_le

/-- What a repetition can take is within the leading run of its class and within `max`. -/
theorem re.longest_le (cls : List Byte) (max : Option Nat) (rest : List Byte) :
    re.longest cls max rest ≤ (rest.takeWhile (fun c => decide (c ∈ cls))).length ∧
      ∀ k, max = some k → re.longest cls max rest ≤ k := by
  unfold re.longest
  cases max with
  | none => exact ⟨le_refl _, fun k hk => by cases hk⟩
  | some m =>
    refine ⟨Nat.min_le_left _ _, fun k hk => ?_⟩
    cases hk
    exact Nat.min_le_right _ _

/-- A repetition that matched took between `min` and `max` bytes of its class. -/
theorem re.exec_rep_some (cls : List Byte) (min : Nat) (max : Option Nat) (prog : List re.Inst)
    (rest : List Byte) (pos : Nat) (caps r : List Nat)
    (h : re.exec (.rep cls min max :: prog) rest pos caps = some r) :
    ∃ t rest1, rest = t ++ rest1 ∧ (∀ c ∈ t, c ∈ cls) ∧ min ≤ t.length ∧
      (∀ k, max = some k → t.length ≤ k) ∧
      re.exec prog rest1 (pos + t.length) caps = some r := by
  rw [re.exec] at h
  obtain ⟨k, hk, hex⟩ := List.exists_of_findSome?_eq_some h
  simp only [re.counts, List.mem_map, List.mem_range] at hk
  obtain ⟨j, hj, rfl⟩ := hk
  have hl := re.longest_le cls max rest
  have hlen := takeWhile_length_le (fun c => decide (c ∈ cls)) rest
  have htake : (rest.take (re.longest cls max rest - j)).length =
      re.longest cls max rest - j := by
    rw [List.length_take]
    omega
  refine ⟨rest.take (re.longest cls max rest - j), rest.drop (re.longest cls max rest - j),
    (List.take_append_drop _ _).symm, ?_, ?_, ?_, ?_⟩
  · intro c hc
    have := take_of_le_takeWhile (fun c => decide (c ∈ cls)) rest _ (by omega) c hc
    simpa using this
  · rw [htake]; omega
  · intro m hm
    rw [htake]
    have := hl.2 m hm
    omega
  · rw [htake]
    exact hex

/-- What a repetition can take when the leading run of its class is `t`. -/
theorem re.longest_of_run (cls : List Byte) (max : Option Nat) (t rest : List Byte)
    (ht : ∀ c ∈ t, c ∈ cls) (hrest : ∀ c, rest.head? = some c → c ∉ cls)
    (hmax : ∀ k, max = some k → t.length ≤ k) :
    re.longest cls max (t ++ rest) = t.length := by
  have hrun : (t ++ rest).takeWhile (fun c => decide (c ∈ cls)) = t := by
    rw [List.takeWhile_append_of_pos (fun c hc => by simpa using ht c hc)]
    cases rest with
    | nil => simp
    | cons a rest =>
      rw [List.takeWhile_cons_of_neg (by simpa using hrest a rfl)]
      simp
  unfold re.longest
  simp only [hrun]
  cases max with
  | none => rfl
  | some m => exact Nat.min_eq_left (hmax m rfl)

/-- A repetition takes the whole leading run of its class when the rest of the pattern matches
what follows. -/
theorem re.exec_rep_greedy (cls : List Byte) (min : Nat) (max : Option Nat)
    (prog : List re.Inst) (t rest : List Byte) (pos : Nat) (caps r : List Nat)
    (ht : ∀ c ∈ t, c ∈ cls) (hrest : ∀ c, rest.head? = some c → c ∉ cls)
    (hmin : min ≤ t.length) (hmax : ∀ k, max = some k → t.length ≤ k)
    (h : re.exec prog rest (pos + t.length) caps = some r) :
    re.exec (.rep cls min max :: prog) (t ++ rest) pos caps = some r := by
  rw [re.exec, re.longest_of_run cls max t rest ht hrest hmax]
  have hc : re.counts t.length min =
      t.length :: (List.range (t.length - min)).map (fun j => t.length - (j + 1)) := by
    unfold re.counts
    have e : t.length + 1 - min = (t.length - min) + 1 := by omega
    rw [e, List.range_succ_eq_map]
    simp [Function.comp_def]
  rw [hc, List.findSome?_cons]
  simp only [List.drop_left, h]

/-- The number of submatches is one more than the number of groups of the pattern. -/
theorem re.FindSubmatch_length (prog : List re.Inst) (input : List Byte)
    (parts : List (List Byte)) (h : re.FindSubmatch prog input = some parts) :
    parts.length = 1 + re.groups prog := by
  unfold re.FindSubmatch at h
  split at h
  · cases h
  · simp only [Option.some.injEq] at h
    rw [← h, List.length_map, List.length_range]

/-- The SCRAM pattern has four groups. -/
theorem groups_scramProg : re.groups scramProg = 4 := by
  decide

/-- A string that the SCRAM pattern matches, with marks or without, is of the SCRAM grammar. -/
theorem scramGrammar_of_exec (b : List Byte) (pos : Nat) (caps r : List Nat)
    (h : re.exec scramProg b pos caps = some r) :
    ∃ iters salt storedKey serverKey, scramGrammar b iters salt storedKey serverKey := by
  unfold scramProg at h
  obtain ⟨r1, rfl, h1⟩ := re.exec_lit_some _ _ _ _ _ _ h
  rw [re.exec_cap] at h1
  obtain ⟨iters, r2, rfl, hiters, hine, -, h2⟩ := re.exec_rep_some _ _ _ _ _ _ _ _ h1
  rw [re.exec_cap] at h2
  obtain ⟨r3, rfl, h3⟩ := re.exec_lit_some _ _ _ _ _ _ h2
  rw [re.exec_cap] at h3
  obtain ⟨chars, r4, rfl, hchars, hcne, -, h4⟩ := re.exec_rep_some _ _ _ _ _ _ _ _ h3
  obtain ⟨pad, r5, rfl, hpad, -, -, h5⟩ := re.exec_rep_some _ _ _ _ _ _ _ _ h4
  rw [re.exec_cap] at h5
  obtain ⟨r6, rfl, h6⟩ := re.exec_lit_some _ _ _ _ _ _ h5
  rw [re.exec_cap] at h6
  obtain ⟨k1, r7, rfl, hk1, hk1min, hk1max, h7⟩ := re.exec_rep_some _ _ _ _ _ _ _ _ h6
  obtain ⟨r8, rfl, h8⟩ := re.exec_lit_some _ _ _ _ _ _ h7
  rw [re.exec_cap] at h8
  obtain ⟨r9, rfl, h9⟩ := re.exec_lit_some _ _ _ _ _ _ h8
  rw [re.exec_cap] at h9
  obtain ⟨k2, r10, rfl, hk2, hk2min, hk2max, h10⟩ := re.exec_rep_some _ _ _ _ _ _ _ _ h9
  obtain ⟨r11, rfl, h11⟩ := re.exec_lit_some _ _ _ _ _ _ h10
  rw [re.exec_cap, re.exec_nil] at h11
  have hnil : r11 = [] := by
    by_contra hne
    rw [if_neg hne] at h11
    cases h11
  subst hnil
  refine ⟨iters, chars ++ pad, k1 ++ [61], k2 ++ [61], by simp, ?_,
    fun c hc => (mem_digit_iff c).1 (hiters c hc),
    ⟨chars, pad, rfl, ?_, fun c hc => (mem_scramAlphabet_iff c).1 (hchars c hc),
      fun c hc => by simpa using hpad c hc⟩,
    ⟨k1, rfl, le_antisymm (hk1max 43 rfl) hk1min,
      fun c hc => (mem_scramAlphabet_iff c).1 (hk1 c hc)⟩,
    ⟨k2, rfl, le_antisymm (hk2max 43 rfl) hk2min,
      fun c hc => (mem_scramAlphabet_iff c).1 (hk2 c hc)⟩⟩
  · intro e
    rw [e] at hine
    simp at hine
  · intro e
    rw [e] at hcne
    simp at hcne

/-- The run of the SCRAM pattern on a string of the SCRAM grammar: the marks are at the ends of
the four fields. -/
theorem exec_scramProg (iters chars pad k1 k2 : List Byte) (caps : List Nat)
    (hine : iters ≠ []) (hiters : ∀ c ∈ iters, isDigit c)
    (hcne : chars ≠ []) (hchars : ∀ c ∈ chars, isBase64Char c) (hpad : ∀ c ∈ pad, c = 61)
    (hk1len : k1.length = 43) (hk1 : ∀ c ∈ k1, isBase64Char c)
    (hk2len : k2.length = 43) (hk2 : ∀ c ∈ k2, isBase64Char c) :
    re.exec scramProg (bytesOf "SCRAM-SHA-256$" ++ (iters ++ ([58] ++ (chars ++ (pad ++
      ([36] ++ (k1 ++ ([61] ++ ([58] ++ (k2 ++ ([61] ++ []))))))))))) 0 caps =
      some ((((((((caps.set 2 14).set 3 (14 + iters.length)).set 4
        (14 + iters.length + 1)).set 5 (14 + iters.length + 1 + chars.length + pad.length)).set 6
        (14 + iters.length + 1 + chars.length + pad.length + 1)).set 7
        (14 + iters.length + 1 + chars.length + pad.length + 1 + 44)).set 8
        (14 + iters.length + 1 + chars.length + pad.length + 1 + 44 + 1)).set 9
        (14 + iters.length + 1 + chars.length + pad.length + 1 + 44 + 1 + 44)) := by
  have hd : ∀ c, c ∈ iters → c ∈ re.digit := fun c hc => (mem_digit_iff c).2 (hiters c hc)
  have ha : ∀ l : List Byte, (∀ c ∈ l, isBase64Char c) → ∀ c ∈ l, c ∈ scramAlphabet :=
    fun l hl c hc => (mem_scramAlphabet_iff c).2 (hl c hc)
  have h61 : (61 : Byte) ∉ scramAlphabet := by
    rw [mem_scramAlphabet_iff]
    unfold isBase64Char isUpper isLower isDigit Byte
    omega
  have h36 : (36 : Byte) ∉ scramAlphabet := by
    rw [mem_scramAlphabet_iff]
    unfold isBase64Char isUpper isLower isDigit Byte
    omega
  have h58 : (58 : Byte) ∉ re.digit := by
    rw [mem_digit_iff]
    unfold isDigit Byte
    omega
  unfold scramProg
  rw [re.exec_lit, re.exec_cap]
  refine re.exec_rep_greedy _ _ _ _ _ _ _ _ _ hd ?_ ?_ ?_ ?_
  · intro c hc
    simp only [List.singleton_append, List.head?_cons, Option.some.injEq] at hc
    rw [← hc]; exact h58
  · cases iters with
    | nil => exact absurd rfl hine
    | cons a l => simp
  · intro k hk; cases hk
  rw [re.exec_cap, re.exec_lit, re.exec_cap]
  refine re.exec_rep_greedy _ _ _ _ _ _ _ _ _ (ha chars hchars) ?_ ?_ ?_ ?_
  · intro c hc
    cases pad with
    | nil =>
      simp only [List.nil_append, List.singleton_append, List.head?_cons,
        Option.some.injEq] at hc
      rw [← hc]; exact h36
    | cons a l =>
      simp only [List.cons_append, List.head?_cons, Option.some.injEq] at hc
      rw [← hc, hpad a (List.mem_cons_self _ _)]; exact h61
  · cases chars with
    | nil => exact absurd rfl hcne
    | cons a l => simp
  · intro k hk; cases hk
  refine re.exec_rep_greedy _ _ _ _ _ _ _ _ _ (fun c hc => by simpa using hpad c hc) ?_ ?_ ?_ ?_
  · intro c hc
    simp only [List.singleton_append, List.head?_cons, Option.some.injEq] at hc
    rw [← hc]; decide
  · exact Nat.zero_le _
  · intro k hk; cases hk
  rw [re.exec_cap, re.exec_lit, re.exec_cap]
  refine re.exec_rep_greedy _ _ _ _ _ _ _ _ _ (ha k1 hk1) ?_ ?_ ?_ ?_
  · intro c hc
    simp only [List.singleton_append, List.head?_cons, Option.some.injEq] at hc
    rw [← hc]; exact h61
  · omega
  · intro k hk; cases hk; omega
  rw [re.exec_lit, re.exec_cap, re.exec_lit, re.exec_cap]
  refine re.exec_rep_greedy _ _ _ _ _ _ _ _ _ (ha k2 hk2) ?_ ?_ ?_ ?_
  · intro c hc
    simp only [List.singleton_append, List.head?_cons, Option.some.injEq] at hc
    rw [← hc]; exact h61
  · omega
  · intro k hk; cases hk; omega
  rw [re.exec_lit, re.exec_cap, re.exec_nil, if_pos rfl]
  have e14 : (bytesOf "SCRAM-SHA-256$").length = 14 := rfl
  simp only [e14, hk1len, hk2len, List.length_singleton, Nat.zero_add]

/-- The part of a string between two positions. -/
theorem drop_take_mid (x y z : List Byte) (n m : Nat) (hn : n = x.length)
    (hm : m = y.length) : ((x ++ (y ++ z)).drop n).take m = y := by
  subst hn hm
  rw [List.drop_left, List.take_left]

/-- The submatches of the SCRAM pattern on a string of the SCRAM grammar are the string and its
four fields. -/
theorem FindSubmatch_scramProg_of_grammar (b iters salt storedKey serverKey : List Byte)
    (h : scramGrammar b iters salt storedKey serverKey) :
    re.FindSubmatch scramProg b = some [b, iters, salt, storedKey, serverKey] := by
  obtain ⟨hb, hine, hiters, ⟨chars, pad, rfl, hcne, hchars, hpad⟩, ⟨k1, rfl, hk1len, hk1⟩,
    ⟨k2, rfl, hk2len, hk2⟩⟩ := h
  have e : b = bytesOf "SCRAM-SHA-256$" ++ (iters ++ ([58] ++ (chars ++ (pad ++
      ([36] ++ (k1 ++ ([61] ++ ([58] ++ (k2 ++ ([61] ++ [])))))))))) := by
    rw [hb]
    simp only [List.append_assoc, List.append_nil]
  have hrep : List.replicate (2 * 4) (0 : Nat) = [0, 0, 0, 0, 0, 0, 0, 0] := rfl
  have hrange : List.range (1 + 4) = [0, 1, 2, 3, 4] := rfl
  have e14 : (bytesOf "SCRAM-SHA-256$").length = 14 := rfl
  have f1 : List.take (14 + iters.length - 14) (List.drop 14 (bytesOf "SCRAM-SHA-256$" ++
      (iters ++ ([58] ++ (chars ++ (pad ++ ([36] ++ (k1 ++ ([61] ++ ([58] ++ (k2 ++
        ([61] ++ []))))))))))) ) = iters :=
    drop_take_mid _ _ _ _ _ e14.symm (by omega)
  have f2 : List.take (14 + iters.length + 1 + chars.length + pad.length -
      (14 + iters.length + 1)) (List.drop (14 + iters.length + 1) (bytesOf "SCRAM-SHA-256$" ++
      (iters ++ ([58] ++ (chars ++ (pad ++ ([36] ++ (k1 ++ ([61] ++ ([58] ++ (k2 ++
        ([61] ++ []))))))))))) ) = chars ++ pad := by
    have e2 : bytesOf "SCRAM-SHA-256$" ++ (iters ++ ([58] ++ (chars ++ (pad ++ ([36] ++ (k1 ++
        ([61] ++ ([58] ++ (k2 ++ ([61] ++ []))))))))))  =
        (bytesOf "SCRAM-SHA-256$" ++ (iters ++ [58])) ++ ((chars ++ pad) ++ ([36] ++ (k1 ++
        ([61] ++ ([58] ++ (k2 ++ ([61] ++ []))))))) := by
      simp only [List.append_assoc]
    rw [e2]
    refine drop_take_mid _ _ _ _ _ ?_ ?_
    · simp only [List.length_append, List.length_singleton, e14]
      omega
    · simp only [List.length_append]
      omega
  have f3 : List.take (14 + iters.length + 1 + chars.length + pad.length + 1 + 44 -
      (14 + iters.length + 1 + chars.length + pad.length + 1))
      (List.drop (14 + iters.length + 1 + chars.length + pad.length + 1)
      (bytesOf "SCRAM-SHA-256$" ++
      (iters ++ ([58] ++ (chars ++ (pad ++ ([36] ++ (k1 ++ ([61] ++ ([58] ++ (k2 ++
        ([61] ++ []))))))))))) ) = k1 ++ [61] := by
    have e3 : bytesOf "SCRAM-SHA-256$" ++ (iters ++ ([58] ++ (chars ++ (pad ++ ([36] ++ (k1 ++
        ([61] ++ ([58] ++ (k2 ++ ([61] ++ []))))))))))  =
        (bytesOf "SCRAM-SHA-256$" ++ (iters ++ ([58] ++ (chars ++ (pad ++ [36]))))) ++
          ((k1 ++ [61]) ++ ([58] ++ (k2 ++ ([61] ++ [])))) := by
      simp only [List.append_assoc]
    rw [e3]
    refine drop_take_mid _ _ _ _ _ ?_ ?_
    · simp only [List.length_append, List.length_singleton, e14]
      omega
    · simp only [List.length_append, List.length_singleton, hk1len]
      omega
  have f4 : List.take (14 + iters.length + 1 + chars.length + pad.length + 1 + 44 + 1 + 44 -
      (14 + iters.length + 1 + chars.length + pad.length + 1 + 44 + 1))
      (List.drop (14 + iters.length + 1 + chars.length + pad.length + 1 + 44 + 1)
      (bytesOf "SCRAM-SHA-256$" ++
      (iters ++ ([58] ++ (chars ++ (pad ++ ([36] ++ (k1 ++ ([61] ++ ([58] ++ (k2 ++
        ([61] ++ []))))))))))) ) = k2 ++ [61] := by
    have e4 : bytesOf "SCRAM-SHA-256$" ++ (iters ++ ([58] ++ (chars ++ (pad ++ ([36] ++ (k1 ++
        ([61] ++ ([58] ++ (k2 ++ ([61] ++ []))))))))))  =
        (bytesOf "SCRAM-SHA-256$" ++ (iters ++ ([58] ++ (chars ++ (pad ++ ([36] ++ (k1 ++
          ([61] ++ [58])))))))) ++ ((k2 ++ [61]) ++ []) := by
      simp only [List.append_assoc, List.append_nil]
    rw [e4]
    refine drop_take_mid _ _ _ _ _ ?_ ?_
    · simp only [List.length_append, List.length_singleton, e14, hk1len]
      omega
    · simp only [List.length_append, List.length_singleton, hk2len]
      omega
  unfold re.FindSubmatch
  rw [groups_scramProg, hrep, hrange, e,
    exec_scramProg iters chars pad k1 k2 _ hine hiters hcne hchars hpad hk1len hk1 hk2len hk2]
  simp only [List.set_cons_succ, List.set_cons_zero, List.map_cons, List.map_nil,
    List.getD_cons_succ, List.getD_cons_zero, Nat.mul_zero]
  rw [f1, f2, f3, f4]
  simp only [List.getD_cons_zero, List.drop_zero, Nat.sub_zero, List.take_length]

/-- The function `isSCRAMHash` returns what `FindSubmatch` of the SCRAM pattern returns. -/
theorem isSCRAMHash_eq_FindSubmatch (b : List Byte) :
    (∀ parts, re.FindSubmatch scramProg b = some parts → isSCRAMHash b = (true, parts)) ∧
    (re.FindSubmatch scramProg b = none → isSCRAMHash b = (false, [])) := by
  constructor
  · intro parts hf
    have hg : ∃ iters salt storedKey serverKey,
        scramGrammar b iters salt storedKey serverKey := by
      unfold re.FindSubmatch at hf
      cases hex : re.exec scramProg b 0
          (0 :: b.length :: List.replicate (2 * re.groups scramProg) 0) with
      | none => rw [hex] at hf; cases hf
      | some caps => exact scramGrammar_of_exec b _ _ _ hex
    obtain ⟨i, s, k1, k2, hg⟩ := hg
    rw [FindSubmatch_scramProg_of_grammar b i s k1 k2 hg] at hf
    cases hf
    exact isSCRAMHash_of_grammar b i s k1 k2 hg
  · intro hf
    apply isSCRAMHash_of_not
    cases hm : (isSCRAMHash b).1 with
    | false => rfl
    | true =>
      rw [isSCRAMHash_fst] at hm
      obtain ⟨i, s, k1, k2, hg⟩ := (scramHashRe_rmatch_iff b).1 hm
      rw [FindSubmatch_scramProg_of_grammar b i s k1 k2 hg] at hf
      cases hf

/-- The function `makeSCRAMHash` panics on a list of fewer than five parts. -/
theorem makeSCRAMHash_short (b : List Byte) (parts : List (List Byte)) (inv : PasswordHash)
    (h : parts.length < 5) : makeSCRAMHash b parts inv = none := by
  have h4 : parts[4]? = none := List.getElem?_eq_none (by omega)
  unfold makeSCRAMHash
  split
  · rename_i e1 e2 e3 e4
    rw [h4] at e4
    cases e4
  · rfl

/-- C31: `LoadPasswordHash` returns on every byte string, without a panic, and what it returns
is the missing password, the invalid hash of the input, the bcrypt hash of the input or a SCRAM
hash that keeps the input. The submatches that `isSCRAMHash` returns are those of
`FindSubmatch` for the SCRAM pattern with its groups; `FindSubmatch` of any pattern returns one
entry more than the pattern has groups, and the SCRAM pattern has four groups: when
`isSCRAMHash` accepts the input, the list has five entries, `parts[1]` to `parts[4]` exist and
`makeSCRAMHash` returns. The function `makeSCRAMHash` returns on every list of five parts and
panics on a shorter one. -/
theorem LoadPasswordHash_total (b : List Byte) :
    (∃ h, LoadPasswordHash b = some h ∧
      (h = .emptyPassword ∨ h = .invalidHash b ∨ h = .bcryptHash b ∨
        ∃ decoded, h = .ScramHash b decoded)) ∧
    (∀ parts, re.FindSubmatch scramProg b = some parts → isSCRAMHash b = (true, parts)) ∧
    (re.FindSubmatch scramProg b = none → isSCRAMHash b = (false, [])) ∧
    (∀ prog input parts, re.FindSubmatch prog input = some parts →
      parts.length = 1 + re.groups prog) ∧
    re.groups scramProg = 4 ∧
    ((isSCRAMHash b).1 = true →
      re.FindSubmatch scramProg b = some (isSCRAMHash b).2 ∧
      (isSCRAMHash b).2.length = 1 + re.groups scramProg ∧
      (∀ i, 1 ≤ i → i ≤ 4 → ∃ p, (isSCRAMHash b).2[i]? = some p) ∧
      ∃ r, makeSCRAMHash b (isSCRAMHash b).2 (.invalidHash b) = some r) ∧
    (∀ parts inv, parts.length = 5 → ∃ r, makeSCRAMHash b parts inv = some r) ∧
    (∀ parts inv, parts.length < 5 → makeSCRAMHash b parts inv = none) := by
  refine ⟨?_, (isSCRAMHash_eq_FindSubmatch b).1, (isSCRAMHash_eq_FindSubmatch b).2,
    re.FindSubmatch_length, groups_scramProg, ?_,
    fun parts inv h => makeSCRAMHash_total b parts inv h,
    fun parts inv h => makeSCRAMHash_short b parts inv h⟩
  · rcases LoadPasswordHash_cases b with ⟨-, h⟩ | ⟨-, h | h | ⟨d, h⟩⟩
    · exact ⟨_, h, Or.inl rfl⟩
    · exact ⟨_, h, Or.inr (Or.inl rfl)⟩
    · exact ⟨_, h, Or.inr (Or.inr (Or.inl rfl))⟩
    · exact ⟨_, h, Or.inr (Or.inr (Or.inr ⟨d, rfl⟩))⟩
  · intro hm
    have hfind : re.FindSubmatch scramProg b = some (isSCRAMHash b).2 := by
      cases hf : re.FindSubmatch scramProg b with
      | none =>
        rw [(isSCRAMHash_eq_FindSubmatch b).2 hf] at hm
        cases hm
      | some parts => rw [(isSCRAMHash_eq_FindSubmatch b).1 parts hf]
    have hlen : (isSCRAMHash b).2.length = 1 + re.groups scramProg :=
      re.FindSubmatch_length scramProg b _ hfind
    have h5 : (isSCRAMHash b).2.length = 5 := by
      rw [hlen, groups_scramProg]
    refine ⟨hfind, hlen, fun i _ h4 => ?_, makeSCRAMHash_total b _ _ h5⟩
    have hi : i < (isSCRAMHash b).2.length := by omega
    exact ⟨(isSCRAMHash b).2[i], List.getElem?_eq_getElem hi⟩

end security
